import Mathlib

/-!
# Intrusive doubly-linked list: link primitive and list container

A shallow embedding of `intrusive_list.h` / `intrusive_list.cpp`.

* A node address is a natural number, a pointer is `Option Nat` (`none` is `nullptr`).
* The memory is a pair of total maps giving the `prev` and `next` field of every node.
* Every operation that dereferences a pointer returns `none` when that pointer is null
  (undefined behaviour in the source), and `some` of the new memory otherwise.
* A list object is identified with the address of its `root` sentinel.
-/

namespace intrusive

/-- A raw `base_list_element*`: `none` is `nullptr`. -/
abbrev Ptr := Option Nat

/-- The link fields of every node: `prev{nullptr}` and `next{nullptr}` of `base_list_element`. -/
structure Heap where
  prev : Nat → Ptr
  next : Nat → Ptr

/-- The assignment `a->prev = v`. -/
def setPrev (h : Heap) (a : Nat) (v : Ptr) : Heap :=
  ⟨fun x => if x = a then v else h.prev x, h.next⟩

/-- The assignment `a->next = v`. -/
def setNext (h : Heap) (a : Nat) (v : Ptr) : Heap :=
  ⟨h.prev, fun x => if x = a then v else h.next x⟩

/-- The memory in which every node is default-constructed (both fields null). -/
def emptyHeap : Heap := ⟨fun _ => none, fun _ => none⟩

/-- `base_list_element::link(l, r)`: `l->next = r; r->prev = l;`. -/
def link (l r : Ptr) (h : Heap) : Option Heap :=
  match l, r with
  | some a, some b => some (setPrev (setNext h a (some b)) b (some a))
  | _, _ => none

/-- `base_list_element::in_list()`: `prev != nullptr`. -/
def in_list (h : Heap) (x : Nat) : Bool := (h.prev x).isSome

/-- `base_list_element::unlink()`. -/
def unlink (x : Nat) (h : Heap) : Option Heap :=
  if in_list h x then
    (link (h.prev x) (h.next x) h).map (fun h1 => setPrev (setNext h1 x none) x none)
  else some h

/-- `base_list_element::insert_before(pos)`: `link(pos->prev, this); link(this, pos);`. -/
def insert_before (x : Nat) (pos : Ptr) (h : Heap) : Option Heap :=
  match pos with
  | none => none
  | some p => (link (h.prev p) (some x) h).bind (link (some x) (some p))

/-- `base_list_element::move_from(other)`. -/
def move_from (this other : Nat) (h : Heap) : Option Heap :=
  if h.next other = some other then
    some (setNext (setPrev h this (some this)) this (some this))
  else
    (if (h.prev other).isSome then link (h.prev other) (some this) h else some h).bind
      (fun h1 =>
        (if (h1.next other).isSome then link (some this) (h1.next other) h1 else some h1).bind
          (fun h2 => some (setPrev (setNext h2 other none) other none)))

/-- The default constructor `base_list_element()`: both fields null. -/
def base_list_element_ctor (this : Nat) (h : Heap) : Heap :=
  setNext (setPrev h this none) this none

/-- The move constructor `base_list_element(base_list_element&& other)`. -/
def move_ctor (this other : Nat) (h : Heap) : Option Heap :=
  move_from this other (base_list_element_ctor this h)

/-- The move assignment `base_list_element::operator=(base_list_element&& other)`. -/
def move_assign (this other : Nat) (h : Heap) : Option Heap :=
  (unlink this h).bind (move_from this other)

/-- The destructor `~base_list_element()`. -/
def dtor (this : Nat) (h : Heap) : Option Heap := unlink this h

/-- The constructor `list()`: the root is default-constructed, then
`root.next = root.prev = &root`. -/
def list_ctor (r : Nat) (h : Heap) : Heap :=
  setNext (setPrev (base_list_element_ctor r h) r (some r)) r (some r)

/-- The constructor `list(list&& other)`: the root is move-constructed from `other.root`,
then `other.root.next = other.root.prev = &other.root`. -/
def list_move_ctor (this other : Nat) (h : Heap) : Option Heap :=
  (move_ctor this other h).map
    (fun h1 => setNext (setPrev h1 other (some other)) other (some other))

/-- `list::begin()`: `iterator(root.next)`. -/
def list_begin (r : Nat) (h : Heap) : Ptr := h.next r

/-- `list::end()`: `iterator(&root)`. -/
def list_end (r : Nat) : Ptr := some r

/-- `list::as_iterator(elt)`. -/
def as_iterator (elt : Nat) : Ptr := some elt

/-- `list::empty()`: `root.prev == &root`. -/
def empty (r : Nat) (h : Heap) : Bool := decide (h.prev r = some r)

/-- `std::prev(it)`, that is `operator--`: `ptr = ptr->prev`. -/
def std_prev (it : Ptr) (h : Heap) : Option Ptr :=
  match it with
  | none => none
  | some p => some (h.prev p)

/-- `operator++` of the iterator: `ptr = ptr->next`. -/
def std_next (it : Ptr) (h : Heap) : Option Ptr :=
  match it with
  | none => none
  | some p => some (h.next p)

/-- `list::front()`: `*begin()`. -/
def front (r : Nat) (h : Heap) : Option Nat := list_begin r h

/-- `list::back()`: `*std::prev(end())`. -/
def back (r : Nat) (h : Heap) : Option Nat := (std_prev (list_end r) h).bind id

/-- `list::insert(pos, elt)`; the result is the new memory and the returned iterator. -/
def insert (pos : Ptr) (elt : Nat) (h : Heap) : Option (Heap × Ptr) :=
  if some elt = pos then some (h, pos)
  else
    (unlink elt h).bind (fun h1 =>
      (insert_before elt pos h1).bind (fun h2 =>
        (std_prev pos h2).map (fun res => (h2, res))))

/-- `list::erase(pos)`; the result is the new memory and the returned iterator. -/
def erase (pos : Ptr) (h : Heap) : Option (Heap × Ptr) :=
  match pos with
  | none => none
  | some p => (unlink p h).map (fun h1 => (h1, h.prev p))

/-- `list::push_back(elt)`: `insert(end(), elt)`. -/
def push_back (r elt : Nat) (h : Heap) : Option Heap :=
  (insert (list_end r) elt h).map Prod.fst

/-- `list::push_front(elt)`: `insert(begin(), elt)`. -/
def push_front (r elt : Nat) (h : Heap) : Option Heap :=
  (insert (list_begin r h) elt h).map Prod.fst

/-- `list::pop_back()`: `erase(std::prev(end()))`. -/
def pop_back (r : Nat) (h : Heap) : Option Heap :=
  (std_prev (list_end r) h).bind (fun it => (erase it h).map Prod.fst)

/-- `list::pop_front()`: `erase(begin())`. -/
def pop_front (r : Nat) (h : Heap) : Option Heap :=
  (erase (list_begin r h) h).map Prod.fst

/-- `list::clear()`: `while (!empty()) pop_back();`, the loop bounded by `fuel` tests of
the condition. -/
def clear (r : Nat) : Nat → Heap → Option Heap
  | 0, _ => none
  | fuel + 1, h => if empty r h then some h else (pop_back r h).bind (clear r fuel)

/-- `list::splice(pos, other, first, last)`; the list argument is unused by the source. -/
def splice (pos first last : Ptr) (h : Heap) : Option Heap :=
  if first = last then some h
  else
    (std_prev first h).bind (fun before_first_other =>
      (std_prev last h).bind (fun last_other =>
        (std_prev pos h).bind (fun first_this =>
          (link last_other pos h).bind (fun h1 =>
            (link first_this first h1).bind (fun h2 =>
              link before_first_other last h2)))))

/-- The loop `for (; it != end(); ++it)` collecting the nodes visited, bounded by `fuel`
tests of the condition. -/
def traverseFrom (r : Nat) (h : Heap) : Nat → Ptr → Option (List Nat)
  | 0, _ => none
  | _ + 1, none => none
  | fuel + 1, some p =>
    if p = r then some [] else (traverseFrom r h fuel (h.next p)).map (fun l => p :: l)

/-- The forward traversal from `begin()` to `end()`. -/
def traversal (fuel : Nat) (r : Nat) (h : Heap) : Option (List Nat) :=
  traverseFrom r h fuel (list_begin r h)

/-! ## Well-formed lists -/

/-- Every two consecutive nodes of the path point at each other. -/
def Linked (h : Heap) : List Nat → Prop
  | [] => True
  | a :: t =>
    match t with
    | [] => True
    | b :: _ => (h.next a = some b ∧ h.prev b = some a) ∧ Linked h t

/-- The list whose sentinel is `r` is a closed cycle `r, L, r` of distinct nodes. -/
def WF (h : Heap) (r : Nat) (L : List Nat) : Prop :=
  (r :: L).Nodup ∧ Linked h (r :: (L ++ [r]))

instance Linked.instDecidable (h : Heap) : (l : List Nat) → Decidable (Linked h l)
  | [] => isTrue trivial
  | [_] => isTrue trivial
  | a :: b :: t =>
    have : Decidable (Linked h (b :: t)) := Linked.instDecidable h (b :: t)
    (inferInstance :
      Decidable ((h.next a = some b ∧ h.prev b = some a) ∧ Linked h (b :: t)))

instance WF.instDecidable (h : Heap) (r : Nat) (L : List Nat) : Decidable (WF h r L) :=
  (inferInstance : Decidable ((r :: L).Nodup ∧ Linked h (r :: (L ++ [r]))))

/-! ## The abstract sequence operations the list is compared with -/

/-- The sequence `L` with `elt` placed immediately before `pos`; when `pos` is not in `L`
(it is `end()`), `elt` goes last. -/
def placeBefore (pos elt : Nat) : List Nat → List Nat
  | [] => [elt]
  | a :: t => if a = pos then elt :: a :: t else a :: placeBefore pos elt t

/-- The element that precedes `x` in the sequence, `start` when `x` is the first one. -/
def predIn (start x : Nat) : List Nat → Nat
  | [] => start
  | a :: t => if a = x then start else predIn a x t

/-- The four end operations of the list. -/
inductive Op where
  | push_back (x : Nat)
  | push_front (x : Nat)
  | pop_back
  | pop_front

/-- One end operation run on the list whose sentinel is `r`. -/
def applyOp (r : Nat) : Op → Heap → Option Heap
  | Op.push_back x, h => push_back r x h
  | Op.push_front x, h => push_front r x h
  | Op.pop_back, h => pop_back r h
  | Op.pop_front, h => pop_front r h

/-- A sequence of end operations run in order. -/
def runOps (r : Nat) : List Op → Heap → Option Heap
  | [], h => some h
  | op :: ops, h => (applyOp r op h).bind (runOps r ops)

/-- The same operation on an abstract sequence: append, prepend, drop the last, drop the
first. -/
def absOp : Op → List Nat → List Nat
  | Op.push_back x, l => l ++ [x]
  | Op.push_front x, l => x :: l
  | Op.pop_back, l => l.dropLast
  | Op.pop_front, l => l.tail

/-- A sequence of operations on an abstract sequence. -/
def absRun : List Op → List Nat → List Nat
  | [], l => l
  | op :: ops, l => absRun ops (absOp op l)

/-- The precondition of one end operation: a pushed element is unlinked, a pop finds the
list non-empty. -/
def opPre (r : Nat) : Op → Heap → Bool
  | Op.push_back x, h => !in_list h x
  | Op.push_front x, h => !in_list h x
  | Op.pop_back, h => !empty r h
  | Op.pop_front, h => !empty r h

/-- Every operation of the sequence meets its precondition in the state it is run in. -/
def admissible (r : Nat) : List Op → Heap → Bool
  | [], _ => true
  | op :: ops, h =>
    opPre r op h &&
      (match applyOp r op h with
       | some h1 => admissible r ops h1
       | none => true)

/-- `n` successive calls of `pop_back`. -/
def popBackN (r : Nat) : Nat → Heap → Option Heap
  | 0, h => some h
  | n + 1, h => (pop_back r h).bind (popBackN r n)

/-! ## Compound operations -/

/-- `n` successive calls `insert(pos, elt)` with the same arguments. -/
def insertRepeat (pos : Ptr) (elt : Nat) : Nat → Heap → Option Heap
  | 0, h => some h
  | n + 1, h => (insert pos elt h).bind (fun p => insertRepeat pos elt n p.1)

/-- `list::clear()` with the number of iterations of its loop (calls of `pop_back`)
counted. -/
def clearIter (r : Nat) : Nat → Heap → Option (Heap × Nat)
  | 0, _ => none
  | fuel + 1, h =>
    if empty r h then some (h, 0)
    else (pop_back r h).bind (fun h1 => (clearIter r fuel h1).map (fun p => (p.1, p.2 + 1)))

/-- `list::operator=(list&& other)`: `clear(); root = std::move(other.root);
other.root.next = other.root.prev = &other.root;`. -/
def list_move_assign (fuel : Nat) (this other : Nat) (h : Heap) : Option Heap :=
  (clear this fuel h).bind (fun h1 =>
    (move_assign this other h1).map
      (fun h2 => setNext (setPrev h2 other (some other)) other (some other)))

/-- The swap of two elements through a temporary:
`tmp(std::move(a)); a = std::move(b); b = std::move(tmp);`. -/
def swap_via_tmp (tmp a b : Nat) (h : Heap) : Option Heap :=
  (move_ctor tmp a h).bind (fun h1 => (move_assign a b h1).bind (move_assign b tmp))

/-- The sequence with the node `s` replaced by `d`. -/
def substNode (s d : Nat) (L : List Nat) : List Nat :=
  L.map (fun y => if y = s then d else y)

/-- The sequence with the nodes `a` and `b` exchanged. -/
def swapNodes (a b : Nat) (L : List Nat) : List Nat :=
  L.map (fun y => if y = a then b else if y = b then a else y)

/-! ## Reachable states -/

/-- The node `pos` is a position of the list `r`: its sentinel or one of its elements. -/
def OnList (h : Heap) (r pos : Nat) : Prop := ∃ L, WF h r L ∧ pos ∈ r :: L

/-- The states, a memory and the sentinels of the live lists, reached from the memory of
unlinked nodes by constructing lists and running the list operations within their
contracts: an inserted, pushed or destroyed node is an element (not a sentinel), a
position belongs to the list, a pop finds the list non-empty, a new object is not a linked
node, and a spliced range `[first, last)` is a run `R` of the other list. -/
inductive Reachable : Heap → List Nat → Prop where
  | init : Reachable emptyHeap []
  | new_list {h : Heap} {rs : List Nat} (r : Nat) :
      Reachable h rs → r ∉ rs → in_list h r = false → Reachable (list_ctor r h) (r :: rs)
  | insert {h : Heap} {rs : List Nat} (r pos elt : Nat) (h1 : Heap) (it : Ptr) :
      Reachable h rs → r ∈ rs → elt ∉ rs → OnList h r pos →
      insert (some pos) elt h = some (h1, it) → Reachable h1 rs
  | push_back {h : Heap} {rs : List Nat} (r elt : Nat) (h1 : Heap) :
      Reachable h rs → r ∈ rs → elt ∉ rs → push_back r elt h = some h1 → Reachable h1 rs
  | push_front {h : Heap} {rs : List Nat} (r elt : Nat) (h1 : Heap) :
      Reachable h rs → r ∈ rs → elt ∉ rs → push_front r elt h = some h1 → Reachable h1 rs
  | erase {h : Heap} {rs : List Nat} (r pos : Nat) (h1 : Heap) (it : Ptr) :
      Reachable h rs → r ∈ rs → pos ∉ rs → OnList h r pos →
      erase (some pos) h = some (h1, it) → Reachable h1 rs
  | pop_back {h : Heap} {rs : List Nat} (r : Nat) (h1 : Heap) :
      Reachable h rs → r ∈ rs → empty r h = false → pop_back r h = some h1 →
      Reachable h1 rs
  | pop_front {h : Heap} {rs : List Nat} (r : Nat) (h1 : Heap) :
      Reachable h rs → r ∈ rs → empty r h = false → pop_front r h = some h1 →
      Reachable h1 rs
  | clear {h : Heap} {rs : List Nat} (r fuel : Nat) (h1 : Heap) :
      Reachable h rs → r ∈ rs → clear r fuel h = some h1 → Reachable h1 rs
  | destroy {h : Heap} {rs : List Nat} (x : Nat) (h1 : Heap) :
      Reachable h rs → x ∉ rs → dtor x h = some h1 → Reachable h1 rs
  | move_list {h : Heap} {rs : List Nat} (a b : Nat) (h1 : Heap) :
      Reachable h rs → a ∈ rs → b ∉ rs → in_list h b = false →
      list_move_ctor b a h = some h1 → Reachable h1 (b :: rs)
  | splice {h : Heap} {rs : List Nat} (rA rB pos first last : Nat) (B1 R B2 : List Nat)
      (h1 : Heap) :
      Reachable h rs → rA ∈ rs → rB ∈ rs → rA ≠ rB → OnList h rA pos →
      WF h rB (B1 ++ R ++ B2) → (R ++ (B2 ++ [rB])).head? = some first →
      (B2 ++ [rB]).head? = some last →
      splice (some pos) (some first) (some last) h = some h1 → Reachable h1 rs

/-- The invariant of the reachable states, with the traversal `c r` of every live list
`r`: every live list is well-formed, no sentinel is an element of a list, and every node
on no list has both fields null. -/
def GInv (h : Heap) (rs : List Nat) (c : Nat → List Nat) : Prop :=
  rs.Nodup ∧ (∀ r, r ∈ rs → WF h r (c r)) ∧ (∀ r, r ∈ rs → ∀ r1, r1 ∈ rs → r1 ∉ c r) ∧
    (∀ y, (∀ r, r ∈ rs → y ∉ r :: c r) → h.prev y = none ∧ h.next y = none)

/-! ## Sample memories -/

/-- A newly constructed list at node `0` in a memory of default-constructed nodes. -/
def sample0 : Heap := list_ctor 0 emptyHeap

/-- The list at node `0` after `push_back` of node `10`. -/
def sample1 : Heap := (push_back 0 10 sample0).getD emptyHeap

/-- The list at node `0` after `push_back` of the nodes `10`, `20`, `30`. -/
def sample3 : Heap :=
  (((push_back 0 10 sample0).bind (push_back 0 20)).bind (push_back 0 30)).getD emptyHeap

/-- The memory `sample3` with a second list at node `1` holding node `11`. -/
def sampleTwo : Heap := (push_back 1 11 (list_ctor 1 sample3)).getD emptyHeap

/-- The memory `sample3` with a second list at node `1` holding the nodes `11`, `12`,
`13`, `14`. -/
def sampleFour : Heap :=
  ((((push_back 1 11 (list_ctor 1 sample3)).bind (push_back 1 12)).bind
    (push_back 1 13)).bind (push_back 1 14)).getD emptyHeap

/-! ## Paths of linked nodes -/

@[simp] theorem setPrev_prev (h : Heap) (a : Nat) (v : Ptr) (x : Nat) :
    (setPrev h a v).prev x = if x = a then v else h.prev x := rfl
@[simp] theorem setPrev_next (h : Heap) (a : Nat) (v : Ptr) (x : Nat) :
    (setPrev h a v).next x = h.next x := rfl
@[simp] theorem setNext_next (h : Heap) (a : Nat) (v : Ptr) (x : Nat) :
    (setNext h a v).next x = if x = a then v else h.next x := rfl
@[simp] theorem setNext_prev (h : Heap) (a : Nat) (v : Ptr) (x : Nat) :
    (setNext h a v).prev x = h.prev x := rfl

@[simp] theorem Linked_nil (h : Heap) : Linked h [] := trivial
@[simp] theorem Linked_single (h : Heap) (a : Nat) : Linked h [a] := trivial
@[simp] theorem Linked_cons_cons (h : Heap) (a b : Nat) (t : List Nat) :
    Linked h (a :: b :: t) ↔ (h.next a = some b ∧ h.prev b = some a) ∧ Linked h (b :: t) :=
  Iff.rfl

theorem Linked_append_cons (h : Heap) (P : List Nat) (n : Nat) (S : List Nat) :
    Linked h (P ++ n :: S) ↔ Linked h (P ++ [n]) ∧ Linked h (n :: S) := by
  induction P with
  | nil => simp
  | cons a P ih =>
    cases P with
    | nil => simp
    | cons b P => 
      simp only [List.cons_append, Linked_cons_cons] at ih ⊢
      rw [ih]; tauto

theorem Linked_snoc_snoc (h : Heap) (P : List Nat) (p n : Nat) :
    Linked h (P ++ [p, n]) ↔ Linked h (P ++ [p]) ∧ (h.next p = some n ∧ h.prev n = some p) := by
  rw [Linked_append_cons]; simp

/-- Frame: a path is kept when `next` is kept off its last node and `prev` off its first. -/
theorem Linked_frame {h h1 : Heap} {l : List Nat} (hl : Linked h l)
    (hn : ∀ x ∈ l.dropLast, h1.next x = h.next x)
    (hp : ∀ x ∈ l.tail, h1.prev x = h.prev x) : Linked h1 l := by
  induction l with
  | nil => trivial
  | cons a t ih =>
    cases t with
    | nil => trivial
    | cons b t =>
      simp only [Linked_cons_cons] at hl ⊢
      refine ⟨⟨?_, ?_⟩, ih hl.2 ?_ ?_⟩
      · rw [hn a (by simp)]; exact hl.1.1
      · rw [hp b (by simp)]; exact hl.1.2
      · intro x hx; exact hn x (by simp [List.dropLast]; right; exact hx)
      · intro x hx; exact hp x (by simp at hx ⊢; right; exact hx)

/-- Frame with explicit write sets: `A` holds the nodes whose `next` was written and `B` the
nodes whose `prev` was written. -/
theorem Linked_frame_sets {h h1 : Heap} {l : List Nat} (A B : List Nat) (hl : Linked h l)
    (hn : ∀ y, y ∉ A → h1.next y = h.next y) (hp : ∀ y, y ∉ B → h1.prev y = h.prev y)
    (hA : ∀ a ∈ A, a ∉ l.dropLast) (hB : ∀ b ∈ B, b ∉ l.tail) : Linked h1 l :=
  Linked_frame hl (fun y hy => hn y (fun hyA => hA y hyA hy))
    (fun y hy => hp y (fun hyB => hB y hyB hy))

theorem exists_snoc_of_cons (a : Nat) (l : List Nat) : ∃ I z, a :: l = I ++ [z] := by
  induction l generalizing a with
  | nil => exact ⟨[], a, rfl⟩
  | cons b t ih =>
    obtain ⟨I, z, hI⟩ := ih b
    exact ⟨a :: I, z, by rw [hI]; rfl⟩

theorem exists_cons_of_snoc (l : List Nat) (z : Nat) : ∃ n S, l ++ [z] = n :: S := by
  cases l with
  | nil => exact ⟨z, [], rfl⟩
  | cons b t => exact ⟨b, t ++ [z], rfl⟩

theorem Linked_join {h : Heap} {P S : List Nat} {p n : Nat} (hP : Linked h (P ++ [p]))
    (hS : Linked h (n :: S)) (hn : h.next p = some n) (hp : h.prev n = some p) :
    Linked h (P ++ p :: n :: S) := by
  rw [Linked_append_cons]
  exact ⟨hP, by simp [hn, hp, hS]⟩

/-- What `unlink` does to a node of a well-formed list. -/
theorem unlink_spec {h : Heap} {r : Nat} {L1 L2 : List Nat} {x : Nat}
    (hwf : WF h r (L1 ++ x :: L2)) :
    ∃ h1, unlink x h = some h1 ∧ WF h1 r (L1 ++ L2) ∧ h1.prev x = none ∧ h1.next x = none ∧
      h.prev x = (r :: L1).getLast? ∧ h.next x = (L2 ++ [r]).head? ∧
      (∀ y, y ∉ r :: (L1 ++ x :: L2) → h1.prev y = h.prev y ∧ h1.next y = h.next y) := by
  obtain ⟨hnd, hl⟩ := hwf
  obtain ⟨P, p, hP⟩ := exists_snoc_of_cons r L1
  obtain ⟨n, S, hS⟩ := exists_cons_of_snoc L2 r
  have hpath : r :: (L1 ++ x :: L2 ++ [r]) = P ++ p :: x :: n :: S := by
    have : r :: (L1 ++ x :: L2 ++ [r]) = (r :: L1) ++ x :: (L2 ++ [r]) := by simp
    rw [this, hP, hS]; simp
  rw [hpath] at hl
  rw [Linked_append_cons] at hl
  obtain ⟨hlP, hl2⟩ := hl
  simp only [Linked_cons_cons] at hl2
  obtain ⟨⟨hpx, hxp⟩, ⟨hxn, hnx⟩, hlS⟩ := hl2
  -- membership facts
  have hPm : ∀ y, y ∈ P ++ [p] ↔ y = r ∨ y ∈ L1 := by intro y; rw [← hP]; simp
  have hSm : ∀ y, y ∈ n :: S ↔ y ∈ L2 ∨ y = r := by intro y; rw [← hS]; simp
  have hPt : (P ++ [p]).tail = L1 := by rw [← hP]; rfl
  have hSd : (n :: S).dropLast = L2 := by rw [← hS]; simp
  have hndP : (P ++ [p]).Nodup := by
    rw [← hP]; exact hnd.sublist (by simp)
  have hndS : (n :: S).Nodup := by
    rw [← hS]
    have h1 : (r :: L2).Nodup := hnd.sublist (by simp)
    simp only [List.nodup_cons] at h1
    exact List.Nodup.append h1.2 (by simp) (by simp [h1.1])
  have hnd' : (r :: (L1 ++ L2)).Nodup := hnd.sublist (by simp)
  simp only [List.nodup_cons, List.nodup_append, List.mem_append, List.mem_cons, not_or,
    List.Disjoint] at hnd
  obtain ⟨⟨hrL1, hrx, hrL2⟩, -, ⟨hxL2, -⟩, hdisj⟩ := hnd
  have hxL1 : x ∉ L1 := fun hx => hdisj hx (Or.inl rfl)
  have hpm : p = r ∨ p ∈ L1 := (hPm p).1 (by simp)
  have hnm : n ∈ L2 ∨ n = r := (hSm n).1 (by simp)
  have hpP : p ∉ P := by
    intro hp
    have := List.disjoint_of_nodup_append hndP hp
    simp at this
  have hnS : n ∉ S := (List.nodup_cons.1 hndS).1
  have hxp' : x ≠ p := by
    rintro rfl; rcases hpm with e | e
    · exact hrx e.symm
    · exact hxL1 e
  have hxn' : x ≠ n := by
    rintro rfl; rcases hnm with e | e
    · exact hxL2 e
    · exact hrx e.symm
  have hpL2 : p ∉ L2 := by
    intro hp; rcases hpm with e | e
    · exact hrL2 (e ▸ hp)
    · exact hdisj e (Or.inr hp)
  have hnL1 : n ∉ L1 := by
    intro hn; rcases hnm with e | e
    · exact hdisj hn (Or.inr e)
    · exact hrL1 (e ▸ hn)
  have hxP : x ∉ P ++ [p] := by
    rw [hPm]; rintro (e | e)
    · exact hrx e.symm
    · exact hxL1 e
  have hxS : x ∉ n :: S := by
    rw [hSm]; rintro (e | e)
    · exact hxL2 e
    · exact hrx e.symm
  have hin : in_list h x = true := by simp [in_list, hxp]
  refine ⟨setPrev (setNext (setPrev (setNext h p (some n)) n (some p)) x none) x none,
    ?_, ⟨hnd', ?_⟩, by simp, by simp, ?_, ?_, ?_⟩
  · simp [unlink, hin, hxp, hxn, link]
  · have hfn : ∀ y, y ∉ [x, p] → (setPrev (setNext (setPrev (setNext h p (some n)) n (some p))
        x none) x none).next y = h.next y := by
      intro y hy; simp at hy; simp [hy.1, hy.2]
    have hfp : ∀ y, y ∉ [x, n] → (setPrev (setNext (setPrev (setNext h p (some n)) n (some p))
        x none) x none).prev y = h.prev y := by
      intro y hy; simp at hy; simp [hy.1, hy.2]
    have e : r :: (L1 ++ L2 ++ [r]) = P ++ p :: n :: S := by
      have : r :: (L1 ++ L2 ++ [r]) = (r :: L1) ++ (L2 ++ [r]) := by simp
      rw [this, hP, hS]; simp
    rw [e]
    apply Linked_join
    · refine Linked_frame_sets [x, p] [x, n] hlP hfn hfp ?_ ?_
      · intro a ha; simp at ha; rcases ha with rfl | rfl
        · exact fun hm => hxP (List.mem_of_mem_dropLast hm)
        · simpa using hpP
      · intro b hb; simp at hb; rw [hPt]; rcases hb with rfl | rfl
        · exact hxL1
        · exact hnL1
    · refine Linked_frame_sets [x, p] [x, n] hlS hfn hfp ?_ ?_
      · intro a ha; simp at ha; rw [hSd]; rcases ha with rfl | rfl
        · exact hxL2
        · exact hpL2
      · intro b hb; simp at hb; rcases hb with rfl | rfl
        · exact fun hm => hxS (List.mem_of_mem_tail hm)
        · simpa using hnS
    · simp [Ne.symm hxp']
    · simp [Ne.symm hxn']
  · rw [hP, hxp]; simp
  · rw [hS, hxn]; simp
  · intro y hy
    simp only [List.mem_cons, List.mem_append, not_or] at hy
    have hyx : y ≠ x := hy.2.2.1
    have hyp : y ≠ p := by
      rintro rfl; rcases hpm with e | e
      · exact hy.1 e
      · exact hy.2.1 e
    have hyn : y ≠ n := by
      rintro rfl; rcases hnm with e | e
      · exact hy.2.2.2 e
      · exact hy.1 e
    simp [hyx, hyp, hyn]

/-! ## Well-formed lists: basic facts -/

theorem Linked_prev_isSome {h : Heap} {P : List Nat} {a y : Nat} {S : List Nat}
    (hl : Linked h (a :: (P ++ y :: S))) : (h.prev y).isSome = true := by
  obtain ⟨I, z, hI⟩ := exists_snoc_of_cons a P
  have e : a :: (P ++ y :: S) = I ++ z :: y :: S := by
    have : a :: (P ++ y :: S) = (a :: P) ++ y :: S := rfl
    rw [this, hI]; simp
  rw [e, Linked_append_cons] at hl
  simp only [Linked_cons_cons] at hl
  simp [hl.2.1.2]

theorem Linked_next_isSome {h : Heap} {P : List Nat} {y b : Nat} {S : List Nat}
    (hl : Linked h (P ++ y :: b :: S)) : (h.next y).isSome = true := by
  rw [Linked_append_cons] at hl
  simp only [Linked_cons_cons] at hl
  simp [hl.2.1.1]

/-- Every node of a well-formed list, the sentinel included, has a non-null `prev`. -/
theorem WF.prev_isSome {h : Heap} {r : Nat} {L : List Nat} (hwf : WF h r L) {y : Nat}
    (hy : y ∈ r :: L) : (h.prev y).isSome = true := by
  obtain ⟨-, hl⟩ := hwf
  rcases List.mem_cons.1 hy with rfl | hy
  · have : y :: (L ++ [y]) = y :: (L ++ y :: []) := rfl
    rw [this] at hl
    exact Linked_prev_isSome hl
  · obtain ⟨L1, L2, rfl⟩ := List.append_of_mem hy
    have : r :: (L1 ++ y :: L2 ++ [r]) = r :: (L1 ++ y :: (L2 ++ [r])) := by simp
    rw [this] at hl
    exact Linked_prev_isSome hl

/-- Every node of a well-formed list, the sentinel included, has a non-null `next`. -/
theorem WF.next_isSome {h : Heap} {r : Nat} {L : List Nat} (hwf : WF h r L) {y : Nat}
    (hy : y ∈ r :: L) : (h.next y).isSome = true := by
  obtain ⟨-, hl⟩ := hwf
  rcases List.mem_cons.1 hy with rfl | hy
  · obtain ⟨n, S, hS⟩ := exists_cons_of_snoc L y
    rw [hS] at hl
    exact @Linked_next_isSome h [] _ _ _ hl
  · obtain ⟨L1, L2, rfl⟩ := List.append_of_mem hy
    obtain ⟨n, S, hS⟩ := exists_cons_of_snoc L2 r
    have : r :: (L1 ++ y :: L2 ++ [r]) = (r :: L1) ++ y :: (L2 ++ [r]) := by simp
    rw [this, hS] at hl
    exact Linked_next_isSome hl

/-- A node that is not `in_list()` is neither the sentinel nor an element of a well-formed
list. -/
theorem WF.not_mem_of_not_in_list {h : Heap} {r : Nat} {L : List Nat} (hwf : WF h r L)
    {x : Nat} (hx : in_list h x = false) : x ∉ r :: L := by
  intro hm
  have := hwf.prev_isSome hm
  simp [in_list] at hx
  simp [hx] at this

/-- A well-formed list stays well-formed, with the same traversal, when none of its nodes
is written. -/
theorem WF.frame {h h1 : Heap} {r : Nat} {L : List Nat} (hwf : WF h r L)
    (hf : ∀ y, y ∈ r :: L → h1.prev y = h.prev y ∧ h1.next y = h.next y) : WF h1 r L := by
  refine ⟨hwf.1, Linked_frame hwf.2 ?_ ?_⟩
  · intro x hx
    have hx := List.mem_of_mem_dropLast hx
    exact (hf x (by simpa [or_comm] using hx)).2
  · intro x hx
    have hx := List.mem_of_mem_tail hx
    exact (hf x (by simpa [or_comm] using hx)).1

theorem traverseFrom_linked {h : Heap} {r : Nat} (L : List Nat) (a : Nat) (k : Nat)
    (hl : Linked h (a :: (L ++ [r]))) (hr : r ∉ L) :
    traverseFrom r h (L.length + 1 + k) (h.next a) = some L := by
  induction L generalizing a with
  | nil =>
    simp only [List.nil_append, Linked_cons_cons] at hl
    rw [hl.1.1, show ([] : List Nat).length + 1 + k = k + 1 by simp; omega]
    simp [traverseFrom]
  | cons b t ih =>
    simp only [List.cons_append, Linked_cons_cons] at hl
    simp only [List.mem_cons, not_or] at hr
    have hb : b ≠ r := fun e => hr.1 e.symm
    have := ih b hl.2 hr.2
    rw [hl.1.1]
    simp only [List.length_cons]
    rw [show t.length + 1 + 1 + k = (t.length + 1 + k) + 1 by omega]
    simp [traverseFrom, hb, this]

/-- The forward traversal of a well-formed list returns its sequence of elements, given
enough fuel. -/
theorem WF.traversal_eq {h : Heap} {r : Nat} {L : List Nat} (hwf : WF h r L) (fuel : Nat)
    (hfuel : L.length < fuel) : traversal fuel r h = some L := by
  obtain ⟨k, rfl⟩ : ∃ k, fuel = L.length + 1 + k := ⟨fuel - (L.length + 1), by omega⟩
  exact traverseFrom_linked L r k hwf.2 (List.nodup_cons.1 hwf.1).1

/-- The traversal determines the sequence: a well-formed list has one traversal. -/
theorem WF.unique {h : Heap} {r : Nat} {L L1 : List Nat} (hwf : WF h r L) (hwf1 : WF h r L1) :
    L = L1 := by
  have e1 := hwf.traversal_eq (L.length + L1.length + 1) (by omega)
  have e2 := hwf1.traversal_eq (L.length + L1.length + 1) (by omega)
  rw [e1] at e2
  exact Option.some.inj e2

theorem WF.prev_root {h : Heap} {r : Nat} {L : List Nat} (hwf : WF h r L) :
    h.prev r = (r :: L).getLast? := by
  obtain ⟨I, z, hI⟩ := exists_snoc_of_cons r L
  have hl := hwf.2
  have e : r :: (L ++ [r]) = I ++ [z, r] := by
    have : r :: (L ++ [r]) = (r :: L) ++ [r] := rfl
    rw [this, hI]; simp
  rw [e, Linked_snoc_snoc] at hl
  rw [hI, hl.2.2]; simp

theorem WF.next_root {h : Heap} {r : Nat} {L : List Nat} (hwf : WF h r L) :
    h.next r = (L ++ [r]).head? := by
  obtain ⟨n, S, hS⟩ := exists_cons_of_snoc L r
  have hl := hwf.2
  rw [hS] at hl ⊢
  simp only [Linked_cons_cons] at hl
  rw [hl.1.1]; simp

/-- What `insert_before` does with a node outside a well-formed list. -/
theorem insert_before_spec {h : Heap} {r : Nat} {L1 L2 : List Nat} {x pos : Nat}
    (hwf : WF h r (L1 ++ L2)) (hpos : (L2 ++ [r]).head? = some pos)
    (hx : x ∉ r :: (L1 ++ L2)) :
    ∃ h1, insert_before x (some pos) h = some h1 ∧ WF h1 r (L1 ++ x :: L2) ∧
      h1.prev pos = some x ∧ h1.next x = some pos ∧ h1.prev x = (r :: L1).getLast? ∧
      (∀ y, y ∉ x :: r :: (L1 ++ L2) → h1.prev y = h.prev y ∧ h1.next y = h.next y) := by
  obtain ⟨hnd, hl⟩ := hwf
  obtain ⟨P, p, hP⟩ := exists_snoc_of_cons r L1
  obtain ⟨n, S, hS⟩ := exists_cons_of_snoc L2 r
  have hn : n = pos := by rw [hS] at hpos; simpa using hpos
  subst hn
  have hpath : r :: (L1 ++ L2 ++ [r]) = P ++ p :: n :: S := by
    have : r :: (L1 ++ L2 ++ [r]) = (r :: L1) ++ (L2 ++ [r]) := by simp
    rw [this, hP, hS]; simp
  rw [hpath, Linked_append_cons] at hl
  obtain ⟨hlP, hl2⟩ := hl
  simp only [Linked_cons_cons] at hl2
  obtain ⟨⟨hpn, hnp⟩, hlS⟩ := hl2
  have hPm : ∀ y, y ∈ P ++ [p] ↔ y = r ∨ y ∈ L1 := by intro y; rw [← hP]; simp
  have hSm : ∀ y, y ∈ n :: S ↔ y ∈ L2 ∨ y = r := by intro y; rw [← hS]; simp
  have hPt : (P ++ [p]).tail = L1 := by rw [← hP]; rfl
  have hSd : (n :: S).dropLast = L2 := by rw [← hS]; simp
  have hndP : (P ++ [p]).Nodup := by
    rw [← hP]; exact hnd.sublist (by simp)
  have hndS : (n :: S).Nodup := by
    rw [← hS]
    have h1 : (r :: L2).Nodup := hnd.sublist (by simp)
    simp only [List.nodup_cons] at h1
    exact List.Nodup.append h1.2 (by simp) (by simp [h1.1])
  simp only [List.mem_cons, List.mem_append, not_or] at hx
  obtain ⟨hxr, hxL1, hxL2⟩ := hx
  have hnd' : (r :: (L1 ++ x :: L2)).Nodup := by
    simp only [List.nodup_cons, List.nodup_append, List.mem_append, List.mem_cons, not_or,
      List.Disjoint] at hnd ⊢
    refine ⟨⟨hnd.1.1, fun e => hxr e.symm, hnd.1.2⟩, hnd.2.1, ⟨hxL2, hnd.2.2.1⟩, ?_⟩
    rintro a ha (rfl | ha2)
    · exact hxL1 ha
    · exact hnd.2.2.2 ha ha2
  simp only [List.nodup_cons, List.nodup_append, List.mem_append, not_or,
    List.Disjoint] at hnd
  obtain ⟨⟨hrL1, hrL2⟩, -, -, hdisj⟩ := hnd
  have hpm : p = r ∨ p ∈ L1 := (hPm p).1 (by simp)
  have hnm : n ∈ L2 ∨ n = r := (hSm n).1 (by simp)
  have hpP : p ∉ P := by
    intro hp
    have := List.disjoint_of_nodup_append hndP hp
    simp at this
  have hnS : n ∉ S := (List.nodup_cons.1 hndS).1
  have hxp' : x ≠ p := by
    rintro rfl; rcases hpm with e | e
    · exact hxr e
    · exact hxL1 e
  have hxn' : x ≠ n := by
    rintro rfl; rcases hnm with e | e
    · exact hxL2 e
    · exact hxr e
  have hpL2 : p ∉ L2 := by
    intro hp; rcases hpm with e | e
    · exact hrL2 (e ▸ hp)
    · exact hdisj e hp
  have hnL1 : n ∉ L1 := by
    intro hn; rcases hnm with e | e
    · exact hdisj hn e
    · exact hrL1 (e ▸ hn)
  have hxP : x ∉ P ++ [p] := by
    rw [hPm]; rintro (e | e)
    · exact hxr e
    · exact hxL1 e
  have hxS : x ∉ n :: S := by
    rw [hSm]; rintro (e | e)
    · exact hxL2 e
    · exact hxr e
  refine ⟨setPrev (setNext (setPrev (setNext h p (some x)) x (some p)) x (some n)) n (some x),
    ?_, ⟨hnd', ?_⟩, by simp, by simp, ?_, ?_⟩
  · simp [insert_before, hnp, link, Option.bind]
  · have hfn : ∀ y, y ∉ [p, x] → (setPrev (setNext (setPrev (setNext h p (some x)) x (some p))
        x (some n)) n (some x)).next y = h.next y := by
      intro y hy; simp at hy; simp [hy.1, hy.2]
    have hfp : ∀ y, y ∉ [x, n] → (setPrev (setNext (setPrev (setNext h p (some x)) x (some p))
        x (some n)) n (some x)).prev y = h.prev y := by
      intro y hy; simp at hy; simp [hy.1, hy.2]
    have e : r :: (L1 ++ x :: L2 ++ [r]) = P ++ p :: x :: n :: S := by
      have : r :: (L1 ++ x :: L2 ++ [r]) = (r :: L1) ++ x :: (L2 ++ [r]) := by simp
      rw [this, hP, hS]; simp
    rw [e, Linked_append_cons]
    simp only [Linked_cons_cons]
    refine ⟨?_, ⟨?_, ?_⟩, ⟨?_, ?_⟩, ?_⟩
    · refine Linked_frame_sets [p, x] [x, n] hlP hfn hfp ?_ ?_
      · intro a ha; simp at ha; rcases ha with rfl | rfl
        · simpa using hpP
        · exact fun hm => hxP (List.mem_of_mem_dropLast hm)
      · intro b hb; simp at hb; rw [hPt]; rcases hb with rfl | rfl
        · exact hxL1
        · exact hnL1
    · simp [Ne.symm hxp']
    · simp [hxn']
    · simp
    · simp
    · refine Linked_frame_sets [p, x] [x, n] hlS hfn hfp ?_ ?_
      · intro a ha; simp at ha; rw [hSd]; rcases ha with rfl | rfl
        · exact hpL2
        · exact hxL2
      · intro b hb; simp at hb; rcases hb with rfl | rfl
        · exact fun hm => hxS (List.mem_of_mem_tail hm)
        · simpa using hnS
  · rw [hP]; simp [hxn']
  · intro y hy
    simp only [List.mem_cons, List.mem_append, not_or] at hy
    have hyx : y ≠ x := hy.1
    have hyp : y ≠ p := by
      rintro rfl; rcases hpm with e | e
      · exact hy.2.1 e
      · exact hy.2.2.1 e
    have hyn : y ≠ n := by
      rintro rfl; rcases hnm with e | e
      · exact hy.2.2.2 e
      · exact hy.2.1 e
    simp [hyx, hyp, hyn]

/-! ## Abstract sequences -/

theorem placeBefore_of_not_mem (pos elt : Nat) (L : List Nat) (hp : pos ∉ L) :
    placeBefore pos elt L = L ++ [elt] := by
  induction L with
  | nil => rfl
  | cons a t ih =>
    simp only [List.mem_cons, not_or] at hp
    simp [placeBefore, Ne.symm hp.1, ih hp.2]

theorem placeBefore_split (pos elt : Nat) (L1 L2 : List Nat) (hp : pos ∉ L1) :
    placeBefore pos elt (L1 ++ pos :: L2) = L1 ++ elt :: pos :: L2 := by
  induction L1 with
  | nil => simp [placeBefore]
  | cons a t ih =>
    simp only [List.mem_cons, not_or] at hp
    simp [placeBefore, Ne.symm hp.1, ih hp.2]

/-- A position of a list (an element or the sentinel) cuts the sequence in two. -/
theorem exists_split_at {r : Nat} {L : List Nat} {pos : Nat} (hnd : (r :: L).Nodup)
    (hpos : pos ∈ r :: L) (elt : Nat) :
    ∃ L1 L2, L = L1 ++ L2 ∧ (L2 ++ [r]).head? = some pos ∧
      placeBefore pos elt L = L1 ++ elt :: L2 := by
  rcases List.mem_cons.1 hpos with rfl | hp
  · refine ⟨L, [], by simp, by simp, ?_⟩
    exact placeBefore_of_not_mem _ _ _ (List.nodup_cons.1 hnd).1
  · obtain ⟨L1, L2, rfl⟩ := List.append_of_mem hp
    refine ⟨L1, pos :: L2, rfl, by simp, ?_⟩
    have h1 : (L1 ++ pos :: L2).Nodup := (List.nodup_cons.1 hnd).2
    have : pos ∉ L1 := by
      intro hm
      have := List.disjoint_of_nodup_append h1 hm
      simp at this
    exact placeBefore_split _ _ _ _ this

theorem erase_split {L1 L2 : List Nat} {x : Nat} (hnd : (L1 ++ x :: L2).Nodup) :
    (L1 ++ x :: L2).erase x = L1 ++ L2 := by
  have : x ∉ L1 := by
    intro hm
    have := List.disjoint_of_nodup_append hnd hm
    simp at this
  rw [List.erase_append_right _ this]; simp

theorem predIn_split (start x : Nat) (L1 L2 : List Nat) (hx : x ∉ L1) :
    some (predIn start x (L1 ++ x :: L2)) = (start :: L1).getLast? := by
  induction L1 generalizing start with
  | nil => simp [predIn]
  | cons a t ih =>
    simp only [List.mem_cons, not_or] at hx
    have e : predIn start x (a :: t ++ x :: L2) = predIn a x (t ++ x :: L2) := by
      simp [predIn, Ne.symm hx.1]
    rw [e, ih a hx.2]
    simp [List.getLast?_cons_cons]

/-! ## The list operations on well-formed lists -/

/-- What `unlink` does with a node that is unlinked or an element of the list: it leaves
the list without it. -/
theorem unlink_any {h : Heap} {r : Nat} {L : List Nat} {x : Nat} (hwf : WF h r L)
    (hx : in_list h x = false ∨ x ∈ L) :
    ∃ h1, unlink x h = some h1 ∧ WF h1 r (L.erase x) ∧ x ∉ r :: L.erase x ∧
      in_list h1 x = false ∧
      (∀ y, y ∉ r :: L → h1.prev y = h.prev y ∧ h1.next y = h.next y) := by
  by_cases hin : in_list h x = false
  · have hxm := hwf.not_mem_of_not_in_list hin
    have hxL : x ∉ L := fun hm => hxm (List.mem_cons_of_mem _ hm)
    refine ⟨h, by simp [unlink, hin], ?_, ?_, hin, fun _ _ => ⟨rfl, rfl⟩⟩
    · rw [List.erase_of_not_mem hxL]; exact hwf
    · rw [List.erase_of_not_mem hxL]; exact hxm
  · have hxL : x ∈ L := by
      rcases hx with hx | hx
      · exact absurd hx hin
      · exact hx
    obtain ⟨L1, L2, rfl⟩ := List.append_of_mem hxL
    obtain ⟨h1, hu, hwf1, hp, hn, -, -, hfr⟩ := unlink_spec hwf
    have hnd := (List.nodup_cons.1 hwf.1).2
    refine ⟨h1, hu, ?_, ?_, by simp [in_list, hp], fun y hy => hfr y hy⟩
    · rw [erase_split hnd]; exact hwf1
    · rw [erase_split hnd]
      have := hwf.1
      simp only [List.nodup_cons, List.nodup_append, List.mem_append, List.mem_cons, not_or,
        List.Disjoint] at this
      simp only [List.mem_cons, List.mem_append, not_or]
      exact ⟨fun e => this.1.2.1 e.symm, fun hm => this.2.2.2 hm (Or.inl rfl), this.2.2.1.1⟩

/-! ## Insertion and removal -/

/-- The `prev` and `next` of every node of a well-formed list are nodes of that list. -/
theorem WF.closed {h : Heap} {r : Nat} {L : List Nat} (hwf : WF h r L) {y : Nat}
    (hy : y ∈ r :: L) :
    (∀ v, h.prev y = some v → v ∈ r :: L) ∧ (∀ v, h.next y = some v → v ∈ r :: L) := by
  rcases List.mem_cons.1 hy with rfl | hy
  · constructor
    · intro v hv
      rw [hwf.prev_root] at hv
      exact List.mem_of_getLast?_eq_some hv
    · intro v hv
      rw [hwf.next_root] at hv
      have := List.mem_of_mem_head? hv
      simp only [List.mem_append, List.mem_singleton] at this
      simp only [List.mem_cons]; tauto
  · obtain ⟨L1, L2, rfl⟩ := List.append_of_mem hy
    obtain ⟨h1, -, -, -, -, hprev, hnext, -⟩ := unlink_spec hwf
    constructor
    · intro v hv
      rw [hprev] at hv
      have := List.mem_of_getLast?_eq_some hv
      simp only [List.mem_cons, List.mem_append] at this ⊢; tauto
    · intro v hv
      rw [hnext] at hv
      have := List.mem_of_mem_head? hv
      simp only [List.mem_append, List.mem_singleton] at this
      simp only [List.mem_cons, List.mem_append]; tauto

/-- C2: `insert(pos, elt)` on a well-formed list with traversal `L`, for a position `pos`
of the list (an element or `end()`) and an element `elt` that is unlinked or linked in this
list, `as_iterator(elt) != pos`: the list stays well-formed, its traversal is `L` with `elt`
removed and then placed immediately before `pos`, `pos` is still a position of the list,
`std::prev(pos)` is `elt`, and the returned iterator is `as_iterator(elt)`. -/
theorem insert_correct (h : Heap) (r : Nat) (L : List Nat) (pos elt : Nat)
    (hwf : WF h r L) (hpos : pos ∈ r :: L) (helt : in_list h elt = false ∨ elt ∈ L)
    (hne : as_iterator elt ≠ some pos) :
    ∃ h1, insert (some pos) elt h = some (h1, as_iterator elt) ∧
      WF h1 r (placeBefore pos elt (L.erase elt)) ∧
      traversal (L.length + 2) r h1 = some (placeBefore pos elt (L.erase elt)) ∧
      pos ∈ r :: placeBefore pos elt (L.erase elt) ∧
      std_prev (some pos) h1 = some (as_iterator elt) := by
  have hne' : elt ≠ pos := fun e => hne (by rw [e]; rfl)
  obtain ⟨h1, hu, hwf1, hx1, -, -⟩ := unlink_any hwf helt
  have hpos' : pos ∈ r :: L.erase elt := by
    rcases List.mem_cons.1 hpos with e | hp
    · exact e ▸ List.mem_cons_self _ _
    · exact List.mem_cons_of_mem _ ((List.mem_erase_of_ne (Ne.symm hne')).2 hp)
  obtain ⟨L1, L2, hL, hhead, hplace⟩ := exists_split_at hwf1.1 hpos' elt
  rw [hL] at hwf1 hx1
  obtain ⟨h2, hib, hwf2, hprev, -, -, -⟩ := insert_before_spec hwf1 hhead hx1
  have hlen : (L1 ++ elt :: L2).length < L.length + 2 := by
    have h3 : (L.erase elt).length ≤ L.length := (List.erase_sublist _ _).length_le
    rw [hL] at h3
    simp only [List.length_append, List.length_cons] at h3 ⊢
    omega
  have hposm : pos ∈ r :: (L1 ++ elt :: L2) := by
    rw [hL] at hpos'
    simp only [List.mem_cons, List.mem_append] at hpos' ⊢
    tauto
  refine ⟨h2, ?_, ?_, ?_, ?_, ?_⟩
  · have hc : ¬ (some elt = some pos) := fun e => hne' (Option.some.inj e)
    simp [insert, hc, hu, hib, std_prev, hprev, as_iterator]
  · rw [hplace]; exact hwf2
  · rw [hplace]; exact hwf2.traversal_eq _ hlen
  · rw [hplace]; exact hposm
  · simp [std_prev, hprev, as_iterator]

/-- C3: `erase(pos)` at an element of a well-formed list with traversal `L`: the list stays
well-formed, its traversal is `L` without that element, the erased element is no longer
`in_list()`, and the returned iterator is at the element that preceded it in `L`, at
`end()` when it was the first. -/
theorem erase_correct (h : Heap) (r : Nat) (L : List Nat) (pos : Nat)
    (hwf : WF h r L) (hpos : pos ∈ L) :
    ∃ h1, erase (some pos) h = some (h1, some (predIn r pos L)) ∧
      WF h1 r (L.erase pos) ∧ traversal L.length r h1 = some (L.erase pos) ∧
      in_list h1 pos = false ∧ (L.erase pos = [] → empty r h1 = true) := by
  obtain ⟨L1, L2, rfl⟩ := List.append_of_mem hpos
  obtain ⟨h1, hu, hwf1, hp, hn, hprev, -, -⟩ := unlink_spec hwf
  have hnd := (List.nodup_cons.1 hwf.1).2
  have hx1 : pos ∉ L1 := by
    intro hm
    have := List.disjoint_of_nodup_append hnd hm
    simp at this
  rw [erase_split hnd]
  refine ⟨h1, ?_, hwf1, hwf1.traversal_eq _ (by simp), by simp [in_list, hp], ?_⟩
  · simp [erase, hu, hprev, predIn_split r pos L1 L2 hx1]
  · intro he
    rw [he] at hwf1
    have := hwf1.prev_root
    simp [empty, this]

/-- C9: destroying an element linked in a well-formed list with traversal `L` leaves the
list well-formed with traversal `L` minus that element, and no node of the list keeps a
`prev` or `next` that refers to the destroyed node. -/
theorem dtor_correct (h : Heap) (r : Nat) (L : List Nat) (x : Nat)
    (hwf : WF h r L) (hx : x ∈ L) :
    ∃ h1, dtor x h = some h1 ∧ WF h1 r (L.erase x) ∧
      traversal L.length r h1 = some (L.erase x) ∧
      (∀ y, y ∈ r :: L.erase x → h1.prev y ≠ some x ∧ h1.next y ≠ some x) ∧
      (∀ y, y ∉ r :: L → h1.prev y = h.prev y ∧ h1.next y = h.next y) := by
  obtain ⟨h1, hu, hwf1, hx1, -, hfr⟩ := unlink_any hwf (Or.inr hx)
  have hlen : (L.erase x).length < L.length := by
    rw [List.length_erase_of_mem hx]
    have := List.length_pos_of_mem hx
    omega
  refine ⟨h1, hu, hwf1, hwf1.traversal_eq _ hlen, ?_, hfr⟩
  intro y hy
  have hc := hwf1.closed hy
  exact ⟨fun e => hx1 (hc.1 x e), fun e => hx1 (hc.2 x e)⟩

/-- Witness of C3 on the examples of the specification: erasing `20` from `{10,20,30}`
returns an iterator at `10` and leaves `{10,30}`; `erase(begin())` on a one-element list
returns `end()` and leaves the list empty. -/
theorem erase_correct_witness :
    (WF sample3 0 [10, 20, 30] ∧
      ∃ h1, erase (as_iterator 20) sample3 = some (h1, as_iterator 10) ∧
        WF h1 0 [10, 30] ∧ traversal 3 0 h1 = some [10, 30] ∧ in_list h1 20 = false) ∧
    (WF sample1 0 [10] ∧
      ∃ h1, erase (list_begin 0 sample1) sample1 = some (h1, list_end 0) ∧
        WF h1 0 [] ∧ in_list h1 10 = false ∧ empty 0 h1 = true) := by
  refine ⟨⟨by decide, ?_⟩, ⟨by decide, ?_⟩⟩
  · obtain ⟨h1, h⟩ := erase_correct sample3 0 [10, 20, 30] 20 (by decide) (by decide)
    exact ⟨h1, h.1, h.2.1, h.2.2.1, h.2.2.2.1⟩
  · obtain ⟨h1, h⟩ := erase_correct sample1 0 [10] 10 (by decide) (by decide)
    exact ⟨h1, h.1, h.2.1, h.2.2.2.1, h.2.2.2.2 rfl⟩

/-- Witness of C2: in `{10,20,30}`, `insert` of the linked element `30` before `10`, and of
the unlinked node `40` before `end()`. -/
theorem insert_correct_witness :
    (∃ h1, insert (as_iterator 10) 30 sample3 = some (h1, as_iterator 30) ∧
      WF h1 0 [30, 10, 20] ∧ traversal 5 0 h1 = some [30, 10, 20] ∧
      std_prev (as_iterator 10) h1 = some (as_iterator 30)) ∧
    (∃ h1, insert (list_end 0) 40 sample3 = some (h1, as_iterator 40) ∧
      WF h1 0 [10, 20, 30, 40] ∧ traversal 5 0 h1 = some [10, 20, 30, 40] ∧
      std_prev (list_end 0) h1 = some (as_iterator 40)) := by
  constructor
  · obtain ⟨h1, h⟩ := insert_correct sample3 0 [10, 20, 30] 10 30 (by decide) (by decide)
      (Or.inr (by decide)) (by decide)
    exact ⟨h1, h.1, h.2.1, h.2.2.1, h.2.2.2.2⟩
  · obtain ⟨h1, h⟩ := insert_correct sample3 0 [10, 20, 30] 0 40 (by decide) (by decide)
      (Or.inl (by decide)) (by decide)
    exact ⟨h1, h.1, h.2.1, h.2.2.1, h.2.2.2.2⟩

/-- Witness of C9: destroying the element `20` of `{10,20,30}`. -/
theorem dtor_correct_witness :
    ∃ h1, dtor 20 sample3 = some h1 ∧ WF h1 0 [10, 30] ∧
      traversal 3 0 h1 = some [10, 30] ∧
      (∀ y, y ∈ [0, 10, 30] → h1.prev y ≠ some 20 ∧ h1.next y ≠ some 20) := by
  obtain ⟨h1, h⟩ := dtor_correct sample3 0 [10, 20, 30] 20 (by decide) (by decide)
  exact ⟨h1, h.1, h.2.1, h.2.2.1, h.2.2.2.1⟩

/-! ## Observers -/

/-- A newly constructed list is well-formed with the empty traversal. -/
theorem list_ctor_WF (r : Nat) (h0 : Heap) : WF (list_ctor r h0) r [] := by
  refine ⟨by simp, ?_⟩
  simp [list_ctor, base_list_element_ctor]

theorem WF.empty_iff {h : Heap} {r : Nat} {L : List Nat} (hwf : WF h r L) :
    empty r h = true ↔ L = [] := by
  have hp := hwf.prev_root
  have hr : r ∉ L := (List.nodup_cons.1 hwf.1).1
  constructor
  · intro he
    simp only [empty, decide_eq_true_eq] at he
    rw [he] at hp
    by_contra hne
    have h1 : (r :: L).getLast? = L.getLast? := by
      cases L with
      | nil => exact absurd rfl hne
      | cons a t => simp [List.getLast?_cons_cons]
    rw [h1] at hp
    exact hr (List.mem_of_getLast?_eq_some hp.symm)
  · rintro rfl
    simp [empty, hp]

/-- C10: for a well-formed list with traversal `L`, `empty()` holds iff `L` is empty iff
`begin() == end()`; when `L` is non-empty `front()` is its first and `back()` its last
element; and a newly constructed list is well-formed and empty. -/
theorem observers_correct (h : Heap) (r : Nat) (L : List Nat) (hwf : WF h r L) :
    (empty r h = true ↔ L = []) ∧ (L = [] ↔ list_begin r h = list_end r) ∧
      (L ≠ [] → front r h = L.head? ∧ back r h = L.getLast?) ∧
      (front r h = (L ++ [r]).head? ∧ back r h = (r :: L).getLast?) ∧
      (∀ h0 : Heap, WF (list_ctor r h0) r [] ∧ empty r (list_ctor r h0) = true ∧
        list_begin r (list_ctor r h0) = list_end r) := by
  have hp := hwf.prev_root
  have hn := hwf.next_root
  have hr : r ∉ L := (List.nodup_cons.1 hwf.1).1
  refine ⟨hwf.empty_iff, ?_, ?_, ?_, ?_⟩
  · constructor
    · rintro rfl
      simpa [list_begin, list_end] using hn
    · intro he
      simp only [list_begin, list_end] at he
      rw [he] at hn
      cases L with
      | nil => rfl
      | cons a t =>
        simp only [List.cons_append, List.head?_cons, Option.some.injEq] at hn
        exact absurd (hn ▸ List.mem_cons_self _ _) hr
  · intro hne
    cases L with
    | nil => exact absurd rfl hne
    | cons a t =>
      constructor
      · simp [front, list_begin, hn]
      · simp [back, std_prev, list_end, hp, List.getLast?_cons_cons]
  · exact ⟨by simp [front, list_begin, hn], by simp [back, std_prev, list_end, hp]⟩
  · intro h0
    exact ⟨list_ctor_WF r h0, by simp [empty, list_ctor], by simp [list_begin, list_end, list_ctor]⟩

/-- Witness of C10 on `{10,20,30}`: not empty, `front()` is `10`, `back()` is `30`. -/
theorem observers_correct_witness :
    empty 0 sample3 = false ∧ list_begin 0 sample3 ≠ list_end 0 ∧
      front 0 sample3 = some 10 ∧ back 0 sample3 = some 30 ∧ empty 0 sample0 = true := by
  have h := observers_correct sample3 0 [10, 20, 30] (by decide)
  have h3 := h.2.2.1 (by decide)
  refine ⟨?_, ?_, h3.1, h3.2, (h.2.2.2.2 emptyHeap).2.1⟩
  · cases he : empty 0 sample3 with
    | false => rfl
    | true => exact absurd (h.1.1 he) (by decide)
  · exact fun e => absurd (h.2.1.2 e) (by decide)

/-! ## The end operations -/

theorem push_back_spec {h : Heap} {r : Nat} {L : List Nat} {x : Nat} (hwf : WF h r L)
    (hx : in_list h x = false) :
    ∃ h1, push_back r x h = some h1 ∧ WF h1 r (L ++ [x]) ∧
      (∀ y, y ∉ x :: r :: L → h1.prev y = h.prev y ∧ h1.next y = h.next y) := by
  have hxm := hwf.not_mem_of_not_in_list hx
  have hwf' : WF h r (L ++ []) := by simpa using hwf
  obtain ⟨h1, hib, hwf1, hprev, -, -, hfr⟩ :=
    @insert_before_spec h r L [] x r hwf' (by simp) (by simpa using hxm)
  have hxr : x ≠ r := fun e => hxm (e ▸ List.mem_cons_self _ _)
  refine ⟨h1, ?_, hwf1, by simpa using hfr⟩
  simp [push_back, insert, list_end, hxr, unlink, hx, hib, std_prev]

theorem push_front_spec {h : Heap} {r : Nat} {L : List Nat} {x : Nat} (hwf : WF h r L)
    (hx : in_list h x = false) :
    ∃ h1, push_front r x h = some h1 ∧ WF h1 r (x :: L) ∧
      (∀ y, y ∉ x :: r :: L → h1.prev y = h.prev y ∧ h1.next y = h.next y) := by
  have hxm := hwf.not_mem_of_not_in_list hx
  obtain ⟨n, S, hS⟩ := exists_cons_of_snoc L r
  have hn : h.next r = some n := by rw [hwf.next_root, hS]; rfl
  have hnm : n ∈ r :: L := by
    have : n ∈ L ++ [r] := by rw [hS]; exact List.mem_cons_self _ _
    simp only [List.mem_append, List.mem_singleton] at this
    simp only [List.mem_cons]; tauto
  have hxn : x ≠ n := fun e => hxm (e ▸ hnm)
  have hwf' : WF h r ([] ++ L) := by simpa using hwf
  obtain ⟨h1, hib, hwf1, hprev, -, -, hfr⟩ :=
    @insert_before_spec h r [] L x n hwf' (by rw [hS]; rfl)
      (by simpa using hxm)
  refine ⟨h1, ?_, by simpa using hwf1, by simpa using hfr⟩
  simp [push_front, insert, list_begin, hn, hxn, unlink, hx, hib, std_prev]

theorem pop_back_spec {h : Heap} {r : Nat} {I : List Nat} {z : Nat}
    (hwf : WF h r (I ++ [z])) :
    ∃ h1, pop_back r h = some h1 ∧ WF h1 r I ∧ h1.prev z = none ∧ h1.next z = none ∧
      (∀ y, y ∉ r :: (I ++ [z]) → h1.prev y = h.prev y ∧ h1.next y = h.next y) := by
  have hp : h.prev r = some z := by
    rw [hwf.prev_root, ← List.cons_append, List.getLast?_concat]
  obtain ⟨h1, hu, hwf1, hp1, hn1, -, -, hfr⟩ := @unlink_spec h r I [] z hwf
  refine ⟨h1, ?_, by simpa using hwf1, hp1, hn1, hfr⟩
  simp [pop_back, std_prev, list_end, hp, erase, hu]

theorem pop_front_spec {h : Heap} {r : Nat} {a : Nat} {t : List Nat}
    (hwf : WF h r (a :: t)) :
    ∃ h1, pop_front r h = some h1 ∧ WF h1 r t ∧ h1.prev a = none ∧ h1.next a = none ∧
      (∀ y, y ∉ r :: a :: t → h1.prev y = h.prev y ∧ h1.next y = h.next y) := by
  have hn : h.next r = some a := by rw [hwf.next_root]; rfl
  obtain ⟨h1, hu, hwf1, hp1, hn1, -, -, hfr⟩ :=
    @unlink_spec h r [] t a (by simpa using hwf)
  refine ⟨h1, ?_, by simpa using hwf1, hp1, hn1, by simpa using hfr⟩
  simp [pop_front, list_begin, hn, erase, hu]

/-- One admissible end operation refines its abstract counterpart. -/
theorem applyOp_refines {h : Heap} {r : Nat} {L : List Nat} (op : Op) (hwf : WF h r L)
    (hpre : opPre r op h = true) :
    ∃ h1, applyOp r op h = some h1 ∧ WF h1 r (absOp op L) := by
  cases op with
  | push_back x =>
    simp only [opPre, Bool.not_eq_true'] at hpre
    obtain ⟨h1, e, hw, -⟩ := push_back_spec hwf hpre
    exact ⟨h1, e, hw⟩
  | push_front x =>
    simp only [opPre, Bool.not_eq_true'] at hpre
    obtain ⟨h1, e, hw, -⟩ := push_front_spec hwf hpre
    exact ⟨h1, e, hw⟩
  | pop_back =>
    simp only [opPre, Bool.not_eq_true'] at hpre
    have hne : L ≠ [] := fun e => by
      have := hwf.empty_iff.2 e
      rw [hpre] at this; exact absurd this (by decide)
    obtain ⟨I, z, rfl⟩ : ∃ I z, L = I ++ [z] := by
      cases L with
      | nil => exact absurd rfl hne
      | cons a t => exact exists_snoc_of_cons a t
    obtain ⟨h1, e, hw, -⟩ := pop_back_spec hwf
    exact ⟨h1, e, by simpa [absOp] using hw⟩
  | pop_front =>
    simp only [opPre, Bool.not_eq_true'] at hpre
    cases L with
    | nil =>
      have := hwf.empty_iff.2 rfl
      rw [hpre] at this; exact absurd this (by decide)
    | cons a t =>
      obtain ⟨h1, e, hw, -⟩ := pop_front_spec hwf
      exact ⟨h1, e, by simpa [absOp] using hw⟩

theorem runOps_refines {r : Nat} (ops : List Op) {h : Heap} {L : List Nat} (hwf : WF h r L)
    (hadm : admissible r ops h = true) :
    ∃ h1, runOps r ops h = some h1 ∧ WF h1 r (absRun ops L) := by
  induction ops generalizing h L with
  | nil => exact ⟨h, rfl, hwf⟩
  | cons op ops ih =>
    simp only [admissible, Bool.and_eq_true] at hadm
    obtain ⟨h1, e, hw⟩ := applyOp_refines op hwf hadm.1
    have hadm2 := hadm.2
    rw [e] at hadm2
    obtain ⟨h2, e2, hw2⟩ := ih hw hadm2
    exact ⟨h2, by simp [runOps, e, e2], hw2⟩

/-- C1: from a newly constructed list, every sequence of `push_back`, `push_front`,
`pop_back`, `pop_front` whose pushed elements are unlinked when pushed and whose pops find
the list non-empty runs to completion, and the forward traversal of the result is the
sequence obtained from the empty sequence by append, prepend, drop the last, drop the
first. -/
theorem end_ops_refine (r : Nat) (h0 : Heap) (ops : List Op)
    (hadm : admissible r ops (list_ctor r h0) = true) :
    ∃ h1, runOps r ops (list_ctor r h0) = some h1 ∧ WF h1 r (absRun ops []) ∧
      traversal ((absRun ops []).length + 1) r h1 = some (absRun ops []) := by
  obtain ⟨h1, e, hw⟩ := runOps_refines ops (list_ctor_WF r h0) hadm
  exact ⟨h1, e, hw, hw.traversal_eq _ (by omega)⟩

/-- Witness of C1: push_back 1, push_front 2, push_back 3, pop_front, push_front 2 (the
popped node pushed again), pop_back. -/
theorem end_ops_refine_witness :
    absRun [Op.push_back 1, Op.push_front 2, Op.push_back 3, Op.pop_front, Op.push_front 2,
      Op.pop_back] [] = [2, 1] ∧
    ∃ h1, runOps 0 [Op.push_back 1, Op.push_front 2, Op.push_back 3, Op.pop_front,
        Op.push_front 2, Op.pop_back] (list_ctor 0 emptyHeap) = some h1 ∧
      WF h1 0 [2, 1] ∧ traversal 3 0 h1 = some [2, 1] :=
  ⟨by decide, end_ops_refine 0 emptyHeap [Op.push_back 1, Op.push_front 2, Op.push_back 3,
    Op.pop_front, Op.push_front 2, Op.pop_back] (by decide)⟩

/-! ## Clearing a list -/

theorem clear_spec {r : Nat} (fuel : Nat) {h : Heap} {L : List Nat} (hwf : WF h r L)
    (hfuel : L.length < fuel) :
    ∃ h1, clear r fuel h = some h1 ∧ popBackN r L.length h = some h1 ∧ WF h1 r [] ∧
      (∀ x ∈ L, h1.prev x = none ∧ h1.next x = none) ∧
      (∀ y, y ∉ r :: L → h1.prev y = h.prev y ∧ h1.next y = h.next y) := by
  induction fuel generalizing h L with
  | zero => exact absurd hfuel (by omega)
  | succ fuel ih =>
    cases L with
    | nil =>
      have he := hwf.empty_iff.2 rfl
      exact ⟨h, by simp [clear, he], rfl, hwf, by simp, fun _ _ => ⟨rfl, rfl⟩⟩
    | cons a t =>
      obtain ⟨I, z, hI⟩ := exists_snoc_of_cons a t
      rw [hI] at hwf hfuel ⊢
      have he : empty r h = false := by
        cases hc : empty r h with
        | false => rfl
        | true => exact absurd (hwf.empty_iff.1 hc) (by simp)
      obtain ⟨h1, hpop, hwf1, hp1, hn1, hfr1⟩ := pop_back_spec hwf
      have hlen : I.length < fuel := by
        simp only [List.length_append, List.length_singleton] at hfuel; omega
      obtain ⟨h2, hcl, hpn, hwf2, hcleared, hfr2⟩ := ih hwf1 hlen
      have hz : z ∉ r :: I := by
        have hnd := List.nodup_cons.1 hwf.1
        simp only [List.mem_cons, not_or]
        refine ⟨fun e => hnd.1 (by simp [e]), fun hm => ?_⟩
        have hd := List.disjoint_of_nodup_append hnd.2 hm
        simp at hd
      refine ⟨h2, by simp [clear, he, hpop, hcl], ?_, hwf2, ?_, ?_⟩
      · simp [popBackN, hpop, hpn]
      · intro x hx
        rcases List.mem_append.1 hx with hx | hx
        · exact hcleared x hx
        · simp only [List.mem_singleton] at hx
          subst hx
          have := hfr2 x hz
          rw [this.1, this.2]; exact ⟨hp1, hn1⟩
      · intro y hy
        have hy1 : y ∉ r :: I := by
          simp only [List.mem_cons, List.mem_append, not_or] at hy ⊢
          exact ⟨hy.1, hy.2.1⟩
        have := hfr2 y hy1
        rw [this.1, this.2]; exact hfr1 y hy

/-- C7: `clear()` on a well-formed list holding `N` elements terminates; afterwards
`empty()` holds, the sentinel is linked to itself, `begin() == end()`, every element that
was linked in the list has `in_list() == false` with `prev` and `next` both null, and the
state is the one reached by `N` successive `pop_back` calls. -/
theorem clear_correct (h : Heap) (r : Nat) (L : List Nat) (fuel : Nat) (hwf : WF h r L)
    (hfuel : L.length < fuel) :
    ∃ h1, clear r fuel h = some h1 ∧ empty r h1 = true ∧
      (h1.next r = some r ∧ h1.prev r = some r) ∧ list_begin r h1 = list_end r ∧
      (∀ x ∈ L, in_list h1 x = false ∧ h1.prev x = none ∧ h1.next x = none) ∧
      popBackN r L.length h = some h1 ∧ WF h1 r [] := by
  obtain ⟨h1, hcl, hpn, hwf1, hcleared, -⟩ := clear_spec fuel hwf hfuel
  have hp := hwf1.prev_root
  have hn := hwf1.next_root
  simp only [List.getLast?_singleton, List.nil_append, List.head?_cons] at hp hn
  refine ⟨h1, hcl, by simp [empty, hp], ⟨hn, hp⟩, by simp [list_begin, list_end, hn], ?_,
    hpn, hwf1⟩
  intro x hx
  have := hcleared x hx
  exact ⟨by simp [in_list, this.1], this⟩

/-- Witness of C7: clearing `{10,20,30}`. -/
theorem clear_correct_witness :
    ∃ h1, clear 0 4 sample3 = some h1 ∧ empty 0 h1 = true ∧
      (h1.next 0 = some 0 ∧ h1.prev 0 = some 0) ∧ list_begin 0 h1 = list_end 0 ∧
      (∀ x ∈ [10, 20, 30], in_list h1 x = false ∧ h1.prev x = none ∧ h1.next x = none) ∧
      popBackN 0 3 sample3 = some h1 ∧ WF h1 0 [] :=
  clear_correct sample3 0 [10, 20, 30] 4 (by decide) (by decide)

/-! ## Moving a list -/

/-- What the move constructor of a list does: the cycle of `a` is re-homed on the new
sentinel `b`, and `a` is left an empty list. -/
theorem list_move_ctor_spec {h : Heap} {a b : Nat} {L : List Nat} (hwf : WF h a L)
    (hb : b ∉ a :: L) :
    ∃ h1, list_move_ctor b a h = some h1 ∧ WF h1 b L ∧ WF h1 a [] ∧
      (∀ y, y ∉ b :: a :: L → h1.prev y = h.prev y ∧ h1.next y = h.next y) := by
  have hba : b ≠ a := fun e => hb (e ▸ List.mem_cons_self _ _)
  have hbL : b ∉ L := fun hm => hb (List.mem_cons_of_mem _ hm)
  have haL : a ∉ L := (List.nodup_cons.1 hwf.1).1
  have hndL : L.Nodup := (List.nodup_cons.1 hwf.1).2
  have hnd' : (b :: L).Nodup := List.nodup_cons.2 ⟨hbL, hndL⟩
  cases L with
  | nil =>
    have hn := hwf.next_root
    simp only [List.nil_append, List.head?_cons] at hn
    refine ⟨_, by simp [list_move_ctor, move_ctor, move_from, base_list_element_ctor,
      Ne.symm hba, hn]; rfl, ⟨hnd', ?_⟩, ⟨by simp, ?_⟩, ?_⟩
    · simp [hba]
    · simp
    · intro y hy
      simp only [List.mem_cons, List.mem_singleton, not_or] at hy
      simp [hy.1, hy.2]
  | cons f t =>
    obtain ⟨I, z, hI⟩ := exists_snoc_of_cons f t
    have hn : h.next a = some f := by rw [hwf.next_root]; rfl
    have hp : h.prev a = some z := by
      rw [hwf.prev_root, hI, ← List.cons_append, List.getLast?_concat]
    have hfa : f ≠ a := fun e => haL (e ▸ List.mem_cons_self _ _)
    have hzL : z ∈ f :: t := by rw [hI]; simp
    have hza : z ≠ a := fun e => haL (e ▸ hzL)
    have hzb : z ≠ b := fun e => hbL (e ▸ hzL)
    have hfb : f ≠ b := fun e => hbL (e ▸ List.mem_cons_self _ _)
    have hlL : Linked h (I ++ [z]) := by
      have hl := hwf.2
      have e : a :: (f :: t ++ [a]) = [a] ++ f :: (t ++ [a]) := rfl
      rw [e, Linked_append_cons] at hl
      have hl2 := hl.2
      have e2 : f :: (t ++ [a]) = I ++ [z, a] := by
        have : f :: (t ++ [a]) = (f :: t) ++ [a] := rfl
        rw [this, hI]; simp
      rw [e2, Linked_snoc_snoc] at hl2
      exact hl2.1
    have hzI : z ∉ I := by
      intro hm
      rw [hI] at hndL
      have := List.disjoint_of_nodup_append hndL hm
      simp at this
    have hft : f ∉ t := (List.nodup_cons.1 hndL).1
    refine ⟨setNext (setPrev (setPrev (setNext (setPrev (setNext (setPrev (setNext
      (setNext (setPrev h b none) b none) z (some b)) b (some z)) b (some f)) f (some b))
      a none) a none) a (some a)) a (some a), ?_, ⟨hnd', ?_⟩, ⟨by simp, ?_⟩, ?_⟩
    · simp [list_move_ctor, move_ctor, move_from, base_list_element_ctor, Ne.symm hba, hn,
        hfa, hp, link, Ne.symm hza, hn, Option.bind]
    · have e : b :: (f :: t ++ [b]) = [b] ++ f :: (t ++ [b]) := rfl
      have e2 : f :: (t ++ [b]) = I ++ [z, b] := by
        have : f :: (t ++ [b]) = (f :: t) ++ [b] := rfl
        rw [this, hI]; simp
      rw [e, Linked_append_cons, e2, Linked_snoc_snoc]
      refine ⟨?_, ?_, ?_⟩
      · simp [hba, hfa, Ne.symm hfb]
      · refine Linked_frame_sets [b, z, a] [b, f, a] hlL ?_ ?_ ?_ ?_
        · intro y hy; simp at hy; simp [hy.1, hy.2.1, hy.2.2]
        · intro y hy; simp at hy; simp [hy.1, hy.2.1, hy.2.2]
        · intro x hx; simp at hx
          have hsub : ∀ y, y ∈ (I ++ [z]).dropLast → y ∈ f :: t := by
            intro y hy; rw [hI]; exact List.mem_of_mem_dropLast hy
          rcases hx with rfl | rfl | rfl
          · exact fun hm => hbL (hsub _ hm)
          · simpa using hzI
          · exact fun hm => haL (hsub _ hm)
        · intro x hx; simp at hx
          rw [← hI]
          simp only [List.tail_cons]
          rcases hx with rfl | rfl | rfl
          · exact fun hm => hbL (List.mem_cons_of_mem _ hm)
          · exact hft
          · exact fun hm => haL (List.mem_cons_of_mem _ hm)
      · simp [hza, hzb, hba, Ne.symm hfb]
    · simp
    · intro y hy
      simp only [List.mem_cons, not_or] at hy
      have hyz : y ≠ z := by
        rintro rfl
        simp only [List.mem_cons] at hzL
        tauto
      simp [hy.1, hy.2.1, hy.2.2.1, hyz]

/-- C8: move-constructing a list at the fresh node `b` from a well-formed list `a` with
traversal `L`: afterwards `b` is well-formed with traversal `L` (the same nodes in the same
order) and `a` is a well-formed empty list whose sentinel is linked to itself. -/
theorem list_move_ctor_correct (h : Heap) (a b : Nat) (L : List Nat) (hwf : WF h a L)
    (hb : b ∉ a :: L) :
    ∃ h1, list_move_ctor b a h = some h1 ∧ WF h1 b L ∧
      traversal (L.length + 1) b h1 = some L ∧ WF h1 a [] ∧ empty a h1 = true ∧
      (h1.next a = some a ∧ h1.prev a = some a) ∧
      (∀ y, y ∉ b :: a :: L → h1.prev y = h.prev y ∧ h1.next y = h.next y) := by
  obtain ⟨h1, e, hw, hwa, hfr⟩ := list_move_ctor_spec hwf hb
  have hp := hwa.prev_root
  have hn := hwa.next_root
  simp only [List.getLast?_singleton, List.nil_append, List.head?_cons] at hp hn
  exact ⟨h1, e, hw, hw.traversal_eq _ (by omega), hwa, by simp [empty, hp], ⟨hn, hp⟩, hfr⟩

/-- Witness of C8: moving the list `{10,20,30}` at node `0` to a new list at node `1`. -/
theorem list_move_ctor_correct_witness :
    ∃ h1, list_move_ctor 1 0 sample3 = some h1 ∧ WF h1 1 [10, 20, 30] ∧
      traversal 4 1 h1 = some [10, 20, 30] ∧ WF h1 0 [] ∧ empty 0 h1 = true := by
  obtain ⟨h1, h⟩ := list_move_ctor_correct sample3 0 1 [10, 20, 30] (by decide) (by decide)
  exact ⟨h1, h.1, h.2.1, h.2.2.1, h.2.2.2.1, h.2.2.2.2.1⟩

/-! ## Two lists -/

theorem Linked_back_closed {h : Heap} (S : Nat → Prop)
    (hS : ∀ y, S y → ∀ v, h.prev y = some v → S v) (l : List Nat) (a : Nat)
    (hl : Linked h (a :: l)) {y : Nat} (hy : y ∈ a :: l) (hyS : S y) : S a := by
  induction l generalizing a with
  | nil =>
    simp only [List.mem_singleton] at hy
    exact hy ▸ hyS
  | cons b t ih =>
    simp only [Linked_cons_cons] at hl
    rcases List.mem_cons.1 hy with e | hy
    · exact e ▸ hyS
    · exact hS b (ih b hl.2 hy) a hl.1.2

/-- Two well-formed lists of which one's sentinel is not a node of the other share no
node. -/
theorem WF.disjoint {h : Heap} {rA rB : Nat} {A B : List Nat} (hA : WF h rA A)
    (hB : WF h rB B) (hdist : rB ∉ rA :: A) : ∀ y, y ∈ rA :: A → y ∉ rB :: B := by
  intro y hyA hyB
  have hl : Linked h (rB :: B) := by
    have := hB.2
    have e : rB :: (B ++ [rB]) = (rB :: B) ++ [rB] := rfl
    obtain ⟨I, z, hI⟩ := exists_snoc_of_cons rB B
    rw [e, hI, List.append_assoc, List.singleton_append, Linked_append_cons] at this
    rw [hI]; exact this.1
  exact hdist (Linked_back_closed (fun v => v ∈ rA :: A) (fun v hv w hw => (hA.closed hv).1 w hw)
    B rB hl hyB hyA)

theorem push_back_of_unlink {h h1 : Heap} (r x : Nat) (hxr : x ≠ r)
    (hu : unlink x h = some h1) (hin : in_list h1 x = false) :
    push_back r x h = push_back r x h1 := by
  have hu1 : unlink x h1 = some h1 := by simp [unlink, hin]
  have hc : ¬ (some x = list_end r) := fun e => hxr (Option.some.inj e)
  simp only [push_back, insert, hc, if_false, hu, hu1]

/-- C6: for two distinct well-formed lists `A` and `B` and an element `x` linked in `A`,
`B.push_back(x)` leaves both lists well-formed, `A` with its former traversal without `x`
(one shorter) and `B` with its former traversal followed by `x` (one longer); `x` is absent
from `A` and present in `B`. -/
theorem push_back_from_other_list (h : Heap) (rA rB : Nat) (A B : List Nat) (x : Nat)
    (hA : WF h rA A) (hB : WF h rB B) (hdist : rB ∉ rA :: A) (hx : x ∈ A) :
    ∃ h1, push_back rB x h = some h1 ∧
      WF h1 rA (A.erase x) ∧ WF h1 rB (B ++ [x]) ∧
      traversal A.length rA h1 = some (A.erase x) ∧
      traversal (B.length + 2) rB h1 = some (B ++ [x]) ∧
      (A.erase x).length + 1 = A.length ∧ (B ++ [x]).length = B.length + 1 ∧
      x ∉ A.erase x ∧ x ∈ B ++ [x] := by
  have hdj := hA.disjoint hB hdist
  obtain ⟨h1, hu, hwfA1, hxA1, hin1, hfr1⟩ := unlink_any hA (Or.inr hx)
  have hwfB1 : WF h1 rB B := hB.frame (fun y hy => hfr1 y (fun hyA => hdj y hyA hy))
  obtain ⟨h2, hpb, hwfB2, hfr2⟩ := push_back_spec hwfB1 hin1
  have hwfA2 : WF h2 rA (A.erase x) := by
    refine hwfA1.frame (fun y hy => hfr2 y ?_)
    have hyA : y ∈ rA :: A := by
      rcases List.mem_cons.1 hy with e | hy
      · exact e ▸ List.mem_cons_self _ _
      · exact List.mem_cons_of_mem _ (List.mem_of_mem_erase hy)
    intro hm
    rcases List.mem_cons.1 hm with e | hm
    · exact hxA1 (e ▸ hy)
    · exact hdj y hyA hm
  have hlen : (A.erase x).length + 1 = A.length := by
    rw [List.length_erase_of_mem hx]
    have := List.length_pos_of_mem hx
    omega
  refine ⟨h2, ?_, hwfA2, hwfB2, hwfA2.traversal_eq _ (by omega),
    hwfB2.traversal_eq _ (by simp), hlen, by simp,
    fun hm => hxA1 (List.mem_cons_of_mem _ hm), by simp⟩
  have hxr : x ≠ rB := fun e => hdist (e ▸ List.mem_cons_of_mem _ hx)
  rw [push_back_of_unlink rB x hxr hu hin1]; exact hpb

/-- Witness of C6: `{10,20,30}` at node `0`, `{11}` at node `1`, and `push_back` of `20` on
the second list. -/
theorem push_back_from_other_list_witness :
    ∃ h1, push_back 1 20 sampleTwo = some h1 ∧
      WF h1 0 [10, 30] ∧ WF h1 1 [11, 20] ∧
      traversal 3 0 h1 = some [10, 30] ∧ traversal 3 1 h1 = some [11, 20] := by
  obtain ⟨h1, h⟩ := push_back_from_other_list sampleTwo 0 1 [10, 20, 30] [11] 20
    (by decide) (by decide) (by decide) (by decide)
  exact ⟨h1, h.1, h.2.1, h.2.2.1, h.2.2.2.1, h.2.2.2.2.1⟩

/-! ## Splicing -/

theorem exists_snoc_of_getLast? {X : List Nat} {p : Nat} (hp : X.getLast? = some p) :
    ∃ I, X = I ++ [p] := by
  cases X with
  | nil => simp at hp
  | cons a t =>
    obtain ⟨I, z, hI⟩ := exists_snoc_of_cons a t
    rw [hI, List.getLast?_concat] at hp
    exact ⟨I, by rw [hI, Option.some.inj hp]⟩

theorem exists_cons_of_head? {Y : List Nat} {n : Nat} (hn : Y.head? = some n) :
    ∃ S, Y = n :: S := by
  cases Y with
  | nil => simp at hn
  | cons a t => exact ⟨t, by rw [Option.some.inj hn]⟩

/-- Two paths joined end to start. -/
theorem Linked_append {h : Heap} {X Y : List Nat} {p n : Nat} (hp : X.getLast? = some p)
    (hn : Y.head? = some n) :
    Linked h (X ++ Y) ↔
      Linked h X ∧ (h.next p = some n ∧ h.prev n = some p) ∧ Linked h Y := by
  obtain ⟨I, rfl⟩ := exists_snoc_of_getLast? hp
  obtain ⟨S, rfl⟩ := exists_cons_of_head? hn
  rw [List.append_assoc, List.singleton_append, Linked_append_cons h I p (n :: S),
    Linked_cons_cons]

/-- Frame for a segment of distinct nodes: the path is kept when every node whose `next`
is written is outside it or its last node, and every node whose `prev` is written is
outside it or its first node. -/
theorem Linked_frame_seg {h k : Heap} {s : List Nat} (A B : List Nat) (hl : Linked h s)
    (hn : ∀ y, y ∉ A → k.next y = h.next y) (hp : ∀ y, y ∉ B → k.prev y = h.prev y)
    (hnd : s.Nodup) (hA : ∀ a ∈ A, a ∉ s ∨ s.getLast? = some a)
    (hB : ∀ b ∈ B, b ∉ s ∨ s.head? = some b) : Linked k s := by
  refine Linked_frame_sets A B hl hn hp ?_ ?_
  · intro a ha hm
    rcases hA a ha with h1 | h1
    · exact h1 (List.mem_of_mem_dropLast hm)
    · obtain ⟨I, rfl⟩ := exists_snoc_of_getLast? h1
      rw [List.dropLast_concat] at hm
      have := List.disjoint_of_nodup_append hnd hm
      simp at this
  · intro b hb hm
    rcases hB b hb with h1 | h1
    · exact h1 (List.mem_of_mem_tail hm)
    · obtain ⟨S, rfl⟩ := exists_cons_of_head? h1
      exact (List.nodup_cons.1 hnd).1 hm
theorem getLast?_cons_exists (a : Nat) (l : List Nat) : ∃ p, (a :: l).getLast? = some p := by
  obtain ⟨I, z, hI⟩ := exists_snoc_of_cons a l
  exact ⟨z, by rw [hI, List.getLast?_concat]⟩

/-- What `splice` does with a non-empty range `R` of the list `rB`, moved before the
position `pos` of the distinct list `rA`. -/
theorem splice_spec {h : Heap} {rA rB : Nat} {A1 A2 B1 R B2 : List Nat}
    {pos first last : Nat} (hA : WF h rA (A1 ++ A2)) (hB : WF h rB (B1 ++ R ++ B2))
    (hdist : rB ∉ rA :: (A1 ++ A2)) (hpos : (A2 ++ [rA]).head? = some pos)
    (hfirst : R.head? = some first) (hlast : (B2 ++ [rB]).head? = some last) :
    ∃ h1, splice (some pos) (some first) (some last) h = some h1 ∧
      WF h1 rA (A1 ++ R ++ A2) ∧ WF h1 rB (B1 ++ B2) ∧
      (∀ y, y ∉ rA :: (A1 ++ A2) → y ∉ rB :: (B1 ++ R ++ B2) →
        h1.prev y = h.prev y ∧ h1.next y = h.next y) := by
  have dAB := hA.disjoint hB hdist
  obtain ⟨hndA, hlA⟩ := hA
  obtain ⟨hndB, hlB⟩ := hB
  obtain ⟨fp, hfp⟩ := getLast?_cons_exists rA A1
  obtain ⟨bf, hbf⟩ := getLast?_cons_exists rB B1
  obtain ⟨R', hR'⟩ := exists_cons_of_head? hfirst
  obtain ⟨lo, hlo⟩ : ∃ lo, R.getLast? = some lo := by
    rw [hR']; exact getLast?_cons_exists first R'
  have hRhead : ∀ Y : List Nat, (R ++ Y).head? = some first := by
    intro Y; rw [hR']; rfl
  -- the two cycles cut in segments
  have eA : rA :: (A1 ++ A2 ++ [rA]) = (rA :: A1) ++ (A2 ++ [rA]) := by simp
  have eB : rB :: (B1 ++ R ++ B2 ++ [rB]) = (rB :: B1) ++ (R ++ (B2 ++ [rB])) := by simp
  rw [eA, Linked_append hfp hpos] at hlA
  rw [eB, Linked_append hbf (hRhead _), Linked_append hlo hlast] at hlB
  obtain ⟨hPA, ⟨hfp_n, hpos_p⟩, hSA⟩ := hlA
  obtain ⟨hPB, ⟨hbf_n, hfirst_p⟩, hRl, ⟨hlo_n, hlast_p⟩, hSB⟩ := hlB
  -- where the six written nodes lie
  have zfp : fp ∈ rA :: A1 := List.mem_of_getLast?_eq_some hfp
  have zbf : bf ∈ rB :: B1 := List.mem_of_getLast?_eq_some hbf
  have zlo : lo ∈ R := List.mem_of_getLast?_eq_some hlo
  have zfirst : first ∈ R := List.mem_of_mem_head? hfirst
  have zpos : pos ∈ A2 ++ [rA] := List.mem_of_mem_head? hpos
  have zlast : last ∈ B2 ++ [rB] := List.mem_of_mem_head? hlast
  -- the segments lie in their cycles
  have inA_PA : ∀ y, y ∈ rA :: A1 → y ∈ rA :: (A1 ++ A2) := by
    intro y hy; simp only [List.mem_cons, List.mem_append] at hy ⊢; tauto
  have inA_SA : ∀ y, y ∈ A2 ++ [rA] → y ∈ rA :: (A1 ++ A2) := by
    intro y hy; simp only [List.mem_cons, List.mem_append, List.mem_singleton] at hy ⊢; tauto
  have inB_PB : ∀ y, y ∈ rB :: B1 → y ∈ rB :: (B1 ++ R ++ B2) := by
    intro y hy; simp only [List.mem_cons, List.mem_append] at hy ⊢; tauto
  have inB_R : ∀ y, y ∈ R → y ∈ rB :: (B1 ++ R ++ B2) := by
    intro y hy; simp only [List.mem_cons, List.mem_append] at hy ⊢; tauto
  have inB_SB : ∀ y, y ∈ B2 ++ [rB] → y ∈ rB :: (B1 ++ R ++ B2) := by
    intro y hy; simp only [List.mem_cons, List.mem_append, List.mem_singleton] at hy ⊢; tauto
  have crossA : ∀ w, w ∈ rB :: (B1 ++ R ++ B2) → ∀ s : List Nat,
      (∀ y, y ∈ s → y ∈ rA :: (A1 ++ A2)) → w ∉ s :=
    fun w hw s hs hm => dAB w (hs w hm) hw
  have crossB : ∀ w, w ∈ rA :: (A1 ++ A2) → ∀ s : List Nat,
      (∀ y, y ∈ s → y ∈ rB :: (B1 ++ R ++ B2)) → w ∉ s :=
    fun w hw s hs hm => dAB w hw (hs w hm)
  -- disjointness inside each cycle
  have hrA : rA ∉ A1 ++ A2 := (List.nodup_cons.1 hndA).1
  have hrB : rB ∉ B1 ++ R ++ B2 := (List.nodup_cons.1 hndB).1
  have dA : List.Disjoint (rA :: A1) A2 := List.disjoint_of_nodup_append hndA
  have hndB' : ((rB :: B1 ++ R) ++ B2).Nodup := by simpa using hndB
  have d1 : List.Disjoint (rB :: B1 ++ R) B2 := List.disjoint_of_nodup_append hndB'
  have d2 : List.Disjoint (rB :: B1) R :=
    List.disjoint_of_nodup_append (List.Nodup.of_append_left hndB')
  have dA2_PA : ∀ y, y ∈ A2 → y ∉ rA :: A1 := fun y hy hm => dA hm hy
  have dA1_SA : ∀ y, y ∈ A1 → y ∉ A2 ++ [rA] := by
    intro y hy hm
    rcases List.mem_append.1 hm with hm | hm
    · exact dA (List.mem_cons_of_mem _ hy) hm
    · rw [List.mem_singleton] at hm
      exact hrA (List.mem_append_left _ (hm ▸ hy))
  have dR_PB : ∀ y, y ∈ R → y ∉ rB :: B1 := fun y hy hm => d2 hm hy
  have dR_SB : ∀ y, y ∈ R → y ∉ B2 ++ [rB] := by
    intro y hy hm
    rcases List.mem_append.1 hm with hm | hm
    · exact d1 (List.mem_append_right _ hy) hm
    · rw [List.mem_singleton] at hm
      exact d2 (List.mem_cons_self _ _) (hm ▸ hy)
  have dB1_SB : ∀ y, y ∈ B1 → y ∉ B2 ++ [rB] := by
    intro y hy hm
    rcases List.mem_append.1 hm with hm | hm
    · exact d1 (List.mem_append_left _ (List.mem_cons_of_mem _ hy)) hm
    · rw [List.mem_singleton] at hm
      exact hrB (List.mem_append_left _ (List.mem_append_left _ (hm ▸ hy)))
  have dB2_PB : ∀ y, y ∈ B2 → y ∉ rB :: B1 :=
    fun y hy hm => d1 (List.mem_append_left _ hm) hy
  -- the segments hold distinct nodes
  have ndPA : (rA :: A1).Nodup := hndA.sublist (by simp)
  have ndA2 : A2.Nodup := hndA.sublist (by simp)
  have ndSA : (A2 ++ [rA]).Nodup :=
    List.Nodup.append ndA2 (by simp) (by
      intro y hy hm
      rw [List.mem_singleton] at hm
      exact hrA (List.mem_append_right _ (hm ▸ hy)))
  have ndPBR : (rB :: B1 ++ R).Nodup := List.Nodup.of_append_left hndB'
  have ndPB : (rB :: B1).Nodup := List.Nodup.of_append_left ndPBR
  have ndR : R.Nodup := List.Nodup.of_append_right ndPBR
  have ndB2 : B2.Nodup := List.Nodup.of_append_right hndB'
  have ndSB : (B2 ++ [rB]).Nodup :=
    List.Nodup.append ndB2 (by simp) (by
      intro y hy hm
      rw [List.mem_singleton] at hm
      exact hrB (List.mem_append_right _ (hm ▸ hy)))
  -- distinctness of the written nodes
  have n1 : fp ≠ bf := fun e => dAB fp (inA_PA fp zfp) (e ▸ inB_PB bf zbf)
  have n2 : first ≠ last := fun e => dR_SB first zfirst (e ▸ zlast)
  have n3 : lo ≠ fp := fun e => dAB fp (inA_PA fp zfp) (e ▸ inB_R lo zlo)
  have n4 : lo ≠ bf := fun e => dR_PB lo zlo (e ▸ zbf)
  have n5 : pos ≠ first := fun e => dAB pos (inA_SA pos zpos) (e ▸ inB_R first zfirst)
  have n6 : pos ≠ last := fun e => dAB pos (inA_SA pos zpos) (e ▸ inB_SB last zlast)
  -- the memory after the three calls of `link`
  have hfn : ∀ y, y ∉ [lo, fp, bf] → (setPrev (setNext (setPrev (setNext (setPrev (setNext h
      lo (some pos)) pos (some lo)) fp (some first)) first (some fp)) bf (some last)) last
      (some bf)).next y = h.next y := by
    intro y hy; simp at hy; simp [hy.1, hy.2.1, hy.2.2]
  have hfpv : ∀ y, y ∉ [pos, first, last] → (setPrev (setNext (setPrev (setNext (setPrev
      (setNext h lo (some pos)) pos (some lo)) fp (some first)) first (some fp)) bf
      (some last)) last (some bf)).prev y = h.prev y := by
    intro y hy; simp at hy; simp [hy.1, hy.2.1, hy.2.2]
  have kPA := Linked_frame_seg [lo, fp, bf] [pos, first, last] hPA hfn hfpv ndPA
    (by
      intro a ha; simp only [List.mem_cons, List.mem_singleton, List.not_mem_nil,
        or_false] at ha
      rcases ha with rfl | rfl | rfl
      · exact Or.inl (crossA _ (inB_R _ zlo) _ inA_PA)
      · exact Or.inr hfp
      · exact Or.inl (crossA _ (inB_PB _ zbf) _ inA_PA))
    (by
      intro b hb; simp only [List.mem_cons, List.mem_singleton, List.not_mem_nil,
        or_false] at hb
      rcases hb with rfl | rfl | rfl
      · rcases List.mem_append.1 zpos with hm | hm
        · exact Or.inl (dA2_PA _ hm)
        · rw [List.mem_singleton] at hm; exact Or.inr (by rw [hm]; rfl)
      · exact Or.inl (crossA _ (inB_R _ zfirst) _ inA_PA)
      · exact Or.inl (crossA _ (inB_SB _ zlast) _ inA_PA))
  have kSA := Linked_frame_seg [lo, fp, bf] [pos, first, last] hSA hfn hfpv ndSA
    (by
      intro a ha; simp only [List.mem_cons, List.mem_singleton, List.not_mem_nil,
        or_false] at ha
      rcases ha with rfl | rfl | rfl
      · exact Or.inl (crossA _ (inB_R _ zlo) _ inA_SA)
      · rcases List.mem_cons.1 zfp with hm | hm
        · exact Or.inr (by rw [hm, List.getLast?_concat])
        · exact Or.inl (dA1_SA _ hm)
      · exact Or.inl (crossA _ (inB_PB _ zbf) _ inA_SA))
    (by
      intro b hb; simp only [List.mem_cons, List.mem_singleton, List.not_mem_nil,
        or_false] at hb
      rcases hb with rfl | rfl | rfl
      · exact Or.inr hpos
      · exact Or.inl (crossA _ (inB_R _ zfirst) _ inA_SA)
      · exact Or.inl (crossA _ (inB_SB _ zlast) _ inA_SA))
  have kR := Linked_frame_seg [lo, fp, bf] [pos, first, last] hRl hfn hfpv ndR
    (by
      intro a ha; simp only [List.mem_cons, List.mem_singleton, List.not_mem_nil,
        or_false] at ha
      rcases ha with rfl | rfl | rfl
      · exact Or.inr hlo
      · exact Or.inl (crossB _ (inA_PA _ zfp) _ inB_R)
      · exact Or.inl (fun hm => dR_PB _ hm zbf))
    (by
      intro b hb; simp only [List.mem_cons, List.mem_singleton, List.not_mem_nil,
        or_false] at hb
      rcases hb with rfl | rfl | rfl
      · exact Or.inl (crossB _ (inA_SA _ zpos) _ inB_R)
      · exact Or.inr hfirst
      · exact Or.inl (fun hm => dR_SB _ hm zlast))
  have kPB := Linked_frame_seg [lo, fp, bf] [pos, first, last] hPB hfn hfpv ndPB
    (by
      intro a ha; simp only [List.mem_cons, List.mem_singleton, List.not_mem_nil,
        or_false] at ha
      rcases ha with rfl | rfl | rfl
      · exact Or.inl (dR_PB _ zlo)
      · exact Or.inl (crossB _ (inA_PA _ zfp) _ inB_PB)
      · exact Or.inr hbf)
    (by
      intro b hb; simp only [List.mem_cons, List.mem_singleton, List.not_mem_nil,
        or_false] at hb
      rcases hb with rfl | rfl | rfl
      · exact Or.inl (crossB _ (inA_SA _ zpos) _ inB_PB)
      · exact Or.inl (dR_PB _ zfirst)
      · rcases List.mem_append.1 zlast with hm | hm
        · exact Or.inl (dB2_PB _ hm)
        · rw [List.mem_singleton] at hm; exact Or.inr (by rw [hm]; rfl))
  have kSB := Linked_frame_seg [lo, fp, bf] [pos, first, last] hSB hfn hfpv ndSB
    (by
      intro a ha; simp only [List.mem_cons, List.mem_singleton, List.not_mem_nil,
        or_false] at ha
      rcases ha with rfl | rfl | rfl
      · exact Or.inl (dR_SB _ zlo)
      · exact Or.inl (crossB _ (inA_PA _ zfp) _ inB_SB)
      · rcases List.mem_cons.1 zbf with hm | hm
        · exact Or.inr (by rw [hm, List.getLast?_concat])
        · exact Or.inl (dB1_SB _ hm))
    (by
      intro b hb; simp only [List.mem_cons, List.mem_singleton, List.not_mem_nil,
        or_false] at hb
      rcases hb with rfl | rfl | rfl
      · exact Or.inl (crossB _ (inA_SA _ zpos) _ inB_SB)
      · exact Or.inl (dR_SB _ zfirst)
      · exact Or.inr hlast)
  refine ⟨setPrev (setNext (setPrev (setNext (setPrev (setNext h lo (some pos)) pos (some lo))
    fp (some first)) first (some fp)) bf (some last)) last (some bf), ?_, ⟨?_, ?_⟩,
    ⟨hndB.sublist (by simp), ?_⟩, ?_⟩
  · have hc : ¬ (some first = some last) := fun e => n2 (Option.some.inj e)
    simp only [splice, hc, if_false, std_prev, hfirst_p, hlast_p, hpos_p, link, Option.bind]
  · have e : rA :: (A1 ++ R ++ A2) = ((rA :: A1) ++ R) ++ A2 := by simp
    rw [e]
    refine List.Nodup.append (List.Nodup.append ndPA ndR ?_) ndA2 ?_
    · exact fun y hy hm => dAB y (inA_PA y hy) (inB_R y hm)
    · intro y hy hm
      rcases List.mem_append.1 hy with hy | hy
      · exact dA hy hm
      · exact dAB y (inA_SA y (List.mem_append_left _ hm)) (inB_R y hy)
  · have e : rA :: (A1 ++ R ++ A2 ++ [rA]) = (rA :: A1) ++ (R ++ (A2 ++ [rA])) := by simp
    rw [e, Linked_append hfp (hRhead _), Linked_append hlo hpos]
    refine ⟨kPA, ⟨?_, ?_⟩, kR, ⟨?_, ?_⟩, kSA⟩
    · simp [n1]
    · simp [n2]
    · simp [n3, n4]
    · simp [n5, n6]
  · have e : rB :: (B1 ++ B2 ++ [rB]) = (rB :: B1) ++ (B2 ++ [rB]) := by simp
    rw [e, Linked_append hbf hlast]
    exact ⟨kPB, ⟨by simp, by simp⟩, kSB⟩
  · intro y hyA hyB
    have y1 : y ≠ lo := fun e => hyB (e ▸ inB_R _ zlo)
    have y2 : y ≠ fp := fun e => hyA (e ▸ inA_PA _ zfp)
    have y3 : y ≠ bf := fun e => hyB (e ▸ inB_PB _ zbf)
    have y4 : y ≠ pos := fun e => hyA (e ▸ inA_SA _ zpos)
    have y5 : y ≠ first := fun e => hyB (e ▸ inB_R _ zfirst)
    have y6 : y ≠ last := fun e => hyB (e ▸ inB_SB _ zlast)
    simp [y1, y2, y3, y4, y5, y6]

/-- C4: `splice(pos, other, first, last)` between two distinct well-formed lists, `this`
with traversal `A1 ++ A2` where `pos` is the position that starts `A2` (`end()` when `A2`
is empty), `other` with traversal `B1 ++ R ++ B2` where `R` is the non-empty run
`[first, last)`: both lists stay well-formed, `other` is left with `B1 ++ B2` (no element
of `R` remains in it) and `this` holds `A1 ++ R ++ A2`, the run in its original order
immediately before `pos`. -/
theorem splice_correct (h : Heap) (rA rB : Nat) (A1 A2 B1 R B2 : List Nat)
    (pos first last : Nat) (hA : WF h rA (A1 ++ A2)) (hB : WF h rB (B1 ++ R ++ B2))
    (hdist : rB ∉ rA :: (A1 ++ A2)) (hpos : (A2 ++ [rA]).head? = some pos)
    (hfirst : R.head? = some first) (hlast : (B2 ++ [rB]).head? = some last) :
    ∃ h1, splice (some pos) (some first) (some last) h = some h1 ∧
      WF h1 rA (A1 ++ R ++ A2) ∧ WF h1 rB (B1 ++ B2) ∧
      traversal ((A1 ++ R ++ A2).length + 1) rA h1 = some (A1 ++ R ++ A2) ∧
      traversal ((B1 ++ B2).length + 1) rB h1 = some (B1 ++ B2) ∧
      (∀ x, x ∈ R → x ∉ B1 ++ B2) := by
  obtain ⟨h1, hs, hwA, hwB, -⟩ := splice_spec hA hB hdist hpos hfirst hlast
  refine ⟨h1, hs, hwA, hwB, hwA.traversal_eq _ (by omega), hwB.traversal_eq _ (by omega), ?_⟩
  intro x hx hm
  have hnd : ((B1 ++ R) ++ B2).Nodup := (List.nodup_cons.1 hB.1).2
  rcases List.mem_append.1 hm with hm | hm
  · exact List.disjoint_of_nodup_append (List.Nodup.of_append_left hnd) hm hx
  · exact List.disjoint_of_nodup_append hnd (List.mem_append_right _ hx) hm

/-- Witness of C4: `{10,20,30}` at node `0`, `{11,12,13,14}` at node `1`; the run
`[12, 14)` is spliced before `20`. -/
theorem splice_correct_witness :
    ∃ h1, splice (as_iterator 20) (as_iterator 12) (as_iterator 14) sampleFour = some h1 ∧
      WF h1 0 [10, 12, 13, 20, 30] ∧ WF h1 1 [11, 14] ∧
      traversal 6 0 h1 = some [10, 12, 13, 20, 30] ∧ traversal 3 1 h1 = some [11, 14] := by
  obtain ⟨h1, h⟩ := splice_correct sampleFour 0 1 [10] [20, 30] [11] [12, 13] [14] 20 12 14
    (by decide) (by decide) (by decide) (by decide) (by decide) (by decide)
  exact ⟨h1, h.1, h.2.1, h.2.2.1, h.2.2.2.1, h.2.2.2.2.1⟩

/-- C5, at the failing input: in the list `{10,20,30}`, `splice(pos, list, first, last)`
with `first` at `10` and `pos == last` at `30` does not leave the traversal unchanged: the
list is left with `{30}` alone, and the nodes `10` and `20` stay `in_list()` on a cycle of
their own that holds no sentinel. -/
theorem splice_same_list_pos_eq_last :
    WF sample3 0 [10, 20, 30] ∧
    ∃ h1, splice (as_iterator 30) (as_iterator 10) (as_iterator 30) sample3 = some h1 ∧
      WF h1 0 [30] ∧ traversal 4 0 h1 = some [30] ∧ ¬ WF h1 0 [10, 20, 30] ∧
      in_list h1 10 = true ∧ in_list h1 20 = true ∧
      h1.next 10 = some 20 ∧ h1.next 20 = some 10 ∧
      h1.prev 10 = some 20 ∧ h1.prev 20 = some 10 :=
  ⟨by decide, (splice (as_iterator 30) (as_iterator 10) (as_iterator 30) sample3).getD emptyHeap,
    rfl, by decide, by decide, by decide, by decide, by decide, by decide, by decide,
    by decide, by decide⟩

/-! ## Re-insertion at the current position -/

/-- C11: `insert(pos, elt)` with `pos == as_iterator(elt)` changes no field of any node (the
memory is the same before and after), returns `pos`, and any number of such calls leaves
the state of zero calls. -/
theorem insert_at_self (h : Heap) (elt : Nat) :
    insert (as_iterator elt) elt h = some (h, as_iterator elt) ∧
      ∀ n, insertRepeat (as_iterator elt) elt n h = some h := by
  have h1 : insert (as_iterator elt) elt h = some (h, as_iterator elt) := by
    simp [insert, as_iterator]
  refine ⟨h1, fun n => ?_⟩
  induction n with
  | zero => rfl
  | succ n ih => simp [insertRepeat, h1, ih]

/-! ## Explicit results of the link primitives -/

theorem unlink_eq {h : Heap} {x p n : Nat} (hp : h.prev x = some p) (hn : h.next x = some n) :
    unlink x h =
      some (setPrev (setNext (setPrev (setNext h p (some n)) n (some p)) x none) x none) := by
  simp [unlink, in_list, hp, hn, link]

theorem unlink_of_not_in_list {h : Heap} {x : Nat} (hx : in_list h x = false) :
    unlink x h = some h := by
  simp [unlink, hx]

theorem insert_before_eq {h : Heap} {x pos p : Nat} (hp : h.prev pos = some p) :
    insert_before x (some pos) h =
      some (setPrev (setNext (setPrev (setNext h p (some x)) x (some p)) x (some pos)) pos
        (some x)) := by
  simp [insert_before, hp, link, Option.bind]

/-- The neighbours of an element of a well-formed list are nodes other than itself. -/
theorem WF.neighbours {h : Heap} {r : Nat} {L : List Nat} (hwf : WF h r L) {x : Nat}
    (hx : x ∈ L) : ∃ p n, h.prev x = some p ∧ h.next x = some n ∧ p ≠ x ∧ n ≠ x := by
  obtain ⟨L1, L2, rfl⟩ := List.append_of_mem hx
  obtain ⟨h1, -, -, -, -, hprev, hnext, -⟩ := unlink_spec hwf
  obtain ⟨p, hp⟩ := getLast?_cons_exists r L1
  obtain ⟨n, S, hS⟩ := exists_cons_of_snoc L2 r
  have hnd := hwf.1
  simp only [List.nodup_cons, List.nodup_append, List.mem_append, List.mem_cons, not_or,
    List.Disjoint] at hnd
  obtain ⟨⟨hrL1, hrx, hrL2⟩, -, ⟨hxL2, -⟩, hdisj⟩ := hnd
  refine ⟨p, n, by rw [hprev, hp], by rw [hnext, hS]; rfl, ?_, ?_⟩
  · rintro rfl
    rcases List.mem_cons.1 (List.mem_of_getLast?_eq_some hp) with e | e
    · exact hrx e.symm
    · exact hdisj e (Or.inl rfl)
  · rintro rfl
    have : n ∈ L2 ++ [r] := by rw [hS]; exact List.mem_cons_self _ _
    rcases List.mem_append.1 this with e | e
    · exact hxL2 e
    · rw [List.mem_singleton] at e; exact hrx e.symm

/-! ## Idempotence of `unlink` -/

/-- C13: `unlink()` on a node whose `prev` is null changes nothing, in every link state;
and for an element of a well-formed list, `unlink()` twice gives the state of `unlink()`
once, in which the former neighbours point at each other and both fields of the node are
null. -/
theorem unlink_idempotent (h : Heap) (r : Nat) (L : List Nat) (x : Nat) (hwf : WF h r L)
    (hx : x ∈ L) :
    (∀ (k : Heap) (y : Nat), k.prev y = none → unlink y k = some k) ∧
    ∃ h1 p n, h.prev x = some p ∧ h.next x = some n ∧ unlink x h = some h1 ∧
      (unlink x h).bind (unlink x) = some h1 ∧
      h1.next p = some n ∧ h1.prev n = some p ∧ h1.prev x = none ∧ h1.next x = none := by
  constructor
  · intro k y hy
    exact unlink_of_not_in_list (by simp [in_list, hy])
  · obtain ⟨p, n, hp, hn, hpx, hnx⟩ := hwf.neighbours hx
    refine ⟨_, p, n, hp, hn, unlink_eq hp hn, ?_, ?_, ?_, by simp, by simp⟩
    · rw [unlink_eq hp hn]
      exact unlink_of_not_in_list (by simp [in_list])
    · simp [hpx]
    · simp [hnx]

/-- Witness of C13: unlinking the element `20` of `{10,20,30}` once or twice. -/
theorem unlink_idempotent_witness :
    ∃ h1, unlink 20 sample3 = some h1 ∧ (unlink 20 sample3).bind (unlink 20) = some h1 ∧
      h1.next 10 = some 30 ∧ h1.prev 30 = some 10 ∧ h1.prev 20 = none ∧ h1.next 20 = none := by
  obtain ⟨h1, p, n, hp, hn, h⟩ :=
    (unlink_idempotent sample3 0 [10, 20, 30] 20 (by decide) (by decide)).2
  have ep : p = 10 := Option.some.inj (hp.symm.trans (by decide))
  have en : n = 30 := Option.some.inj (hn.symm.trans (by decide))
  subst ep en
  exact ⟨h1, h⟩

/-! ## Frames of `erase`, `insert` and `splice` -/

/-- C15: on a well-formed list, `erase(pos)` writes only the two fields of `pos`, the `next`
of its predecessor `p` and the `prev` of its successor `n`; `insert(pos, elt)` of an
unlinked `elt` writes only the two fields of `elt`, the `prev` of `pos` and the `next` of
the former predecessor `p` of `pos`. Both fields of every other node are unchanged. -/
theorem erase_insert_frame (h : Heap) (r : Nat) (L : List Nat) (hwf : WF h r L) :
    (∀ pos, pos ∈ L → ∃ h1 it p n, erase (some pos) h = some (h1, it) ∧
      h.prev pos = some p ∧ h.next pos = some n ∧
      ∀ y, (y ≠ pos → y ≠ p → h1.next y = h.next y) ∧
        (y ≠ pos → y ≠ n → h1.prev y = h.prev y)) ∧
    (∀ pos elt, pos ∈ r :: L → in_list h elt = false →
      ∃ h1 it p, insert (some pos) elt h = some (h1, it) ∧ h.prev pos = some p ∧
      ∀ y, (y ≠ elt → y ≠ p → h1.next y = h.next y) ∧
        (y ≠ elt → y ≠ pos → h1.prev y = h.prev y)) := by
  constructor
  · intro pos hpos
    obtain ⟨p, n, hp, hn, -, -⟩ := hwf.neighbours hpos
    refine ⟨setPrev (setNext (setPrev (setNext h p (some n)) n (some p)) pos none) pos none,
      h.prev pos, p, n, by simp [erase, unlink_eq hp hn], hp, hn, ?_⟩
    intro y
    constructor
    · intro h1 h2; simp [h1, h2]
    · intro h1 h2; simp [h1, h2]
  · intro pos elt hpos helt
    have hps := hwf.prev_isSome hpos
    obtain ⟨p, hp⟩ := Option.isSome_iff_exists.1 hps
    have hne : elt ≠ pos := by
      rintro rfl
      simp [in_list, hp] at helt
    have hc : ¬ (some elt = some pos) := fun e => hne (Option.some.inj e)
    refine ⟨setPrev (setNext (setPrev (setNext h p (some elt)) elt (some p)) elt (some pos))
      pos (some elt), some elt, p, ?_, hp, ?_⟩
    · simp [insert, hc, unlink_of_not_in_list helt, insert_before_eq hp, std_prev]
    · intro y
      constructor
      · intro h1 h2; simp [h1, h2]
      · intro h1 h2; simp [h1, h2]

/-- Witness of C15 on `{10,20,30}`: erasing `20` leaves both fields of `30`'s successor side
and of the sentinel's inner side as they were. -/
theorem erase_insert_frame_witness :
    (∃ h1 it, erase (some 20) sample3 = some (h1, it) ∧
      h1.next 30 = sample3.next 30 ∧ h1.prev 10 = sample3.prev 10 ∧
      h1.next 0 = sample3.next 0 ∧ h1.prev 0 = sample3.prev 0) ∧
    (∃ h1 it, insert (some 20) 40 sample3 = some (h1, it) ∧
      h1.next 30 = sample3.next 30 ∧ h1.prev 30 = sample3.prev 30 ∧
      h1.next 20 = sample3.next 20 ∧ h1.prev 10 = sample3.prev 10) := by
  have hf := erase_insert_frame sample3 0 [10, 20, 30] (by decide)
  constructor
  · obtain ⟨h1, it, p, n, he, hp, hn, hfr⟩ := hf.1 20 (by decide)
    have ep : p = 10 := Option.some.inj (hp.symm.trans (by decide))
    have en : n = 30 := Option.some.inj (hn.symm.trans (by decide))
    subst ep en
    exact ⟨h1, it, he, (hfr 30).1 (by decide) (by decide), (hfr 10).2 (by decide) (by decide),
      (hfr 0).1 (by decide) (by decide), (hfr 0).2 (by decide) (by decide)⟩
  · obtain ⟨h1, it, p, he, hp, hfr⟩ := hf.2 20 40 (by decide) (by decide)
    have ep : p = 10 := Option.some.inj (hp.symm.trans (by decide))
    subst ep
    exact ⟨h1, it, he, (hfr 30).1 (by decide) (by decide), (hfr 30).2 (by decide) (by decide),
      (hfr 20).1 (by decide) (by decide), (hfr 10).2 (by decide) (by decide)⟩

/-- C17: a call `splice(pos, other, first, last)` with `first != last`, whenever the three
predecessors it reads are non-null, returns and writes only the `next` of `prev(pos)`,
`prev(last)` and `prev(first)` and the `prev` of `pos`, `first` and `last`, whatever the
length of the range; both fields of every other node are unchanged. With `first == last`
the memory is returned as it is. -/
theorem splice_frame (h : Heap) (pos first last fp lo bf : Nat) (hne : first ≠ last)
    (hfp : h.prev pos = some fp) (hlo : h.prev last = some lo)
    (hbf : h.prev first = some bf) :
    (∃ h1, splice (some pos) (some first) (some last) h = some h1 ∧
      ∀ y, (y ≠ fp → y ≠ lo → y ≠ bf → h1.next y = h.next y) ∧
        (y ≠ pos → y ≠ first → y ≠ last → h1.prev y = h.prev y)) ∧
    (∀ (k : Heap) (q it : Ptr), splice q it it k = some k) := by
  constructor
  · have hc : ¬ (some first = some last) := fun e => hne (Option.some.inj e)
    refine ⟨setPrev (setNext (setPrev (setNext (setPrev (setNext h lo (some pos)) pos
      (some lo)) fp (some first)) first (some fp)) bf (some last)) last (some bf), ?_, ?_⟩
    · simp only [splice, hc, if_false, std_prev, hfp, hlo, hbf, link, Option.bind]
    · intro y
      constructor
      · intro h1 h2 h3; simp [h1, h2, h3]
      · intro h1 h2 h3; simp [h1, h2, h3]
  · intro k q it
    simp [splice]

/-- Witness of C17: in `{11,12,13,14}` the range `[11, 14)` is spliced before `20` of
`{10,20,30}`; the node `12` strictly inside the range keeps both fields. -/
theorem splice_frame_witness :
    ∃ h1, splice (some 20) (some 11) (some 14) sampleFour = some h1 ∧
      h1.next 12 = sampleFour.next 12 ∧ h1.prev 12 = sampleFour.prev 12 ∧
      h1.next 30 = sampleFour.next 30 ∧ h1.prev 30 = sampleFour.prev 30 := by
  obtain ⟨h1, hs, hfr⟩ := (splice_frame sampleFour 20 11 14 10 13 1 (by decide) (by decide)
    (by decide) (by decide)).1
  exact ⟨h1, hs, (hfr 12).1 (by decide) (by decide) (by decide),
    (hfr 12).2 (by decide) (by decide) (by decide),
    (hfr 30).1 (by decide) (by decide) (by decide),
    (hfr 30).2 (by decide) (by decide) (by decide)⟩

/-! ## Termination of `clear` -/

theorem clearIter_fst (r : Nat) (fuel : Nat) (h : Heap) :
    (clearIter r fuel h).map Prod.fst = clear r fuel h := by
  induction fuel generalizing h with
  | zero => rfl
  | succ fuel ih =>
    by_cases he : empty r h = true
    · simp [clearIter, clear, he]
    · simp only [clearIter, clear, he, if_false]
      cases hp : pop_back r h with
      | none => rfl
      | some h1 =>
        simp only [Option.some_bind, Option.map_map]
        rw [← ih h1]
        cases clearIter r fuel h1 <;> rfl

theorem clearIter_spec {r : Nat} (fuel : Nat) {h : Heap} {L : List Nat} (hwf : WF h r L)
    (hfuel : L.length < fuel) :
    ∃ h1, clearIter r fuel h = some (h1, L.length) := by
  induction fuel generalizing h L with
  | zero => exact absurd hfuel (by omega)
  | succ fuel ih =>
    cases L with
    | nil =>
      have he := hwf.empty_iff.2 rfl
      exact ⟨h, by simp [clearIter, he]⟩
    | cons a t =>
      obtain ⟨I, z, hI⟩ := exists_snoc_of_cons a t
      rw [hI] at hwf hfuel ⊢
      have he : empty r h = false := by
        cases hc : empty r h with
        | false => rfl
        | true => exact absurd (hwf.empty_iff.1 hc) (by simp)
      obtain ⟨h1, hpop, hwf1, -⟩ := pop_back_spec hwf
      have hlen : I.length < fuel := by
        simp only [List.length_append, List.length_singleton] at hfuel; omega
      obtain ⟨h2, hcl⟩ := ih hwf1 hlen
      exact ⟨h2, by simp [clearIter, he, hpop, hcl]⟩

/-- The state after `i` calls of `pop_back` on a well-formed list holds the sequence
without its last `i` elements. -/
theorem popBackN_spec {r : Nat} (i : Nat) {h : Heap} {L : List Nat} (hwf : WF h r L)
    (hi : i ≤ L.length) :
    ∃ hi1, popBackN r i h = some hi1 ∧ WF hi1 r (L.take (L.length - i)) := by
  induction i generalizing h L with
  | zero => exact ⟨h, rfl, by simpa using hwf⟩
  | succ i ih =>
    cases L with
    | nil => simp at hi
    | cons a t =>
      obtain ⟨I, z, hI⟩ := exists_snoc_of_cons a t
      rw [hI] at hwf hi ⊢
      obtain ⟨h1, hpop, hwf1, -⟩ := pop_back_spec hwf
      have hlen : i ≤ I.length := by
        simp only [List.length_append, List.length_singleton] at hi; omega
      obtain ⟨h2, hp2, hwf2⟩ := ih hwf1 hlen
      refine ⟨h2, by simp [popBackN, hpop, hp2], ?_⟩
      have e : (I ++ [z]).take ((I ++ [z]).length - (i + 1)) = I.take (I.length - i) := by
        simp only [List.length_append, List.length_singleton]
        rw [show I.length + 1 - (i + 1) = I.length - i by omega]
        exact List.take_append_of_le_length (by omega)
      rw [e]; exact hwf2

/-- C18: on a well-formed list holding `n` elements, `clear()` returns after exactly `n`
iterations of its loop (given fuel for `n + 1` tests of the condition); the state after the
`i`-th iteration is well-formed and holds the first `n - i` elements, so each iteration
removes the current last element; no iteration dereferences a null pointer. -/
theorem clear_terminates (h : Heap) (r : Nat) (L : List Nat) (fuel : Nat) (hwf : WF h r L)
    (hfuel : L.length < fuel) :
    ∃ h1, clearIter r fuel h = some (h1, L.length) ∧ clear r fuel h = some h1 ∧
      ∀ i, i ≤ L.length → ∃ hi, popBackN r i h = some hi ∧
        WF hi r (L.take (L.length - i)) ∧
        traversal (L.length + 1) r hi = some (L.take (L.length - i)) ∧
        (L.take (L.length - i)).length = L.length - i := by
  obtain ⟨h1, hc⟩ := clearIter_spec fuel hwf hfuel
  refine ⟨h1, hc, by rw [← clearIter_fst, hc]; rfl, ?_⟩
  intro i hi
  obtain ⟨h2, hp, hw⟩ := popBackN_spec i hwf hi
  have hlen : (L.take (L.length - i)).length = L.length - i := by
    rw [List.length_take]; omega
  exact ⟨h2, hp, hw, hw.traversal_eq _ (by omega), hlen⟩

/-- Witness of C18: clearing `{10,20,30}` takes three iterations; after the first the list
holds `{10,20}`. -/
theorem clear_terminates_witness :
    ∃ h1, clearIter 0 4 sample3 = some (h1, 3) ∧ clear 0 4 sample3 = some h1 ∧
      ∃ hi, popBackN 0 1 sample3 = some hi ∧ WF hi 0 [10, 20] := by
  obtain ⟨h1, hc, hcl, hall⟩ := clear_terminates sample3 0 [10, 20, 30] 4 (by decide) (by decide)
  obtain ⟨hi, hp, hw, -⟩ := hall 1 (by decide)
  exact ⟨h1, hc, hcl, hi, hp, hw⟩

/-! ## Self-move-assignment -/

/-- C20: `x = std::move(x)` for an element `x` linked in a well-formed list with traversal
`L` leaves both fields of `x` null and the list well-formed with traversal `L` minus `x`;
for a fully unlinked `x`, in every link state, it leaves every field as it was. -/
theorem self_move_assign (h : Heap) (r : Nat) (L : List Nat) (x : Nat) (hwf : WF h r L)
    (hx : x ∈ L) :
    (∃ h1, move_assign x x h = some h1 ∧ h1.prev x = none ∧ h1.next x = none ∧
      WF h1 r (L.erase x) ∧ traversal L.length r h1 = some (L.erase x)) ∧
    (∀ (k : Heap) (y : Nat), k.prev y = none → k.next y = none →
      ∃ k1, move_assign y y k = some k1 ∧ ∀ z, k1.prev z = k.prev z ∧ k1.next z = k.next z) := by
  constructor
  · obtain ⟨L1, L2, rfl⟩ := List.append_of_mem hx
    obtain ⟨h1, hu, hwf1, hp, hn, -, -, -⟩ := unlink_spec hwf
    have hnd := (List.nodup_cons.1 hwf.1).2
    rw [erase_split hnd]
    have hwf2 : WF (setPrev (setNext h1 x none) x none) r (L1 ++ L2) := by
      refine hwf1.frame (fun y _ => ?_)
      by_cases hy : y = x
      · subst hy; simp [hp, hn]
      · simp [hy]
    refine ⟨setPrev (setNext h1 x none) x none, ?_, by simp, by simp, hwf2,
      hwf2.traversal_eq _ (by simp)⟩
    simp [move_assign, hu, move_from, hp, hn]
  · intro k y hp hn
    refine ⟨setPrev (setNext k y none) y none, ?_, ?_⟩
    · have hu : unlink y k = some k := unlink_of_not_in_list (by simp [in_list, hp])
      simp [move_assign, hu, move_from, hp, hn]
    · intro z
      by_cases hz : z = y
      · subst hz; simp [hp, hn]
      · simp [hz]

/-- Witness of C20: `x = std::move(x)` for the element `20` of `{10,20,30}`. -/
theorem self_move_assign_witness :
    ∃ h1, move_assign 20 20 sample3 = some h1 ∧ h1.prev 20 = none ∧ h1.next 20 = none ∧
      WF h1 0 [10, 30] ∧ traversal 3 0 h1 = some [10, 30] :=
  (self_move_assign sample3 0 [10, 20, 30] 20 (by decide) (by decide)).1

/-! ## Moving a link node -/

theorem substNode_split {s d : Nat} {L1 L2 : List Nat} (hnd : (L1 ++ s :: L2).Nodup) :
    substNode s d (L1 ++ s :: L2) = L1 ++ d :: L2 := by
  have h1 : s ∉ L1 := by
    intro hm
    have := List.disjoint_of_nodup_append hnd hm
    simp at this
  have h2 : s ∉ L2 := (List.nodup_cons.1 (List.Nodup.of_append_right hnd)).1
  have hid : ∀ M : List Nat, s ∉ M → M.map (fun y => if y = s then d else y) = M := by
    intro M hM
    induction M with
    | nil => rfl
    | cons a t ih =>
      simp only [List.mem_cons, not_or] at hM
      simp [Ne.symm hM.1, ih hM.2]
  simp [substNode, hid L1 h1, hid L2 h2]

/-- What `move_from` does with an element `s` of a well-formed list and a destination `d`
outside the list: `d` takes the place of `s`, and `s` is left with both fields null. -/
theorem move_from_spec {h : Heap} {r : Nat} {L1 L2 : List Nat} {s d : Nat}
    (hwf : WF h r (L1 ++ s :: L2)) (hd : d ∉ r :: (L1 ++ s :: L2)) :
    ∃ h1, move_from d s h = some h1 ∧ WF h1 r (L1 ++ d :: L2) ∧
      h1.prev s = none ∧ h1.next s = none ∧
      (∀ y, y ∉ d :: r :: (L1 ++ s :: L2) → h1.prev y = h.prev y ∧ h1.next y = h.next y) := by
  obtain ⟨p, hp⟩ := getLast?_cons_exists r L1
  obtain ⟨n, S, hS⟩ := exists_cons_of_snoc L2 r
  have hn : (L2 ++ [r]).head? = some n := by rw [hS]; rfl
  obtain ⟨hnd, hl⟩ := hwf
  have e0 : r :: (L1 ++ s :: L2 ++ [r]) = (r :: L1) ++ ([s] ++ (L2 ++ [r])) := by simp
  rw [e0, Linked_append hp (show ([s] ++ (L2 ++ [r])).head? = some s from rfl),
    Linked_append (show [s].getLast? = some s from rfl) hn] at hl
  obtain ⟨hPl, ⟨hps, hsp⟩, -, ⟨hsn, hns⟩, hSl⟩ := hl
  have zp : p ∈ r :: L1 := List.mem_of_getLast?_eq_some hp
  have zn : n ∈ L2 ++ [r] := List.mem_of_mem_head? hn
  simp only [List.mem_cons, List.mem_append, not_or] at hd
  obtain ⟨hdr, hdL1, hds, hdL2⟩ := hd
  have hndP : (r :: L1).Nodup := hnd.sublist (by simp)
  have hrL : r ∉ L1 ++ s :: L2 := (List.nodup_cons.1 hnd).1
  have hndL : (L1 ++ s :: L2).Nodup := (List.nodup_cons.1 hnd).2
  have hsL1 : s ∉ L1 := by
    intro hm
    have := List.disjoint_of_nodup_append hndL hm
    simp at this
  have hsL2 : s ∉ L2 := (List.nodup_cons.1 (List.Nodup.of_append_right hndL)).1
  have hndL2 : L2.Nodup := (List.nodup_cons.1 (List.Nodup.of_append_right hndL)).2
  have hrs : r ≠ s := fun e => hrL (by simp [e])
  have hrL1 : r ∉ L1 := fun hm => hrL (List.mem_append_left _ hm)
  have hrL2 : r ∉ L2 := fun hm =>
    hrL (List.mem_append_right _ (List.mem_cons_of_mem _ hm))
  have dL : ∀ y, y ∈ L1 → y ∉ L2 := fun y h1 h2 =>
    List.disjoint_of_nodup_append hndL h1 (List.mem_cons_of_mem _ h2)
  have hndS : (L2 ++ [r]).Nodup :=
    List.Nodup.append hndL2 (by simp) (by
      intro y hy hm
      rw [List.mem_singleton] at hm
      exact hrL2 (hm ▸ hy))
  have hsP : s ∉ r :: L1 := by
    simp only [List.mem_cons, not_or]; exact ⟨Ne.symm hrs, hsL1⟩
  have hsS : s ∉ L2 ++ [r] := by
    simp only [List.mem_append, List.mem_singleton, not_or]; exact ⟨hsL2, Ne.symm hrs⟩
  have hdP : d ∉ r :: L1 := by
    simp only [List.mem_cons, not_or]; exact ⟨hdr, hdL1⟩
  have hdS : d ∉ L2 ++ [r] := by
    simp only [List.mem_append, List.mem_singleton, not_or]; exact ⟨hdL2, hdr⟩
  have hps' : p ≠ s := fun e => hsP (e ▸ zp)
  have hpd : p ≠ d := fun e => hdP (e ▸ zp)
  have hns' : n ≠ s := fun e => hsS (e ▸ zn)
  have hnd' : n ≠ d := fun e => hdS (e ▸ zn)
  have hfn : ∀ y, y ∉ [p, d, s] → (setPrev (setNext (setPrev (setNext (setPrev (setNext h
      p (some d)) d (some p)) d (some n)) n (some d)) s none) s none).next y = h.next y := by
    intro y hy; simp at hy; simp [hy.1, hy.2.1, hy.2.2]
  have hfp : ∀ y, y ∉ [d, n, s] → (setPrev (setNext (setPrev (setNext (setPrev (setNext h
      p (some d)) d (some p)) d (some n)) n (some d)) s none) s none).prev y = h.prev y := by
    intro y hy; simp at hy; simp [hy.1, hy.2.1, hy.2.2]
  have kP := Linked_frame_seg [p, d, s] [d, n, s] hPl hfn hfp hndP
    (by
      intro a ha; simp only [List.mem_cons, List.mem_singleton, List.not_mem_nil,
        or_false] at ha
      rcases ha with rfl | rfl | rfl
      · exact Or.inr hp
      · exact Or.inl hdP
      · exact Or.inl hsP)
    (by
      intro b hb; simp only [List.mem_cons, List.mem_singleton, List.not_mem_nil,
        or_false] at hb
      rcases hb with rfl | rfl | rfl
      · exact Or.inl hdP
      · rcases List.mem_append.1 zn with hm | hm
        · refine Or.inl ?_
          simp only [List.mem_cons, not_or]
          exact ⟨fun e => hrL2 (e ▸ hm), fun h1 => dL _ h1 hm⟩
        · rw [List.mem_singleton] at hm; exact Or.inr (by rw [hm]; rfl)
      · exact Or.inl hsP)
  have kS := Linked_frame_seg [p, d, s] [d, n, s] hSl hfn hfp hndS
    (by
      intro a ha; simp only [List.mem_cons, List.mem_singleton, List.not_mem_nil,
        or_false] at ha
      rcases ha with rfl | rfl | rfl
      · rcases List.mem_cons.1 zp with hm | hm
        · exact Or.inr (by rw [hm, List.getLast?_concat])
        · refine Or.inl ?_
          simp only [List.mem_append, List.mem_singleton, not_or]
          exact ⟨dL _ hm, fun e => hrL1 (e ▸ hm)⟩
      · exact Or.inl hdS
      · exact Or.inl hsS)
    (by
      intro b hb; simp only [List.mem_cons, List.mem_singleton, List.not_mem_nil,
        or_false] at hb
      rcases hb with rfl | rfl | rfl
      · exact Or.inl hdS
      · exact Or.inr hn
      · exact Or.inl hsS)
  refine ⟨setPrev (setNext (setPrev (setNext (setPrev (setNext h p (some d)) d (some p)) d
    (some n)) n (some d)) s none) s none, ?_, ⟨?_, ?_⟩, by simp, by simp, ?_⟩
  · have hc : ¬ (n = s) := hns'
    simp [move_from, hsn, hc, hsp, link, hps', Ne.symm hps', Option.bind]
  · have e : r :: (L1 ++ d :: L2) = (r :: L1) ++ d :: L2 := rfl
    rw [e]
    refine List.Nodup.append hndP (List.nodup_cons.2 ⟨hdL2, hndL2⟩) ?_
    intro y hy hm
    rcases List.mem_cons.1 hm with e1 | e1
    · exact hdP (e1 ▸ hy)
    · rcases List.mem_cons.1 hy with e2 | e2
      · exact hrL2 (e2 ▸ e1)
      · exact dL y e2 e1
  · have e : r :: (L1 ++ d :: L2 ++ [r]) = (r :: L1) ++ ([d] ++ (L2 ++ [r])) := by simp
    rw [e, Linked_append hp (show ([d] ++ (L2 ++ [r])).head? = some d from rfl),
      Linked_append (show [d].getLast? = some d from rfl) hn]
    refine ⟨kP, ⟨?_, ?_⟩, Linked_single _ _, ⟨?_, ?_⟩, kS⟩
    · simp [hps', hpd]
    · simp [hds, Ne.symm hnd']
    · simp [hds]
    · simp [hns']
  · intro y hy
    simp only [List.mem_cons, List.mem_append, not_or] at hy
    have hyp : y ≠ p := by
      rintro rfl
      rcases List.mem_cons.1 zp with e | e
      · exact hy.2.1 e
      · exact hy.2.2.1 e
    have hyn : y ≠ n := by
      rintro rfl
      rcases List.mem_append.1 zn with e | e
      · exact hy.2.2.2.2 e
      · rw [List.mem_singleton] at e; exact hy.2.1 e
    simp [hy.1, hy.2.2.2.1, hyp, hyn]

theorem move_ctor_spec {h : Heap} {r : Nat} {L : List Nat} {s d : Nat} (hwf : WF h r L)
    (hs : s ∈ L) (hd : d ∉ r :: L) :
    ∃ h1, move_ctor d s h = some h1 ∧ WF h1 r (substNode s d L) ∧
      h1.prev s = none ∧ h1.next s = none ∧
      (∀ y, y ∉ d :: r :: L → h1.prev y = h.prev y ∧ h1.next y = h.next y) := by
  obtain ⟨L1, L2, rfl⟩ := List.append_of_mem hs
  have hwf0 : WF (base_list_element_ctor d h) r (L1 ++ s :: L2) := by
    refine hwf.frame (fun y hy => ?_)
    have hyd : y ≠ d := fun e => hd (e ▸ hy)
    simp [base_list_element_ctor, hyd]
  obtain ⟨h1, hm, hwf1, hp, hn, hfr⟩ := move_from_spec hwf0 hd
  refine ⟨h1, hm, ?_, hp, hn, ?_⟩
  · rw [substNode_split (List.nodup_cons.1 hwf.1).2]; exact hwf1
  · intro y hy
    have hyd : y ≠ d := fun e => hy (e ▸ List.mem_cons_self _ _)
    have := hfr y hy
    rw [this.1, this.2]
    simp [base_list_element_ctor, hyd]

theorem move_assign_spec {h : Heap} {r : Nat} {L : List Nat} {s d : Nat} (hwf : WF h r L)
    (hs : s ∈ L) (hd : in_list h d = false) :
    ∃ h1, move_assign d s h = some h1 ∧ WF h1 r (substNode s d L) ∧
      h1.prev s = none ∧ h1.next s = none ∧
      (∀ y, y ∉ d :: r :: L → h1.prev y = h.prev y ∧ h1.next y = h.next y) := by
  have hdm := hwf.not_mem_of_not_in_list hd
  obtain ⟨L1, L2, rfl⟩ := List.append_of_mem hs
  obtain ⟨h1, hm, hwf1, hp, hn, hfr⟩ := move_from_spec hwf hdm
  refine ⟨h1, by simp [move_assign, unlink_of_not_in_list hd, hm], ?_, hp, hn, hfr⟩
  rw [substNode_split (List.nodup_cons.1 hwf.1).2]; exact hwf1

/-- C12: for a well-formed list with traversal `L` and an element `s` of it,
move-constructing a new node `d` from `s`, or move-assigning `s` to an unlinked node `d`,
leaves the list well-formed with `s` replaced by `d` at the same position and `s` with
both fields null; moving from a fully unlinked source leaves the destination unlinked;
moving from a self-linked source makes the destination self-linked. -/
theorem move_correct (h : Heap) (r : Nat) (L : List Nat) (s d : Nat) (hwf : WF h r L)
    (hs : s ∈ L) (hd : d ∉ r :: L) :
    (∃ h1, move_ctor d s h = some h1 ∧ WF h1 r (substNode s d L) ∧
      traversal (L.length + 1) r h1 = some (substNode s d L) ∧
      h1.prev s = none ∧ h1.next s = none) ∧
    (in_list h d = false → ∃ h1, move_assign d s h = some h1 ∧
      WF h1 r (substNode s d L) ∧
      traversal (L.length + 1) r h1 = some (substNode s d L) ∧
      h1.prev s = none ∧ h1.next s = none) ∧
    (∀ (k : Heap) (s1 d1 : Nat), s1 ≠ d1 → k.prev s1 = none → k.next s1 = none →
      (∃ k1, move_ctor d1 s1 k = some k1 ∧ k1.prev d1 = none ∧ k1.next d1 = none) ∧
      (k.prev d1 = none → k.next d1 = none →
        ∃ k1, move_assign d1 s1 k = some k1 ∧ k1.prev d1 = none ∧ k1.next d1 = none)) ∧
    (∀ (k : Heap) (s1 d1 : Nat), s1 ≠ d1 → k.next s1 = some s1 →
      (∃ k1, move_ctor d1 s1 k = some k1 ∧ k1.next d1 = some d1 ∧ k1.prev d1 = some d1) ∧
      (in_list k d1 = false →
        ∃ k1, move_assign d1 s1 k = some k1 ∧ k1.next d1 = some d1 ∧
          k1.prev d1 = some d1)) := by
  have hlen : (substNode s d L).length < L.length + 1 := by simp [substNode]
  refine ⟨?_, ?_, ?_, ?_⟩
  · obtain ⟨h1, hm, hw, hp, hn, -⟩ := move_ctor_spec hwf hs hd
    exact ⟨h1, hm, hw, hw.traversal_eq _ hlen, hp, hn⟩
  · intro hin
    obtain ⟨h1, hm, hw, hp, hn, -⟩ := move_assign_spec hwf hs hin
    exact ⟨h1, hm, hw, hw.traversal_eq _ hlen, hp, hn⟩
  · intro k s1 d1 hne hp hn
    constructor
    · refine ⟨setPrev (setNext (setNext (setPrev k d1 none) d1 none) s1 none) s1 none,
        ?_, ?_, ?_⟩
      · simp [move_ctor, move_from, base_list_element_ctor, hne, hp, hn]
      · simp [Ne.symm hne]
      · simp [Ne.symm hne]
    · intro hdp hdn
      refine ⟨setPrev (setNext k s1 none) s1 none, ?_, ?_, ?_⟩
      · simp [move_assign, unlink_of_not_in_list (show in_list k d1 = false by
          simp [in_list, hdp]), move_from, hp, hn]
      · simp [Ne.symm hne, hdp]
      · simp [Ne.symm hne, hdn]
  · intro k s1 d1 hne hself
    constructor
    · refine ⟨setNext (setPrev (setNext (setPrev k d1 none) d1 none) d1 (some d1)) d1
        (some d1), ?_, by simp, by simp⟩
      simp [move_ctor, move_from, base_list_element_ctor, hne, hself]
    · intro hin
      refine ⟨setNext (setPrev k d1 (some d1)) d1 (some d1), ?_, by simp, by simp⟩
      simp [move_assign, unlink_of_not_in_list hin, move_from, hself]

/-- Witness of C12: the element `20` of `{10,20,30}` moved to the new node `40`. -/
theorem move_correct_witness :
    ∃ h1, move_ctor 40 20 sample3 = some h1 ∧ WF h1 0 [10, 40, 30] ∧
      traversal 4 0 h1 = some [10, 40, 30] ∧ h1.prev 20 = none ∧ h1.next 20 = none :=
  (move_correct sample3 0 [10, 20, 30] 20 40 (by decide) (by decide) (by decide)).1

/-! ## Swapping two elements through a temporary -/

theorem mem_substNode {s d y : Nat} {L : List Nat} (hy : y ∈ substNode s d L) :
    y = d ∨ (y ∈ L ∧ y ≠ s) := by
  simp only [substNode, List.mem_map] at hy
  obtain ⟨z, hz, rfl⟩ := hy
  by_cases hzs : z = s
  · left; simp [hzs]
  · right; simp [hzs, hz]

theorem mem_substNode_of_ne {s d y : Nat} {L : List Nat} (hy : y ∈ L) (hne : y ≠ s) :
    y ∈ substNode s d L := by
  simp only [substNode, List.mem_map]
  exact ⟨y, hy, by simp [hne]⟩

theorem mem_substNode_self {s d : Nat} {L : List Nat} (hs : s ∈ L) : d ∈ substNode s d L := by
  simp only [substNode, List.mem_map]
  exact ⟨s, hs, by simp⟩

theorem substNode_swap_same {a b tmp : Nat} {L : List Nat} (hab : a ≠ b) (ht : tmp ∉ L)
    (hta : tmp ≠ a) (htb : tmp ≠ b) :
    substNode tmp b (substNode b a (substNode a tmp L)) = swapNodes a b L := by
  simp only [substNode, swapNodes, List.map_map]
  refine List.map_congr_left (fun y hy => ?_)
  have hyt : y ≠ tmp := fun e => ht (e ▸ hy)
  simp only [Function.comp]
  by_cases hya : y = a
  · subst hya
    simp [htb]
  · by_cases hyb : y = b
    · subst hyb
      simp [hya, Ne.symm hta]
    · simp [hya, hyb, hyt]

theorem substNode_swap_left {a b tmp : Nat} {A : List Nat} (hb : b ∉ A) (ht : tmp ∉ A) :
    substNode tmp b (substNode a tmp A) = swapNodes a b A := by
  simp only [substNode, swapNodes, List.map_map]
  refine List.map_congr_left (fun y hy => ?_)
  have hyt : y ≠ tmp := fun e => ht (e ▸ hy)
  have hyb : y ≠ b := fun e => hb (e ▸ hy)
  simp only [Function.comp]
  by_cases hya : y = a
  · simp [hya]
  · simp [hya, hyt, hyb]

theorem substNode_swap_right {a b : Nat} {B : List Nat} (ha : a ∉ B) :
    substNode b a B = swapNodes a b B := by
  simp only [substNode, swapNodes]
  refine List.map_congr_left (fun y hy => ?_)
  have hya : y ≠ a := fun e => ha (e ▸ hy)
  simp [hya]

/-- The swap through a temporary, two elements of one list. -/
theorem swap_same_list {h : Heap} {r : Nat} {L : List Nat} {a b tmp : Nat} (hwf : WF h r L)
    (ha : a ∈ L) (hb : b ∈ L) (hab : a ≠ b) (ht : tmp ∉ r :: L) :
    ∃ h3, swap_via_tmp tmp a b h = some h3 ∧ WF h3 r (swapNodes a b L) ∧
      h3.prev tmp = none ∧ h3.next tmp = none := by
  have htL : tmp ∉ L := fun hm => ht (List.mem_cons_of_mem _ hm)
  have htb : tmp ≠ b := fun e => htL (e ▸ hb)
  have hta : tmp ≠ a := fun e => htL (e ▸ ha)
  obtain ⟨h1, hm1, hwf1, hp1, -, -⟩ := move_ctor_spec hwf ha ht
  have hb1 : b ∈ substNode a tmp L := mem_substNode_of_ne hb (Ne.symm hab)
  obtain ⟨h2, hm2, hwf2, hp2, -, -⟩ :=
    move_assign_spec hwf1 hb1 (show in_list h1 a = false by simp [in_list, hp1])
  have ht2 : tmp ∈ substNode b a (substNode a tmp L) :=
    mem_substNode_of_ne (mem_substNode_self ha) htb
  obtain ⟨h3, hm3, hwf3, hp3, hn3, -⟩ :=
    move_assign_spec hwf2 ht2 (show in_list h2 b = false by simp [in_list, hp2])
  refine ⟨h3, by simp [swap_via_tmp, hm1, hm2, hm3], ?_, hp3, hn3⟩
  rw [← substNode_swap_same hab htL hta htb]; exact hwf3

/-- The swap through a temporary, two elements of two distinct lists. -/
theorem swap_two_lists {h : Heap} {rA rB : Nat} {A B : List Nat} {a b tmp : Nat}
    (hA : WF h rA A) (hB : WF h rB B) (hdist : rB ∉ rA :: A) (ha : a ∈ A) (hb : b ∈ B)
    (htA : tmp ∉ rA :: A) (htB : tmp ∉ rB :: B) :
    ∃ h3, swap_via_tmp tmp a b h = some h3 ∧ WF h3 rA (swapNodes a b A) ∧
      WF h3 rB (swapNodes a b B) ∧ h3.prev tmp = none ∧ h3.next tmp = none := by
  have hdj := hA.disjoint hB hdist
  have haB : a ∉ rB :: B := hdj a (List.mem_cons_of_mem _ ha)
  have hbA : b ∉ rA :: A := fun hm => hdj b hm (List.mem_cons_of_mem _ hb)
  have hrAa : rA ≠ a := fun e => (List.nodup_cons.1 hA.1).1 (e ▸ ha)
  have hrBb : rB ≠ b := fun e => (List.nodup_cons.1 hB.1).1 (e ▸ hb)
  have hta : tmp ≠ a := fun e => htA (e ▸ List.mem_cons_of_mem _ ha)
  have htb : tmp ≠ b := fun e => htB (e ▸ List.mem_cons_of_mem _ hb)
  have hab : a ≠ b := fun e => haB (e ▸ List.mem_cons_of_mem _ hb)
  have htLA : tmp ∉ A := fun hm => htA (List.mem_cons_of_mem _ hm)
  have hbLA : b ∉ A := fun hm => hbA (List.mem_cons_of_mem _ hm)
  have haLB : a ∉ B := fun hm => haB (List.mem_cons_of_mem _ hm)
  -- tmp takes the place of a
  obtain ⟨h1, hm1, hA1, hp1, -, fr1⟩ := move_ctor_spec hA ha htA
  have hB1 : WF h1 rB B := by
    refine hB.frame (fun y hy => fr1 y ?_)
    intro hm
    rcases List.mem_cons.1 hm with e | hm
    · exact htB (e ▸ hy)
    · exact hdj y hm hy
  -- a takes the place of b
  obtain ⟨h2, hm2, hB2, hp2, -, fr2⟩ :=
    move_assign_spec hB1 hb (show in_list h1 a = false by simp [in_list, hp1])
  have hA2 : WF h2 rA (substNode a tmp A) := by
    refine hA1.frame (fun y hy => fr2 y ?_)
    intro hm
    have hyB : y ∈ rB :: B := by
      rcases List.mem_cons.1 hm with e | hm
      · exfalso
        rcases List.mem_cons.1 hy with e1 | hy
        · exact hrAa (e1.symm.trans e)
        · rcases mem_substNode hy with e2 | e2
          · exact hta (e2.symm.trans e)
          · exact e2.2 e
      · exact hm
    rcases List.mem_cons.1 hy with e1 | hy
    · exact hdj y (e1 ▸ List.mem_cons_self _ _) hyB
    · rcases mem_substNode hy with e2 | e2
      · exact htB (e2 ▸ hyB)
      · exact hdj y (List.mem_cons_of_mem _ e2.1) hyB
  -- b takes the place of tmp
  obtain ⟨h3, hm3, hA3, hp3, hn3, fr3⟩ :=
    move_assign_spec hA2 (mem_substNode_self ha)
      (show in_list h2 b = false by simp [in_list, hp2])
  have hB3 : WF h3 rB (substNode b a B) := by
    refine hB2.frame (fun y hy => fr3 y ?_)
    have hyc : y = rB ∨ y = a ∨ (y ∈ B ∧ y ≠ b) := by
      rcases List.mem_cons.1 hy with e1 | hy
      · exact Or.inl e1
      · rcases mem_substNode hy with e2 | e2
        · exact Or.inr (Or.inl e2)
        · exact Or.inr (Or.inr e2)
    intro hm
    have hyA : y = b ∨ y = rA ∨ y = tmp ∨ (y ∈ A ∧ y ≠ a) := by
      rcases List.mem_cons.1 hm with e | hm
      · exact Or.inl e
      · rcases List.mem_cons.1 hm with e | hm
        · exact Or.inr (Or.inl e)
        · rcases mem_substNode hm with e2 | e2
          · exact Or.inr (Or.inr (Or.inl e2))
          · exact Or.inr (Or.inr (Or.inr e2))
    rcases hyc with e | e | e
    · subst e
      rcases hyA with e1 | e1 | e1 | e1
      · exact hrBb e1
      · exact hdist (e1 ▸ List.mem_cons_self _ _)
      · exact htB (e1 ▸ List.mem_cons_self _ _)
      · exact hdist (List.mem_cons_of_mem _ e1.1)
    · subst e
      rcases hyA with e1 | e1 | e1 | e1
      · exact hab e1
      · exact hrAa e1.symm
      · exact hta e1.symm
      · exact e1.2 rfl
    · rcases hyA with e1 | e1 | e1 | e1
      · exact e.2 e1
      · exact hdj y (e1 ▸ List.mem_cons_self _ _) (List.mem_cons_of_mem _ e.1)
      · exact htB (e1 ▸ List.mem_cons_of_mem _ e.1)
      · exact hdj y (List.mem_cons_of_mem _ e1.1) (List.mem_cons_of_mem _ e.1)
  refine ⟨h3, by simp [swap_via_tmp, hm1, hm2, hm3], ?_, ?_, hp3, hn3⟩
  · rw [← substNode_swap_left hbLA htLA]; exact hA3
  · rw [← substNode_swap_right haLB]; exact hB3

/-- C19: `tmp(std::move(a)); a = std::move(b); b = std::move(tmp);` for two distinct
elements `a` and `b`, both in one well-formed list or in two distinct well-formed lists,
and a new node `tmp`: every list stays well-formed with its former traversal in which `a`
and `b` are exchanged, and `tmp` is left with both fields null. -/
theorem swap_correct (h : Heap) (a b tmp : Nat) (hab : a ≠ b) :
    (∀ (r : Nat) (L : List Nat), WF h r L → a ∈ L → b ∈ L → tmp ∉ r :: L →
      ∃ h3, swap_via_tmp tmp a b h = some h3 ∧ WF h3 r (swapNodes a b L) ∧
        traversal (L.length + 1) r h3 = some (swapNodes a b L) ∧
        h3.prev tmp = none ∧ h3.next tmp = none) ∧
    (∀ (rA rB : Nat) (A B : List Nat), WF h rA A → WF h rB B → rB ∉ rA :: A →
      a ∈ A → b ∈ B → tmp ∉ rA :: A → tmp ∉ rB :: B →
      ∃ h3, swap_via_tmp tmp a b h = some h3 ∧
        WF h3 rA (swapNodes a b A) ∧ WF h3 rB (swapNodes a b B) ∧
        traversal (A.length + 1) rA h3 = some (swapNodes a b A) ∧
        traversal (B.length + 1) rB h3 = some (swapNodes a b B) ∧
        h3.prev tmp = none ∧ h3.next tmp = none) := by
  constructor
  · intro r L hwf ha hb ht
    obtain ⟨h3, hs, hw, hp, hn⟩ := swap_same_list hwf ha hb hab ht
    exact ⟨h3, hs, hw, hw.traversal_eq _ (by simp [swapNodes]), hp, hn⟩
  · intro rA rB A B hA hB hdist ha hb htA htB
    obtain ⟨h3, hs, hwA, hwB, hp, hn⟩ := swap_two_lists hA hB hdist ha hb htA htB
    exact ⟨h3, hs, hwA, hwB, hwA.traversal_eq _ (by simp [swapNodes]),
      hwB.traversal_eq _ (by simp [swapNodes]), hp, hn⟩

/-- Witness of C19: in `{10,20,30}` the adjacent elements `10` and `20` and the elements
`10` and `30` are swapped; `20` is swapped with `13` of the list `{11,12,13,14}`. -/
theorem swap_correct_witness :
    (∃ h3, swap_via_tmp 40 10 20 sample3 = some h3 ∧ WF h3 0 [20, 10, 30] ∧
      h3.prev 40 = none ∧ h3.next 40 = none) ∧
    (∃ h3, swap_via_tmp 40 10 30 sample3 = some h3 ∧ WF h3 0 [30, 20, 10]) ∧
    (∃ h3, swap_via_tmp 40 20 13 sampleFour = some h3 ∧ WF h3 0 [10, 13, 30] ∧
      WF h3 1 [11, 12, 20, 14]) := by
  refine ⟨?_, ?_, ?_⟩
  · obtain ⟨h3, h⟩ := (swap_correct sample3 10 20 40 (by decide)).1 0 [10, 20, 30]
      (by decide) (by decide) (by decide) (by decide)
    exact ⟨h3, h.1, h.2.1, h.2.2.2⟩
  · obtain ⟨h3, h⟩ := (swap_correct sample3 10 30 40 (by decide)).1 0 [10, 20, 30]
      (by decide) (by decide) (by decide) (by decide)
    exact ⟨h3, h.1, h.2.1⟩
  · obtain ⟨h3, h⟩ := (swap_correct sampleFour 20 13 40 (by decide)).2 0 1 [10, 20, 30]
      [11, 12, 13, 14] (by decide) (by decide) (by decide) (by decide) (by decide)
      (by decide) (by decide)
    exact ⟨h3, h.1, h.2.1, h.2.2.1⟩

/-! ## Move assignment of a list -/

theorem Heap.ext_fields {k1 k2 : Heap} (hp : ∀ y, k1.prev y = k2.prev y)
    (hn : ∀ y, k1.next y = k2.next y) : k1 = k2 := by
  cases k1 with
  | mk p1 n1 =>
    cases k2 with
    | mk p2 n2 =>
      have e1 : p1 = p2 := funext hp
      have e2 : n1 = n2 := funext hn
      rw [e1, e2]

/-- `unlink()` on a self-linked sentinel leaves it as a default-constructed node. -/
theorem unlink_self_linked {h : Heap} {a : Nat} (hp : h.prev a = some a)
    (hn : h.next a = some a) : unlink a h = some (base_list_element_ctor a h) := by
  rw [unlink_eq hp hn]
  congr 1
  apply Heap.ext_fields
  · intro y
    by_cases hy : y = a
    · simp [base_list_element_ctor, hy]
    · simp [base_list_element_ctor, hy]
  · intro y
    by_cases hy : y = a
    · simp [base_list_element_ctor, hy]
    · simp [base_list_element_ctor, hy]

/-- C16: move-assigning a well-formed list `b` with traversal `LB` to a distinct
well-formed list `a` with traversal `LA`: `a` is left well-formed with traversal `LB` (the
same nodes in the same order), `b` is a well-formed empty list, and every element of `LA`
has `in_list() == false`. -/
theorem list_move_assign_correct (h : Heap) (a b : Nat) (LA LB : List Nat) (fuel : Nat)
    (hA : WF h a LA) (hB : WF h b LB) (hdist : b ∉ a :: LA) (hfuel : LA.length < fuel) :
    ∃ h1, list_move_assign fuel a b h = some h1 ∧ WF h1 a LB ∧
      traversal (LB.length + 1) a h1 = some LB ∧ WF h1 b [] ∧ empty b h1 = true ∧
      ∀ x, x ∈ LA → in_list h1 x = false ∧ h1.prev x = none ∧ h1.next x = none := by
  have hdj := hA.disjoint hB hdist
  obtain ⟨h1, hcl, -, hA1, hcleared, fr1⟩ := clear_spec fuel hA hfuel
  have hB1 : WF h1 b LB := hB.frame (fun y hy => fr1 y (fun hm => hdj y hm hy))
  have hp := hA1.prev_root
  have hn := hA1.next_root
  simp only [List.getLast?_singleton, List.nil_append, List.head?_cons] at hp hn
  have haB : a ∉ b :: LB := hdj a (List.mem_cons_self _ _)
  obtain ⟨h2, hmv, hA2, hB2, fr2⟩ := list_move_ctor_spec hB1 haB
  have htr := hA2.traversal_eq (LB.length + 1) (by omega)
  have hemp : empty b h2 = true := hB2.empty_iff.2 rfl
  refine ⟨h2, ?_, hA2, htr, hB2, hemp, ?_⟩
  · have e : move_assign a b h1 = move_ctor a b h1 := by
      simp [move_assign, unlink_self_linked hp hn, move_ctor]
    simp only [list_move_assign, hcl, Option.some_bind, e]
    exact hmv
  · intro x hx
    have hxa : x ∉ a :: b :: LB := by
      intro hm
      rcases List.mem_cons.1 hm with e | hm
      · exact (List.nodup_cons.1 hA.1).1 (e ▸ hx)
      · exact hdj x (List.mem_cons_of_mem _ hx) hm
    have := fr2 x hxa
    have hc := hcleared x hx
    exact ⟨by simp [in_list, this.1, hc.1], by rw [this.1, hc.1], by rw [this.2, hc.2]⟩

/-- Witness of C16: the list `{11,12,13,14}` at node `1` move-assigned to the list
`{10,20,30}` at node `0`. -/
theorem list_move_assign_correct_witness :
    ∃ h1, list_move_assign 4 0 1 sampleFour = some h1 ∧ WF h1 0 [11, 12, 13, 14] ∧
      traversal 5 0 h1 = some [11, 12, 13, 14] ∧ WF h1 1 [] ∧ empty 1 h1 = true ∧
      ∀ x, x ∈ [10, 20, 30] → in_list h1 x = false ∧ h1.prev x = none ∧ h1.next x = none :=
  list_move_assign_correct sampleFour 0 1 [10, 20, 30] [11, 12, 13, 14] 4 (by decide)
    (by decide) (by decide) (by decide)

/-! ## The invariant of the reachable states -/

theorem GInv.lists_disjoint {h : Heap} {rs : List Nat} {c : Nat → List Nat} (hg : GInv h rs c)
    {r r1 : Nat} (hr : r ∈ rs) (hr1 : r1 ∈ rs) (hne : r ≠ r1) :
    ∀ y, y ∈ r :: c r → y ∉ r1 :: c r1 := by
  refine (hg.2.1 r hr).disjoint (hg.2.1 r1 hr1) ?_
  intro hm
  rcases List.mem_cons.1 hm with e | hm
  · exact hne e.symm
  · exact hg.2.2.1 r hr r1 hr1 hm

/-- A node that is not `in_list()` is on no live list. -/
theorem GInv.outside_of_not_in_list {h : Heap} {rs : List Nat} {c : Nat → List Nat}
    (hg : GInv h rs c) {x : Nat} (hx : in_list h x = false) :
    ∀ r, r ∈ rs → x ∉ r :: c r :=
  fun r hr => (hg.2.1 r hr).not_mem_of_not_in_list hx

/-- An element on no live list is fully unlinked; otherwise it is on one live list. -/
theorem GInv.locate {h : Heap} {rs : List Nat} {c : Nat → List Nat} (hg : GInv h rs c)
    {x : Nat} (hx : x ∉ rs) :
    (h.prev x = none ∧ h.next x = none) ∨ ∃ r, r ∈ rs ∧ x ∈ c r := by
  by_cases hex : ∃ r, r ∈ rs ∧ x ∈ c r
  · exact Or.inr hex
  · left
    refine hg.2.2.2 x (fun r hr hm => ?_)
    rcases List.mem_cons.1 hm with e | hm
    · exact hx (e ▸ hr)
    · exact hex ⟨r, hr, hm⟩

/-- `unlink()` of an element keeps the invariant; afterwards the element is on no list. -/
theorem GInv.keep_unlink {h h1 : Heap} {rs : List Nat} {c : Nat → List Nat} (hg : GInv h rs c)
    {x : Nat} (hx : x ∉ rs) (hu : unlink x h = some h1) :
    GInv h1 rs (fun r => (c r).erase x) ∧ in_list h1 x = false := by
  rcases hg.locate hx with hout | ⟨r0, hr0, hx0⟩
  · have hin : in_list h x = false := by simp [in_list, hout.1]
    rw [unlink_of_not_in_list hin] at hu
    have e : h1 = h := (Option.some.inj hu).symm
    subst e
    have hxo := hg.outside_of_not_in_list hin
    have hce : ∀ r, r ∈ rs → (c r).erase x = c r := fun r hr =>
      List.erase_of_not_mem (fun hm => hxo r hr (List.mem_cons_of_mem _ hm))
    refine ⟨⟨hg.1, ?_, ?_, ?_⟩, hin⟩
    · intro r hr; simp only [hce r hr]; exact hg.2.1 r hr
    · intro r hr r1 hr1; simp only [hce r hr]; exact hg.2.2.1 r hr r1 hr1
    · intro y hy
      refine hg.2.2.2 y (fun r hr => ?_)
      have := hy r hr
      simp only [hce r hr] at this
      exact this
  · obtain ⟨L1, L2, hL⟩ := List.append_of_mem hx0
    have hwf0 := hg.2.1 r0 hr0
    rw [hL] at hwf0
    obtain ⟨h2, hu2, hwf2, hp2, hn2, -, -, hfr⟩ := unlink_spec hwf0
    rw [hu2] at hu
    have e : h2 = h1 := Option.some.inj hu
    subst e
    have hnd0 : (L1 ++ x :: L2).Nodup := (List.nodup_cons.1 hwf0.1).2
    have hother : ∀ r, r ∈ rs → r ≠ r0 → x ∉ c r := by
      intro r hr hne hm
      exact hg.lists_disjoint hr hr0 hne x (List.mem_cons_of_mem _ hm) (List.mem_cons_of_mem _ hx0)
    refine ⟨⟨hg.1, ?_, ?_, ?_⟩, by simp [in_list, hp2]⟩
    · intro r hr
      by_cases hrr : r = r0
      · subst hrr
        simp only [hL, erase_split hnd0]; exact hwf2
      · simp only [List.erase_of_not_mem (hother r hr hrr)]
        refine (hg.2.1 r hr).frame (fun y hy => hfr y ?_)
        rw [← hL]
        exact hg.lists_disjoint hr hr0 hrr y hy
    · intro r hr r1 hr1 hm
      exact hg.2.2.1 r hr r1 hr1 (List.mem_of_mem_erase hm)
    · intro y hy
      by_cases hyx : y = x
      · subst hyx; exact ⟨hp2, hn2⟩
      · have hyo : ∀ r, r ∈ rs → y ∉ r :: c r := by
          intro r hr hm
          refine hy r hr ?_
          rcases List.mem_cons.1 hm with e | hm
          · exact e ▸ List.mem_cons_self _ _
          · exact List.mem_cons_of_mem _ ((List.mem_erase_of_ne hyx).2 hm)
        have hold := hg.2.2.2 y hyo
        have := hfr y (by rw [← hL]; exact hyo r0 hr0)
        rw [this.1, this.2]; exact hold

/-- `insert_before` of an unlinked element at a position of a live list keeps the
invariant. -/
theorem GInv.keep_insert_before {h h1 : Heap} {rs : List Nat} {c : Nat → List Nat}
    (hg : GInv h rs c) {r pos elt : Nat} (hr : r ∈ rs) (helt : elt ∉ rs)
    (hin : in_list h elt = false) (hpos : pos ∈ r :: c r)
    (hi : intrusive.insert_before elt (some pos) h = some h1) : ∃ c1, GInv h1 rs c1 := by
  have hwf := hg.2.1 r hr
  have hxo := hg.outside_of_not_in_list hin
  obtain ⟨L1, L2, hL, hhead, -⟩ := exists_split_at hwf.1 hpos elt
  rw [hL] at hwf
  have hx : elt ∉ r :: (L1 ++ L2) := by rw [← hL]; exact hxo r hr
  obtain ⟨h2, hi2, hwf2, -, -, -, hfr⟩ := insert_before_spec hwf hhead hx
  rw [hi2] at hi
  have e : h2 = h1 := Option.some.inj hi
  subst e
  refine ⟨Function.update c r (L1 ++ elt :: L2), hg.1, ?_, ?_, ?_⟩
  · intro r1 hr1
    by_cases hrr : r1 = r
    · subst hrr; simp only [Function.update_same]; exact hwf2
    · simp only [Function.update_noteq hrr]
      refine (hg.2.1 r1 hr1).frame (fun y hy => hfr y ?_)
      intro hm
      rcases List.mem_cons.1 hm with e | hm
      · exact hxo r1 hr1 (e ▸ hy)
      · rw [← hL] at hm
        exact hg.lists_disjoint hr1 hr hrr y hy hm
  · intro r1 hr1 r2 hr2
    by_cases hrr : r1 = r
    · subst hrr
      simp only [Function.update_same]
      intro hm
      have hm' : r2 = elt ∨ r2 ∈ c r1 := by
        rw [hL]
        simp only [List.mem_append, List.mem_cons] at hm ⊢
        tauto
      rcases hm' with e | hm'
      · exact helt (e ▸ hr2)
      · exact hg.2.2.1 r1 hr1 r2 hr2 hm'
    · simp only [Function.update_noteq hrr]
      exact hg.2.2.1 r1 hr1 r2 hr2
  · intro y hy
    have hyr := hy r hr
    simp only [Function.update_same, List.mem_cons, List.mem_append, not_or] at hyr
    have hyo : ∀ r1, r1 ∈ rs → y ∉ r1 :: c r1 := by
      intro r1 hr1
      by_cases hrr : r1 = r
      · subst hrr
        rw [hL]
        simp only [List.mem_cons, List.mem_append, not_or]
        exact ⟨hyr.1, hyr.2.1, hyr.2.2.2⟩
      · have := hy r1 hr1
        simp only [Function.update_noteq hrr] at this
        exact this
    have hold := hg.2.2.2 y hyo
    have := hfr y (by
      simp only [List.mem_cons, List.mem_append, not_or]
      exact ⟨hyr.2.2.1, hyr.1, hyr.2.1, hyr.2.2.2⟩)
    rw [this.1, this.2]; exact hold

/-- `insert(pos, elt)` of an element at a position of a live list keeps the invariant. -/
theorem GInv.keep_insert {h h1 : Heap} {rs : List Nat} {c : Nat → List Nat} (hg : GInv h rs c)
    {r pos elt : Nat} {it : Ptr} (hr : r ∈ rs) (helt : elt ∉ rs) (hpos : pos ∈ r :: c r)
    (hi : intrusive.insert (some pos) elt h = some (h1, it)) : ∃ c1, GInv h1 rs c1 := by
  by_cases hep : elt = pos
  · simp only [intrusive.insert, hep, if_true] at hi
    have e : h = h1 := (Prod.mk.inj (Option.some.inj hi)).1
    exact ⟨c, e ▸ hg⟩
  · have hc : ¬ (some elt = some pos) := fun e => hep (Option.some.inj e)
    simp only [intrusive.insert, hc, if_false] at hi
    cases hu : intrusive.unlink elt h with
    | none => simp [hu] at hi
    | some hu1 =>
      rw [hu] at hi
      simp only [Option.some_bind] at hi
      cases hb : intrusive.insert_before elt (some pos) hu1 with
      | none => simp [hb] at hi
      | some hb1 =>
        rw [hb] at hi
        simp only [Option.some_bind, std_prev, Option.map_some'] at hi
        have e : hb1 = h1 := (Prod.mk.inj (Option.some.inj hi)).1
        subst e
        obtain ⟨hg1, hin1⟩ := hg.keep_unlink helt hu
        have hpos1 : pos ∈ r :: (c r).erase elt := by
          rcases List.mem_cons.1 hpos with e | hm
          · exact e ▸ List.mem_cons_self _ _
          · exact List.mem_cons_of_mem _ ((List.mem_erase_of_ne (Ne.symm hep)).2 hm)
        exact hg1.keep_insert_before hr helt hin1 hpos1 hb

theorem GInv.keep_erase {h h1 : Heap} {rs : List Nat} {c : Nat → List Nat} (hg : GInv h rs c)
    {pos : Nat} {it : Ptr} (hpos : pos ∉ rs)
    (he : intrusive.erase (some pos) h = some (h1, it)) : ∃ c1, GInv h1 rs c1 := by
  simp only [intrusive.erase] at he
  cases hu : intrusive.unlink pos h with
  | none => simp [hu] at he
  | some hu1 =>
    rw [hu] at he
    have e : hu1 = h1 := (Prod.mk.inj (Option.some.inj he)).1
    subst e
    exact ⟨_, (hg.keep_unlink hpos hu).1⟩

theorem GInv.keep_push_back {h h1 : Heap} {rs : List Nat} {c : Nat → List Nat}
    (hg : GInv h rs c) {r elt : Nat} (hr : r ∈ rs) (helt : elt ∉ rs)
    (hp : intrusive.push_back r elt h = some h1) : ∃ c1, GInv h1 rs c1 := by
  simp only [intrusive.push_back, list_end] at hp
  cases hi : intrusive.insert (some r) elt h with
  | none => simp [hi] at hp
  | some p =>
    rw [hi] at hp
    have e : p.1 = h1 := Option.some.inj hp
    subst e
    exact hg.keep_insert hr helt (List.mem_cons_self _ _) hi

theorem GInv.keep_push_front {h h1 : Heap} {rs : List Nat} {c : Nat → List Nat}
    (hg : GInv h rs c) {r elt : Nat} (hr : r ∈ rs) (helt : elt ∉ rs)
    (hp : intrusive.push_front r elt h = some h1) : ∃ c1, GInv h1 rs c1 := by
  have hwf := hg.2.1 r hr
  obtain ⟨n, hn⟩ := Option.isSome_iff_exists.1 (hwf.next_isSome (List.mem_cons_self _ _))
  have hnm : n ∈ r :: c r := (hwf.closed (List.mem_cons_self _ _)).2 n hn
  simp only [intrusive.push_front, list_begin, hn] at hp
  cases hi : intrusive.insert (some n) elt h with
  | none => simp [hi] at hp
  | some p =>
    rw [hi] at hp
    have e : p.1 = h1 := Option.some.inj hp
    subst e
    exact hg.keep_insert hr helt hnm hi

theorem GInv.keep_pop_back {h h1 : Heap} {rs : List Nat} {c : Nat → List Nat}
    (hg : GInv h rs c) {r : Nat} (hr : r ∈ rs) (hne : intrusive.empty r h = false)
    (hp : intrusive.pop_back r h = some h1) : ∃ c1, GInv h1 rs c1 := by
  have hwf := hg.2.1 r hr
  obtain ⟨z, hz⟩ := Option.isSome_iff_exists.1 (hwf.prev_isSome (List.mem_cons_self _ _))
  have hzm : z ∈ r :: c r := (hwf.closed (List.mem_cons_self _ _)).1 z hz
  have hzr : z ≠ r := by
    rintro rfl
    simp [intrusive.empty, hz] at hne
  have hzc : z ∈ c r := by
    rcases List.mem_cons.1 hzm with e | hm
    · exact absurd e hzr
    · exact hm
  have hzrs : z ∉ rs := fun hm => hg.2.2.1 r hr z hm hzc
  simp only [intrusive.pop_back, std_prev, list_end, Option.some_bind, hz] at hp
  cases he : intrusive.erase (some z) h with
  | none => simp [he] at hp
  | some p =>
    rw [he] at hp
    have e : p.1 = h1 := Option.some.inj hp
    subst e
    exact hg.keep_erase hzrs he

theorem GInv.keep_pop_front {h h1 : Heap} {rs : List Nat} {c : Nat → List Nat}
    (hg : GInv h rs c) {r : Nat} (hr : r ∈ rs) (hne : intrusive.empty r h = false)
    (hp : intrusive.pop_front r h = some h1) : ∃ c1, GInv h1 rs c1 := by
  have hwf := hg.2.1 r hr
  have hcne : c r ≠ [] := fun e => by
    have := hwf.empty_iff.2 e
    rw [hne] at this; exact absurd this (by decide)
  obtain ⟨a, t, hat⟩ : ∃ a t, c r = a :: t := by
    cases hc : c r with
    | nil => exact absurd hc hcne
    | cons a t => exact ⟨a, t, rfl⟩
  have hn : h.next r = some a := by rw [hwf.next_root, hat]; rfl
  have hac : a ∈ c r := by rw [hat]; exact List.mem_cons_self _ _
  have hars : a ∉ rs := fun hm => hg.2.2.1 r hr a hm hac
  simp only [intrusive.pop_front, list_begin, hn] at hp
  cases he : intrusive.erase (some a) h with
  | none => simp [he] at hp
  | some p =>
    rw [he] at hp
    have e : p.1 = h1 := Option.some.inj hp
    subst e
    exact hg.keep_erase hars he

theorem GInv.keep_clear {rs : List Nat} {r : Nat} (hr : r ∈ rs) (fuel : Nat) {h h1 : Heap}
    {c : Nat → List Nat} (hg : GInv h rs c) (hc : intrusive.clear r fuel h = some h1) :
    ∃ c1, GInv h1 rs c1 := by
  induction fuel generalizing h c with
  | zero => simp [intrusive.clear] at hc
  | succ fuel ih =>
    by_cases he : intrusive.empty r h = true
    · simp only [intrusive.clear, he, if_true] at hc
      exact ⟨c, (Option.some.inj hc) ▸ hg⟩
    · simp only [intrusive.clear, he, if_false] at hc
      cases hp : intrusive.pop_back r h with
      | none => simp [hp] at hc
      | some h2 =>
        rw [hp] at hc
        have he' : intrusive.empty r h = false := by
          cases hv : intrusive.empty r h with
          | false => rfl
          | true => exact absurd hv he
        obtain ⟨c2, hg2⟩ := hg.keep_pop_back hr he' hp
        exact ih hg2 hc

theorem GInv.keep_new_list {h : Heap} {rs : List Nat} {c : Nat → List Nat} (hg : GInv h rs c)
    {r : Nat} (hr : r ∉ rs) (hin : in_list h r = false) :
    ∃ c1, GInv (list_ctor r h) (r :: rs) c1 := by
  have hxo := hg.outside_of_not_in_list hin
  have hfr : ∀ y, y ≠ r → (list_ctor r h).prev y = h.prev y ∧
      (list_ctor r h).next y = h.next y := by
    intro y hy; simp [list_ctor, base_list_element_ctor, hy]
  refine ⟨Function.update c r [], List.nodup_cons.2 ⟨hr, hg.1⟩, ?_, ?_, ?_⟩
  · intro r1 hr1
    by_cases hrr : r1 = r
    · subst hrr; simp only [Function.update_same]; exact list_ctor_WF r1 h
    · have hr1' : r1 ∈ rs := by
        rcases List.mem_cons.1 hr1 with e | hm
        · exact absurd e hrr
        · exact hm
      simp only [Function.update_noteq hrr]
      refine (hg.2.1 r1 hr1').frame (fun y hy => hfr y ?_)
      rintro rfl
      exact hxo r1 hr1' hy
  · intro r1 hr1 r2 hr2
    by_cases hrr : r1 = r
    · subst hrr; simp only [Function.update_same]; exact List.not_mem_nil _
    · have hr1' : r1 ∈ rs := by
        rcases List.mem_cons.1 hr1 with e | hm
        · exact absurd e hrr
        · exact hm
      simp only [Function.update_noteq hrr]
      rcases List.mem_cons.1 hr2 with e | hm
      · rw [e]; exact fun hm => hxo r1 hr1' (List.mem_cons_of_mem _ hm)
      · exact hg.2.2.1 r1 hr1' r2 hm
  · intro y hy
    have hyr : y ≠ r := by
      have := hy r (List.mem_cons_self _ _)
      simp only [Function.update_same, List.mem_cons, List.not_mem_nil, or_false] at this
      exact this
    have hyo : ∀ r1, r1 ∈ rs → y ∉ r1 :: c r1 := by
      intro r1 hr1
      have hrr : r1 ≠ r := fun e => hr (e ▸ hr1)
      have := hy r1 (List.mem_cons_of_mem _ hr1)
      simp only [Function.update_noteq hrr] at this
      exact this
    have := hfr y hyr
    rw [this.1, this.2]; exact hg.2.2.2 y hyo

theorem GInv.keep_move_list {h h1 : Heap} {rs : List Nat} {c : Nat → List Nat}
    (hg : GInv h rs c) {a b : Nat} (ha : a ∈ rs) (hb : b ∉ rs) (hin : in_list h b = false)
    (hm : list_move_ctor b a h = some h1) : ∃ c1, GInv h1 (b :: rs) c1 := by
  have hxo := hg.outside_of_not_in_list hin
  have hba : b ≠ a := fun e => hb (e ▸ ha)
  obtain ⟨h2, hm2, hwb, hwa, hfr⟩ := list_move_ctor_spec (hg.2.1 a ha) (hxo a ha)
  rw [hm2] at hm
  have e : h2 = h1 := Option.some.inj hm
  subst e
  have hmem : ∀ r1, r1 ∈ b :: rs → r1 = b ∨ r1 = a ∨ (r1 ∈ rs ∧ r1 ≠ a ∧ r1 ≠ b) := by
    intro r1 hr1
    by_cases h1 : r1 = b
    · exact Or.inl h1
    · by_cases h2 : r1 = a
      · exact Or.inr (Or.inl h2)
      · rcases List.mem_cons.1 hr1 with e | hm
        · exact absurd e h1
        · exact Or.inr (Or.inr ⟨hm, h2, h1⟩)
  have hca : Function.update (Function.update c b (c a)) a [] a = [] := by
    simp only [Function.update_same]
  have hcb : Function.update (Function.update c b (c a)) a [] b = c a := by
    simp only [Function.update_noteq hba, Function.update_same]
  have hco : ∀ r1, r1 ≠ a → r1 ≠ b →
      Function.update (Function.update c b (c a)) a [] r1 = c r1 := by
    intro r1 h1 h2
    simp only [Function.update_noteq h1, Function.update_noteq h2]
  have hsub : ∀ r1, r1 ∈ b :: rs → ∀ y,
      y ∈ Function.update (Function.update c b (c a)) a [] r1 → ∃ r2, r2 ∈ rs ∧ y ∈ c r2 := by
    intro r1 hr1 y hy
    rcases hmem r1 hr1 with e | e | e
    · rw [e, hcb] at hy; exact ⟨a, ha, hy⟩
    · rw [e, hca] at hy; exact absurd hy (List.not_mem_nil _)
    · rw [hco r1 e.2.1 e.2.2] at hy; exact ⟨r1, e.1, hy⟩
  refine ⟨Function.update (Function.update c b (c a)) a [], List.nodup_cons.2 ⟨hb, hg.1⟩,
    ?_, ?_, ?_⟩
  · intro r1 hr1
    rcases hmem r1 hr1 with e | e | e
    · rw [e, hcb]; exact hwb
    · rw [e, hca]; exact hwa
    · rw [hco r1 e.2.1 e.2.2]
      refine (hg.2.1 r1 e.1).frame (fun y hy => hfr y ?_)
      intro hm
      rcases List.mem_cons.1 hm with e1 | hm
      · exact hxo r1 e.1 (e1 ▸ hy)
      · exact hg.lists_disjoint e.1 ha e.2.1 y hy hm
  · intro r1 hr1 r2 hr2 hm
    obtain ⟨r3, hr3, hy⟩ := hsub r1 hr1 r2 hm
    rcases List.mem_cons.1 hr2 with e | hr2
    · exact hxo r3 hr3 (e ▸ List.mem_cons_of_mem _ hy)
    · exact hg.2.2.1 r3 hr3 r2 hr2 hy
  · intro y hy
    have hyb := hy b (List.mem_cons_self _ _)
    have hya := hy a (List.mem_cons_of_mem _ ha)
    rw [hcb] at hyb
    rw [hca] at hya
    have hya' : y ≠ a := fun e => hya (e ▸ List.mem_cons_self _ _)
    simp only [List.mem_cons, not_or] at hyb
    have hyo : ∀ r1, r1 ∈ rs → y ∉ r1 :: c r1 := by
      intro r1 hr1
      by_cases h1 : r1 = a
      · rw [h1]
        simp only [List.mem_cons, not_or]
        exact ⟨hya', hyb.2⟩
      · have h2 : r1 ≠ b := fun e => hb (e ▸ hr1)
        have := hy r1 (List.mem_cons_of_mem _ hr1)
        rw [hco r1 h1 h2] at this
        exact this
    have := hfr y (by
      simp only [List.mem_cons, not_or]
      exact ⟨hyb.1, hya', hyb.2⟩)
    rw [this.1, this.2]; exact hg.2.2.2 y hyo

theorem GInv.keep_splice {h h1 : Heap} {rs : List Nat} {c : Nat → List Nat} (hg : GInv h rs c)
    {rA rB pos first last : Nat} {B1 R B2 : List Nat} (hrA : rA ∈ rs) (hrB : rB ∈ rs)
    (hne : rA ≠ rB) (hpos : pos ∈ rA :: c rA) (hB : c rB = B1 ++ R ++ B2)
    (hfirst : (R ++ (B2 ++ [rB])).head? = some first)
    (hlast : (B2 ++ [rB]).head? = some last)
    (hs : intrusive.splice (some pos) (some first) (some last) h = some h1) :
    ∃ c1, GInv h1 rs c1 := by
  cases R with
  | nil =>
    have e : first = last := by
      rw [List.nil_append, hlast] at hfirst
      exact (Option.some.inj hfirst).symm
    subst e
    simp only [intrusive.splice, if_true] at hs
    exact ⟨c, (Option.some.inj hs) ▸ hg⟩
  | cons f R1 =>
    have hf : (f :: R1).head? = some first := by simpa using hfirst
    have hwA := hg.2.1 rA hrA
    have hwB := hg.2.1 rB hrB
    obtain ⟨A1, A2, hA, hhead, -⟩ := exists_split_at hwA.1 hpos 0
    rw [hA] at hwA
    rw [hB] at hwB
    have hdist : rB ∉ rA :: (A1 ++ A2) := by
      rw [← hA]
      intro hm
      rcases List.mem_cons.1 hm with e | hm
      · exact hne e.symm
      · exact hg.2.2.1 rA hrA rB hrB hm
    obtain ⟨h2, hs2, hwA2, hwB2, hfr⟩ := splice_spec hwA hwB hdist hhead hf hlast
    rw [hs2] at hs
    have e : h2 = h1 := Option.some.inj hs
    subst e
    have hcA : Function.update (Function.update c rA (A1 ++ (f :: R1) ++ A2)) rB (B1 ++ B2) rA
        = A1 ++ (f :: R1) ++ A2 := by
      simp only [Function.update_noteq hne, Function.update_same]
    have hcB : Function.update (Function.update c rA (A1 ++ (f :: R1) ++ A2)) rB (B1 ++ B2) rB
        = B1 ++ B2 := by
      simp only [Function.update_same]
    have hco : ∀ r1, r1 ≠ rA → r1 ≠ rB →
        Function.update (Function.update c rA (A1 ++ (f :: R1) ++ A2)) rB (B1 ++ B2) r1
          = c r1 := by
      intro r1 h1 h2
      simp only [Function.update_noteq h1, Function.update_noteq h2]
    have hsub : ∀ r1, r1 ∈ rs → ∀ y,
        y ∈ Function.update (Function.update c rA (A1 ++ (f :: R1) ++ A2)) rB (B1 ++ B2) r1 →
        ∃ r2, r2 ∈ rs ∧ y ∈ c r2 := by
      intro r1 hr1 y hy
      by_cases h1 : r1 = rB
      · rw [h1, hcB] at hy
        refine ⟨rB, hrB, ?_⟩
        rw [hB]
        simp only [List.mem_append] at hy ⊢
        tauto
      · by_cases h2 : r1 = rA
        · rw [h2, hcA] at hy
          simp only [List.mem_append] at hy
          rcases hy with (hy | hy) | hy
          · exact ⟨rA, hrA, by rw [hA]; exact List.mem_append_left _ hy⟩
          · exact ⟨rB, hrB, by
              rw [hB]; exact List.mem_append_left _ (List.mem_append_right _ hy)⟩
          · exact ⟨rA, hrA, by rw [hA]; exact List.mem_append_right _ hy⟩
        · rw [hco r1 h2 h1] at hy
          exact ⟨r1, hr1, hy⟩
    refine ⟨Function.update (Function.update c rA (A1 ++ (f :: R1) ++ A2)) rB (B1 ++ B2),
      hg.1, ?_, ?_, ?_⟩
    · intro r1 hr1
      by_cases h1 : r1 = rB
      · rw [h1, hcB]; exact hwB2
      · by_cases h2 : r1 = rA
        · rw [h2, hcA]; exact hwA2
        · rw [hco r1 h2 h1]
          refine (hg.2.1 r1 hr1).frame (fun y hy => hfr y ?_ ?_)
          · rw [← hA]; exact hg.lists_disjoint hr1 hrA h2 y hy
          · rw [← hB]; exact hg.lists_disjoint hr1 hrB h1 y hy
    · intro r1 hr1 r2 hr2 hm
      obtain ⟨r3, hr3, hy⟩ := hsub r1 hr1 r2 hm
      exact hg.2.2.1 r3 hr3 r2 hr2 hy
    · intro y hy
      have hyA := hy rA hrA
      have hyB := hy rB hrB
      rw [hcA] at hyA
      rw [hcB] at hyB
      simp only [List.mem_cons, List.mem_append, not_or] at hyA hyB
      have hyoA : y ∉ rA :: (A1 ++ A2) := by
        simp only [List.mem_cons, List.mem_append, not_or]
        exact ⟨hyA.1, hyA.2.1.1, hyA.2.2⟩
      have hyoB : y ∉ rB :: (B1 ++ (f :: R1) ++ B2) := by
        simp only [List.mem_cons, List.mem_append, not_or]
        exact ⟨hyB.1, ⟨hyB.2.1, by simpa using hyA.2.1.2⟩, hyB.2.2⟩
      have hyo : ∀ r1, r1 ∈ rs → y ∉ r1 :: c r1 := by
        intro r1 hr1
        by_cases h1 : r1 = rB
        · rw [h1, hB]; exact hyoB
        · by_cases h2 : r1 = rA
          · rw [h2, hA]; exact hyoA
          · have := hy r1 hr1
            rw [hco r1 h2 h1] at this
            exact this
      have := hfr y hyoA hyoB
      rw [this.1, this.2]; exact hg.2.2.2 y hyo

/-- Every reachable state satisfies the invariant, for some traversals of its lists. -/
theorem Reachable.ginv {h : Heap} {rs : List Nat} (hr : Reachable h rs) :
    ∃ c, GInv h rs c := by
  induction hr with
  | init =>
    exact ⟨fun _ => [], List.nodup_nil, fun _ hm => absurd hm (List.not_mem_nil _),
      fun _ hm => absurd hm (List.not_mem_nil _), fun _ _ => ⟨rfl, rfl⟩⟩
  | new_list r _ hr hin ih =>
    obtain ⟨c, hg⟩ := ih
    exact hg.keep_new_list hr hin
  | insert r pos elt h1 it _ hr helt hpos hi ih =>
    obtain ⟨c, hg⟩ := ih
    obtain ⟨L, hw, hm⟩ := hpos
    have e := hw.unique (hg.2.1 r hr)
    exact hg.keep_insert hr helt (e ▸ hm) hi
  | push_back r elt h1 _ hr helt hp ih =>
    obtain ⟨c, hg⟩ := ih
    exact hg.keep_push_back hr helt hp
  | push_front r elt h1 _ hr helt hp ih =>
    obtain ⟨c, hg⟩ := ih
    exact hg.keep_push_front hr helt hp
  | erase r pos h1 it _ hr hpos _ he ih =>
    obtain ⟨c, hg⟩ := ih
    exact hg.keep_erase hpos he
  | pop_back r h1 _ hr hne hp ih =>
    obtain ⟨c, hg⟩ := ih
    exact hg.keep_pop_back hr hne hp
  | pop_front r h1 _ hr hne hp ih =>
    obtain ⟨c, hg⟩ := ih
    exact hg.keep_pop_front hr hne hp
  | clear r fuel h1 _ hr hc ih =>
    obtain ⟨c, hg⟩ := ih
    exact hg.keep_clear hr fuel hc
  | destroy x h1 _ hx hd ih =>
    obtain ⟨c, hg⟩ := ih
    exact ⟨_, (hg.keep_unlink hx hd).1⟩
  | move_list a b h1 _ ha hb hin hm ih =>
    obtain ⟨c, hg⟩ := ih
    exact hg.keep_move_list ha hb hin hm
  | splice rA rB pos first last B1 R B2 h1 _ hrA hrB hne hpos hB hfirst hlast hs ih =>
    obtain ⟨c, hg⟩ := ih
    obtain ⟨L, hw, hm⟩ := hpos
    have e := hw.unique (hg.2.1 rA hrA)
    have eB := (hg.2.1 rB hrB).unique hB
    exact hg.keep_splice hrA hrB hne (e ▸ hm) eB hfirst hlast hs

theorem Linked_succ {h : Heap} (l : List Nat) (z : Nat) (hl : Linked h (l ++ [z])) {n : Nat}
    (hn : n ∈ l) : ∃ m, h.next n = some m ∧ h.prev m = some n := by
  induction l with
  | nil => exact absurd hn (List.not_mem_nil _)
  | cons a t ih =>
    cases t with
    | nil =>
      simp only [List.mem_singleton] at hn
      subst hn
      simp only [List.singleton_append, Linked_cons_cons] at hl
      exact ⟨z, hl.1⟩
    | cons b t =>
      simp only [List.cons_append, Linked_cons_cons] at hl
      rcases List.mem_cons.1 hn with e | hn
      · subst e; exact ⟨b, hl.1⟩
      · exact ih (by simpa using hl.2) hn

theorem Linked_pred {h : Heap} (l : List Nat) (a : Nat) (hl : Linked h (a :: l)) {n : Nat}
    (hn : n ∈ l) : ∃ p, h.prev n = some p ∧ h.next p = some n := by
  induction l generalizing a with
  | nil => exact absurd hn (List.not_mem_nil _)
  | cons b t ih =>
    simp only [Linked_cons_cons] at hl
    rcases List.mem_cons.1 hn with e | hn
    · subst e; exact ⟨a, hl.1.2, hl.1.1⟩
    · exact ih b hl.2 hn

/-- On a well-formed list every node has a successor whose `prev` is the node and a
predecessor whose `next` is the node, both on the list. -/
theorem WF.cycle {h : Heap} {r : Nat} {L : List Nat} (hwf : WF h r L) {n : Nat}
    (hn : n ∈ r :: L) :
    (∃ m, m ∈ r :: L ∧ h.next n = some m ∧ h.prev m = some n) ∧
    (∃ p, p ∈ r :: L ∧ h.prev n = some p ∧ h.next p = some n) := by
  constructor
  · obtain ⟨m, h1, h2⟩ := Linked_succ (r :: L) r hwf.2 hn
    exact ⟨m, (hwf.closed hn).2 m h1, h1, h2⟩
  · have hn' : n ∈ L ++ [r] := by
      simp only [List.mem_cons, List.mem_append, List.mem_singleton] at hn ⊢
      tauto
    obtain ⟨p, h1, h2⟩ := Linked_pred (L ++ [r]) r hwf.2 hn'
    exact ⟨p, (hwf.closed hn).1 p h1, h1, h2⟩

/-- C14: in every state reachable from newly constructed lists and unlinked elements by
the list operations, (1) every node has `prev` null iff `next` null; (2) every list's
sentinel lies on a closed cycle of distinct nodes on which `n.next.prev == n` and
`n.prev.next == n`; (3) every element that is `in_list()` lies on the cycle of exactly one
list, and every element that is not lies on none. -/
theorem reachable_invariant (h : Heap) (rs : List Nat) (hr : Reachable h rs) :
    (∀ y, h.prev y = none ↔ h.next y = none) ∧
    (∀ r, r ∈ rs → ∃ L, WF h r L ∧ ∀ n, n ∈ r :: L →
      (∃ m, m ∈ r :: L ∧ h.next n = some m ∧ h.prev m = some n) ∧
      (∃ p, p ∈ r :: L ∧ h.prev n = some p ∧ h.next p = some n)) ∧
    (∀ x, x ∉ rs →
      (in_list h x = true →
        ∃ r, r ∈ rs ∧ OnList h r x ∧ ∀ r1, r1 ∈ rs → OnList h r1 x → r1 = r) ∧
      (in_list h x = false → ∀ r, r ∈ rs → ¬ OnList h r x)) := by
  obtain ⟨c, hg⟩ := hr.ginv
  refine ⟨?_, ?_, ?_⟩
  · intro y
    by_cases hex : ∃ r, r ∈ rs ∧ y ∈ r :: c r
    · obtain ⟨r, hr1, hy⟩ := hex
      have h1 := (hg.2.1 r hr1).prev_isSome hy
      have h2 := (hg.2.1 r hr1).next_isSome hy
      constructor
      · intro e; rw [e] at h1; exact absurd h1 (by simp)
      · intro e; rw [e] at h2; exact absurd h2 (by simp)
    · have := hg.2.2.2 y (fun r hr1 hm => hex ⟨r, hr1, hm⟩)
      exact ⟨fun _ => this.2, fun _ => this.1⟩
  · intro r hr1
    exact ⟨c r, hg.2.1 r hr1, fun n hn => (hg.2.1 r hr1).cycle hn⟩
  · intro x hx
    constructor
    · intro hin
      rcases hg.locate hx with hout | ⟨r, hr1, hxc⟩
      · simp [in_list, hout.1] at hin
      · refine ⟨r, hr1, ⟨c r, hg.2.1 r hr1, List.mem_cons_of_mem _ hxc⟩, ?_⟩
        intro r1 hr2 hon
        obtain ⟨L1, hw1, hm1⟩ := hon
        have e := hw1.unique (hg.2.1 r1 hr2)
        rw [e] at hm1
        by_contra hne
        exact hg.lists_disjoint hr2 hr1 hne x hm1 (List.mem_cons_of_mem _ hxc)
    · intro hin r hr1 hon
      obtain ⟨L1, hw1, hm1⟩ := hon
      exact hw1.not_mem_of_not_in_list hin hm1

/-- Witness of C14: the state with the list `{10,20,30}` at node `0` and the list `{11}` at
node `1` is reachable; there the element `20` lies on the list `0` only and the unlinked
node `40` on none. -/
theorem reachable_invariant_witness :
    Reachable sampleTwo [1, 0] ∧
    (∀ y, sampleTwo.prev y = none ↔ sampleTwo.next y = none) ∧
    (∃ r, r ∈ [1, 0] ∧ OnList sampleTwo r 20 ∧
      ∀ r1, r1 ∈ [1, 0] → OnList sampleTwo r1 20 → r1 = r) ∧
    (∀ r, r ∈ [1, 0] → ¬ OnList sampleTwo r 40) := by
  have hreach : Reachable sampleTwo [1, 0] :=
    Reachable.push_back 1 11 sampleTwo
      (Reachable.new_list 1
        (Reachable.push_back 0 30 sample3
          (Reachable.push_back 0 20 ((push_back 0 20 sample1).getD emptyHeap)
            (Reachable.push_back 0 10 sample1
              (Reachable.new_list 0 Reachable.init (by decide) (by decide))
              (by decide) (by decide) rfl)
            (by decide) (by decide) rfl)
          (by decide) (by decide) rfl)
        (by decide) (by decide))
      (by decide) (by decide) rfl
  have hinv := reachable_invariant sampleTwo [1, 0] hreach
  exact ⟨hreach, hinv.1, (hinv.2.2 20 (by decide)).1 (by decide),
    (hinv.2.2 40 (by decide)).2 (by decide)⟩

/-! ## Splicing within one list -/

/-- Two adjacent non-empty runs `S1`, `S2` of a well-formed list: the nodes at their ends
are distinct, and every memory that keeps the fields off these ends and joins the
predecessor `p` of `S1` to `S2`, `S2` to `S1` and `S1` to the successor `n` of `S2` holds
the list with the two runs exchanged. -/
theorem swap_blocks {h : Heap} {r : Nat} {X S1 S2 Z : List Nat} {p f1 l1 f2 l2 n : Nat}
    (hwf : WF h r (X ++ S1 ++ S2 ++ Z)) (hp : (r :: X).getLast? = some p)
    (hf1 : S1.head? = some f1) (hl1 : S1.getLast? = some l1) (hf2 : S2.head? = some f2)
    (hl2 : S2.getLast? = some l2) (hn : (Z ++ [r]).head? = some n) :
    (h.prev f1 = some p ∧ h.prev f2 = some l1 ∧ h.prev n = some l2) ∧
    (p ≠ l1 ∧ p ≠ l2 ∧ l1 ≠ l2 ∧ f1 ≠ f2 ∧ f1 ≠ n ∧ f2 ≠ n) ∧
    ∀ k : Heap, (∀ y, y ∉ [p, l1, l2] → k.next y = h.next y) →
      (∀ y, y ∉ [f1, f2, n] → k.prev y = h.prev y) →
      (k.next p = some f2 ∧ k.prev f2 = some p) →
      (k.next l2 = some f1 ∧ k.prev f1 = some l2) →
      (k.next l1 = some n ∧ k.prev n = some l1) → WF k r (X ++ S2 ++ S1 ++ Z) := by
  obtain ⟨hnd, hl⟩ := hwf
  have hS1h : ∀ Y : List Nat, (S1 ++ Y).head? = some f1 := by
    intro Y
    obtain ⟨T, rfl⟩ := exists_cons_of_head? hf1
    rfl
  have hS2h : ∀ Y : List Nat, (S2 ++ Y).head? = some f2 := by
    intro Y
    obtain ⟨T, rfl⟩ := exists_cons_of_head? hf2
    rfl
  have e0 : r :: (X ++ S1 ++ S2 ++ Z ++ [r]) = (r :: X) ++ (S1 ++ (S2 ++ (Z ++ [r]))) := by
    simp
  rw [e0, Linked_append hp (hS1h _), Linked_append hl1 (hS2h _), Linked_append hl2 hn] at hl
  obtain ⟨hPl, ⟨-, hf1p⟩, hS1l, ⟨-, hf2p⟩, hS2l, ⟨-, hnp⟩, hZl⟩ := hl
  -- zones
  have zp : p ∈ r :: X := List.mem_of_getLast?_eq_some hp
  have zf1 : f1 ∈ S1 := List.mem_of_mem_head? hf1
  have zl1 : l1 ∈ S1 := List.mem_of_getLast?_eq_some hl1
  have zf2 : f2 ∈ S2 := List.mem_of_mem_head? hf2
  have zl2 : l2 ∈ S2 := List.mem_of_getLast?_eq_some hl2
  have zn : n ∈ Z ++ [r] := List.mem_of_mem_head? hn
  -- disjointness
  have hrL : r ∉ X ++ S1 ++ S2 ++ Z := (List.nodup_cons.1 hnd).1
  have hnd3 : (((r :: X) ++ S1) ++ S2 ++ Z).Nodup := by simpa using hnd
  have d3 : List.Disjoint (((r :: X) ++ S1) ++ S2) Z := List.disjoint_of_nodup_append hnd3
  have hnd2 : (((r :: X) ++ S1) ++ S2).Nodup := List.Nodup.of_append_left hnd3
  have d2 : List.Disjoint ((r :: X) ++ S1) S2 := List.disjoint_of_nodup_append hnd2
  have hnd1 : ((r :: X) ++ S1).Nodup := List.Nodup.of_append_left hnd2
  have d1 : List.Disjoint (r :: X) S1 := List.disjoint_of_nodup_append hnd1
  have ndP : (r :: X).Nodup := List.Nodup.of_append_left hnd1
  have ndS1 : S1.Nodup := List.Nodup.of_append_right hnd1
  have ndS2 : S2.Nodup := List.Nodup.of_append_right hnd2
  have ndZ : Z.Nodup := List.Nodup.of_append_right hnd3
  have hrZ : r ∉ Z := fun hm => hrL (List.mem_append_right _ hm)
  have ndSZ : (Z ++ [r]).Nodup :=
    List.Nodup.append ndZ (by simp) (by
      intro y hy hm
      rw [List.mem_singleton] at hm
      exact hrZ (hm ▸ hy))
  have dS1P : ∀ y, y ∈ S1 → y ∉ r :: X := fun y hy hm => d1 hm hy
  have dS2P : ∀ y, y ∈ S2 → y ∉ r :: X := fun y hy hm => d2 (List.mem_append_left _ hm) hy
  have dS2S1 : ∀ y, y ∈ S2 → y ∉ S1 := fun y hy hm => d2 (List.mem_append_right _ hm) hy
  have dS1S2 : ∀ y, y ∈ S1 → y ∉ S2 := fun y hy hm => dS2S1 y hm hy
  have dS1Z : ∀ y, y ∈ S1 → y ∉ Z ++ [r] := by
    intro y hy hm
    rcases List.mem_append.1 hm with hm | hm
    · exact d3 (List.mem_append_left _ (List.mem_append_right _ hy)) hm
    · rw [List.mem_singleton] at hm
      exact d1 (List.mem_cons_self _ _) (hm ▸ hy)
  have dS2Z : ∀ y, y ∈ S2 → y ∉ Z ++ [r] := by
    intro y hy hm
    rcases List.mem_append.1 hm with hm | hm
    · exact d3 (List.mem_append_right _ hy) hm
    · rw [List.mem_singleton] at hm
      exact d2 (List.mem_append_left _ (List.mem_cons_self _ _)) (hm ▸ hy)
  have dXZ : ∀ y, y ∈ X → y ∉ Z ++ [r] := by
    intro y hy hm
    rcases List.mem_append.1 hm with hm | hm
    · exact d3 (List.mem_append_left _ (List.mem_append_left _ (List.mem_cons_of_mem _ hy))) hm
    · rw [List.mem_singleton] at hm
      exact (List.nodup_cons.1 ndP).1 (hm ▸ hy)
  have dZP : ∀ y, y ∈ Z → y ∉ r :: X := fun y hy hm =>
    d3 (List.mem_append_left _ (List.mem_append_left _ hm)) hy
  refine ⟨⟨hf1p, hf2p, hnp⟩, ⟨fun e => dS1P _ zl1 (e ▸ zp), fun e => dS2P _ zl2 (e ▸ zp),
    fun e => dS1S2 _ zl1 (e ▸ zl2), fun e => dS1S2 _ zf1 (e ▸ zf2),
    fun e => dS1Z _ zf1 (e ▸ zn), fun e => dS2Z _ zf2 (e ▸ zn)⟩, ?_⟩
  intro k hfn hfp a1 a2 a3
  have kP := Linked_frame_seg [p, l1, l2] [f1, f2, n] hPl hfn hfp ndP
    (by
      intro a ha; simp only [List.mem_cons, List.mem_singleton, List.not_mem_nil,
        or_false] at ha
      rcases ha with rfl | rfl | rfl
      · exact Or.inr hp
      · exact Or.inl (dS1P _ zl1)
      · exact Or.inl (dS2P _ zl2))
    (by
      intro b hb; simp only [List.mem_cons, List.mem_singleton, List.not_mem_nil,
        or_false] at hb
      rcases hb with rfl | rfl | rfl
      · exact Or.inl (dS1P _ zf1)
      · exact Or.inl (dS2P _ zf2)
      · rcases List.mem_append.1 zn with hm | hm
        · exact Or.inl (dZP _ hm)
        · rw [List.mem_singleton] at hm; exact Or.inr (by rw [hm]; rfl))
  have kS1 := Linked_frame_seg [p, l1, l2] [f1, f2, n] hS1l hfn hfp ndS1
    (by
      intro a ha; simp only [List.mem_cons, List.mem_singleton, List.not_mem_nil,
        or_false] at ha
      rcases ha with rfl | rfl | rfl
      · exact Or.inl (fun hm => dS1P _ hm zp)
      · exact Or.inr hl1
      · exact Or.inl (dS2S1 _ zl2))
    (by
      intro b hb; simp only [List.mem_cons, List.mem_singleton, List.not_mem_nil,
        or_false] at hb
      rcases hb with rfl | rfl | rfl
      · exact Or.inr hf1
      · exact Or.inl (dS2S1 _ zf2)
      · exact Or.inl (fun hm => dS1Z _ hm zn))
  have kS2 := Linked_frame_seg [p, l1, l2] [f1, f2, n] hS2l hfn hfp ndS2
    (by
      intro a ha; simp only [List.mem_cons, List.mem_singleton, List.not_mem_nil,
        or_false] at ha
      rcases ha with rfl | rfl | rfl
      · exact Or.inl (fun hm => dS2P _ hm zp)
      · exact Or.inl (dS1S2 _ zl1)
      · exact Or.inr hl2)
    (by
      intro b hb; simp only [List.mem_cons, List.mem_singleton, List.not_mem_nil,
        or_false] at hb
      rcases hb with rfl | rfl | rfl
      · exact Or.inl (dS1S2 _ zf1)
      · exact Or.inr hf2
      · exact Or.inl (fun hm => dS2Z _ hm zn))
  have kZ := Linked_frame_seg [p, l1, l2] [f1, f2, n] hZl hfn hfp ndSZ
    (by
      intro a ha; simp only [List.mem_cons, List.mem_singleton, List.not_mem_nil,
        or_false] at ha
      rcases ha with rfl | rfl | rfl
      · rcases List.mem_cons.1 zp with hm | hm
        · exact Or.inr (by rw [hm, List.getLast?_concat])
        · exact Or.inl (dXZ _ hm)
      · exact Or.inl (dS1Z _ zl1)
      · exact Or.inl (dS2Z _ zl2))
    (by
      intro b hb; simp only [List.mem_cons, List.mem_singleton, List.not_mem_nil,
        or_false] at hb
      rcases hb with rfl | rfl | rfl
      · exact Or.inl (dS1Z _ zf1)
      · exact Or.inl (dS2Z _ zf2)
      · exact Or.inr hn)
  refine ⟨?_, ?_⟩
  · have e : r :: (X ++ S2 ++ S1 ++ Z) = (((r :: X) ++ S2) ++ S1) ++ Z := by simp
    rw [e]
    refine List.Nodup.append (List.Nodup.append (List.Nodup.append ndP ndS2 ?_) ndS1 ?_) ndZ ?_
    · exact fun y hy hm => dS2P y hm hy
    · intro y hy hm
      rcases List.mem_append.1 hy with hy | hy
      · exact dS1P y hm hy
      · exact dS1S2 y hm hy
    · intro y hy hm
      rcases List.mem_append.1 hy with hy | hy
      · rcases List.mem_append.1 hy with hy | hy
        · exact dZP y hm hy
        · exact dS2Z y hy (List.mem_append_left _ hm)
      · exact dS1Z y hy (List.mem_append_left _ hm)
  · have e : r :: (X ++ S2 ++ S1 ++ Z ++ [r]) = (r :: X) ++ (S2 ++ (S1 ++ (Z ++ [r]))) := by
      simp
    rw [e, Linked_append hp (hS2h _), Linked_append hl2 (hS1h _), Linked_append hl1 hn]
    exact ⟨kP, a1, kS2, a2, kS1, a3, kZ⟩

/-- `splice` within one list, the position before the range: the list `X ++ Y ++ R ++ Z`
with `pos` at the start of the non-empty `Y` and the non-empty range `R = [first, last)`
becomes `X ++ R ++ Y ++ Z`. -/
theorem splice_same_list_before {h : Heap} {r : Nat} {X Y R Z : List Nat}
    {pos first last : Nat} (hwf : WF h r (X ++ Y ++ R ++ Z)) (hpos : Y.head? = some pos)
    (hfirst : R.head? = some first) (hlast : (Z ++ [r]).head? = some last) :
    ∃ h1, splice (some pos) (some first) (some last) h = some h1 ∧
      WF h1 r (X ++ R ++ Y ++ Z) := by
  obtain ⟨p, hp⟩ := getLast?_cons_exists r X
  obtain ⟨l1, hl1⟩ : ∃ l1, Y.getLast? = some l1 := by
    obtain ⟨T, rfl⟩ := exists_cons_of_head? hpos
    exact getLast?_cons_exists pos T
  obtain ⟨l2, hl2⟩ : ∃ l2, R.getLast? = some l2 := by
    obtain ⟨T, rfl⟩ := exists_cons_of_head? hfirst
    exact getLast?_cons_exists first T
  obtain ⟨⟨r1, r2, r3⟩, ⟨n1, n2, n3, n4, n5, n6⟩, hk⟩ :=
    swap_blocks hwf hp hpos hl1 hfirst hl2 hlast
  have hc : ¬ (some first = some last) := fun e => n6 (Option.some.inj e)
  refine ⟨setPrev (setNext (setPrev (setNext (setPrev (setNext h l2 (some pos)) pos (some l2))
    p (some first)) first (some p)) l1 (some last)) last (some l1), ?_, ?_⟩
  · simp only [splice, hc, if_false, std_prev, r1, r2, r3, link, Option.bind]
  · apply hk
    · intro y hy; simp at hy; simp [hy.1, hy.2.1, hy.2.2]
    · intro y hy; simp at hy; simp [hy.1, hy.2.1, hy.2.2]
    · exact ⟨by simp [n1], by simp [n6]⟩
    · exact ⟨by simp [Ne.symm n2, Ne.symm n3], by simp [n4, n5]⟩
    · exact ⟨by simp, by simp⟩

/-- `splice` within one list, the position after `last`: the list `X ++ R ++ Y ++ Z` with
the non-empty range `R = [first, last)`, `last` at the start of the non-empty `Y` and `pos`
at the start of `Z` (`end()` when `Z` is empty) becomes `X ++ Y ++ R ++ Z`. -/
theorem splice_same_list_after {h : Heap} {r : Nat} {X R Y Z : List Nat}
    {pos first last : Nat} (hwf : WF h r (X ++ R ++ Y ++ Z)) (hfirst : R.head? = some first)
    (hlast : Y.head? = some last) (hpos : (Z ++ [r]).head? = some pos) :
    ∃ h1, splice (some pos) (some first) (some last) h = some h1 ∧
      WF h1 r (X ++ Y ++ R ++ Z) := by
  obtain ⟨p, hp⟩ := getLast?_cons_exists r X
  obtain ⟨l1, hl1⟩ : ∃ l1, R.getLast? = some l1 := by
    obtain ⟨T, rfl⟩ := exists_cons_of_head? hfirst
    exact getLast?_cons_exists first T
  obtain ⟨l2, hl2⟩ : ∃ l2, Y.getLast? = some l2 := by
    obtain ⟨T, rfl⟩ := exists_cons_of_head? hlast
    exact getLast?_cons_exists last T
  obtain ⟨⟨r1, r2, r3⟩, ⟨n1, n2, n3, n4, n5, n6⟩, hk⟩ :=
    swap_blocks hwf hp hfirst hl1 hlast hl2 hpos
  have hc : ¬ (some first = some last) := fun e => n4 (Option.some.inj e)
  refine ⟨setPrev (setNext (setPrev (setNext (setPrev (setNext h l1 (some pos)) pos (some l1))
    l2 (some first)) first (some l2)) p (some last)) last (some p), ?_, ?_⟩
  · simp only [splice, hc, if_false, std_prev, r1, r2, r3, link, Option.bind]
  · apply hk
    · intro y hy; simp at hy; simp [hy.1, hy.2.1, hy.2.2]
    · intro y hy; simp at hy; simp [hy.1, hy.2.1, hy.2.2]
    · exact ⟨by simp, by simp⟩
    · exact ⟨by simp [Ne.symm n2], by simp [n4]⟩
    · exact ⟨by simp [Ne.symm n1, n3], by simp [Ne.symm n5, Ne.symm n6]⟩

end intrusive
